import Mathlib

/-!
# Tank matter service: a shallow embedding of `code/matter_service.go`

The Go service manipulates two stores, the metadata repository (`matterDao`) and the
physical tree (`os`, `util`), under a per-user lock.  The embedding threads an explicit
`State` through every method.  A method returns a `Res`: it finished (`ok`), it panicked
(`panic`, carrying the state reached when the panic was raised, since nothing is rolled
back), or the recursion fuel ran out (`timeout`, the model of a run that never returns).

Go pointers to `Matter` are passed as values; the `nil` checks of the source on them are
discharged by the types, and the slice of `AtomicMoveBatch` is an `Option`, `none` for `nil`.  Strings are Lean strings, so a Go string is assumed to be valid UTF-8; `len`
is the byte length.  The collaborators that are not part of the service (physical storage,
user root directory, identifier generation) are the fields of `Env`, a parameter of every
method.  The repository, the image cache and the lock registry are outside the file too:
they are modelled from the spec, each definition saying so.  `Init` (wiring) and
`DownloadFile` (a call into the transport package) have no counterpart here.
-/

namespace Tank

/-! ## Data model -/

/-- The fields of the `Matter` record that the service reads or writes. -/
structure Matter where
  Uuid : String
  Puuid : String
  UserUuid : String
  Username : String
  Dir : Bool
  Name : String
  Md5 : String
  Size : Int
  Privacy : Bool
  Path : String
deriving DecidableEq, Repr

/-- The fields of the `User` record that the service reads. -/
structure User where
  Uuid : String
  Username : String
  SizeLimit : Int
deriving DecidableEq, Repr

/-- Modelled from the spec: the constant `MATTER_ROOT` is declared outside this file; the
spec calls it "a sentinel ROOT value" that is the `parentId` of top-level nodes. -/
def MATTER_ROOT : String := "root"

/-- Modelled from the spec: the constant `MATTER_NAME_MAX_LENGTH` is declared outside this
file; the spec only says names have a maximum length, the literal used by `AtomicRename`
is 200. -/
def MATTER_NAME_MAX_LENGTH : Nat := 200

/-- Modelled from the spec: the constant `MATTER_NAME_MAX_DEPTH` is declared outside this
file; the spec bounds the nesting depth by 32, the literal used by `createDirectory`. -/
def MATTER_NAME_MAX_DEPTH : Nat := 32

/-- The ways a method aborts: `result.BadRequest(format, ...)`, a `panic` with a plain
string, `PanicError(err)` on an error of the physical layer, and the not-found error of
`CheckByUuid`.  Where the code formats a message, only the format string is kept. -/
inductive Failure where
  | badRequest (format : String)
  | message (text : String)
  | ioError (site : String)
  | notFound (uuid : String)
deriving DecidableEq, Repr

/-- Outcome of running a method from some state. -/
inductive Res (σ α : Type) where
  | ok (a : α) (s : σ)
  | panic (e : Failure) (s : σ)
  | timeout
deriving DecidableEq, Repr

/-- Sequencing: a panic or a timeout of the first step ends the run. -/
def Res.bind {σ α β : Type} (r : Res σ α) (f : α → σ → Res σ β) : Res σ β :=
  match r with
  | .ok a s => f a s
  | .panic e s => .panic e s
  | .timeout => .timeout

/-- The collaborators of the service that live outside `matter_service.go`, over an
arbitrary representation `D` of the physical tree.  An operation of the physical layer
answers `none` when it reports an error. -/
structure Env (D : Type) where
  /-- The function `GetUserFileRootDir(username)`. -/
  GetUserFileRootDir : String → String
  /-- The identifier that `matterDao.Create` assigns when the counter stands at `n`. -/
  NewUuid : Nat → String
  /-- The function `util.MakeDirAll(path)`. -/
  MakeDirAll : D → String → Option D
  /-- The function `util.PathExists(path)`. -/
  PathExists : D → String → Option Bool
  /-- The function `os.Remove(path)`. -/
  Remove : D → String → Option D
  /-- The function `os.Rename(old, new)`. -/
  Rename : D → String → String → Option D
  /-- The function `util.CopyFile(src, dest)`. -/
  CopyFile : D → String → String → Option D
  /-- The call `os.OpenFile(path, O_WRONLY|O_CREATE, 0777)` of `Upload`. -/
  OpenFile : D → String → Option D
  /-- The call `io.Copy(destFile, file)` of `Upload`: writes the content to the file opened
  at the path and reports the number of bytes written. -/
  Copy : D → String → List Nat → Option (D × Int)
  /-- The call `destFile.Close()` of `Upload`, on the file opened at the path. -/
  Close : D → String → Option D
  /-- The call `http.Get(url)` of `AtomicCrawl`: the body of the response. -/
  HttpGet : String → Option (List Nat)

/-- The two stores, the image cache and the lock registry. -/
structure State (D : Type) where
  /-- The rows of the metadata repository, oldest first. -/
  matters : List Matter
  /-- The matter identifiers that own image cache entries. -/
  imageCaches : List String
  /-- The user identifiers whose matter lock is currently held. -/
  locks : List String
  /-- The counter behind identifier assignment. -/
  nextId : Nat
  /-- The physical tree. -/
  disk : D

/-! ## Strings the way Go reads them -/

/-- The predicate `unicode.IsSpace`, which `strings.TrimSpace` uses. -/
def isSpace (c : Char) : Bool :=
  c = '\t' || c = '\n' || c = Char.ofNat 0x0B || c = Char.ofNat 0x0C || c = '\r' || c = ' '
    || c = Char.ofNat 0x85 || c = Char.ofNat 0xA0 || c = Char.ofNat 0x1680
    || (0x2000 ≤ c.toNat && c.toNat ≤ 0x200A)
    || c = Char.ofNat 0x2028 || c = Char.ofNat 0x2029 || c = Char.ofNat 0x202F
    || c = Char.ofNat 0x205F || c = Char.ofNat 0x3000

/-- The function `strings.TrimSpace`. -/
def TrimSpace (s : String) : String :=
  ⟨((s.data.dropWhile isSpace).reverse.dropWhile isSpace).reverse⟩

/-- The character class of the regular expression in `createDirectory` and `AtomicRename`,
the one with the slash. -/
def reservedWithSlash : List Char := ['<', '>', '|', '*', '?', '/', '\\']

/-- The character class of the regular expression in `CreateDirectories`, without the
slash. -/
def reservedNoSlash : List Char := ['<', '>', '|', '*', '?', '\\']

/-- The call `regexp.MatchString` on a one-character class: some character of the string
is in the class. -/
def matchesClass (cls : List Char) (s : String) : Bool :=
  s.data.any (fun c => decide (c ∈ cls))

/-- The pieces of `strings.Split(s, "/")`, on the characters of `s`. -/
def splitSlash : List Char → List (List Char)
  | [] => [[]]
  | c :: cs =>
    if c = '/' then [] :: splitSlash cs
    else
      match splitSlash cs with
      | [] => [[c]]
      | h :: t => (c :: h) :: t

/-- The function `strings.Split(s, "/")`. -/
def Split (s : String) : List String :=
  (splitSlash s.data).map String.mk

/-- The test `strings.Index(s, "//") != -1`. -/
def hasDoubleSlash : List Char → Bool
  | [] => false
  | [_] => false
  | a :: b :: cs => (a = '/' && b = '/') || hasDoubleSlash (b :: cs)

/-- Modelled from the spec: the helper `util.GetDirOfPath` is outside this file; rename
"changes only the leaf segment", so the directory of a path is what stands before its last
slash. -/
def GetDirOfPath (p : String) : String :=
  ⟨((p.data.reverse.dropWhile (fun c => c ≠ '/')).drop 1).reverse⟩

/-! ## The collaborators -/

section Dao

variable {D : Type}

/-- Modelled from the spec: the method `Matter.AbsolutePath` is outside this file; the
spec gives `absolutePath(matter) = userStorageRoot(matter.ownerName) + relativePath`. -/
def AbsolutePath (env : Env D) (m : Matter) : String :=
  env.GetUserFileRootDir m.Username ++ m.Path

/-- Modelled from the spec: the constructor `NewRootMatter` is outside this file; the root
is "a synthesized matter" with an empty `relativePath` and `parentId = ROOT`, owned by the
user, a directory; its identifier is the ROOT sentinel, the `parentId` of top-level nodes. -/
def NewRootMatter (user : User) : Matter :=
  { Uuid := MATTER_ROOT, Puuid := MATTER_ROOT, UserUuid := user.Uuid, Username := user.Username,
    Dir := true, Name := "", Md5 := "", Size := 0, Privacy := false, Path := "" }

/-- Modelled from the spec: the repository method `matterDao.Create` is outside this file;
"create(record) → record with assigned id" appends the record under a new identifier. -/
def Create (env : Env D) (m : Matter) (s : State D) : Res (State D) Matter :=
  let m1 := { m with Uuid := env.NewUuid s.nextId }
  .ok m1 { s with matters := s.matters ++ [m1], nextId := s.nextId + 1 }

/-- Modelled from the spec: the repository method `matterDao.Save` is outside this file;
"save(record) → updated record" replaces the stored row that has the record's identifier. -/
def Save (m : Matter) (s : State D) : Res (State D) Matter :=
  .ok m { s with matters := s.matters.map (fun r => if r.Uuid = m.Uuid then m else r) }

/-- Modelled from the spec: the cache method `imageCacheDao.DeleteByMatterUuid` is outside
this file; it "invalidates any cached derived-image artifacts keyed to a file's
identifier". -/
def DeleteByMatterUuid (uuid : String) (s : State D) : Res (State D) Unit :=
  .ok () { s with imageCaches := s.imageCaches.filter (fun u => u ≠ uuid) }

/-- Modelled from the spec: the repository method `matterDao.Delete` is outside this file;
it "removes a matter's metadata record" and "its physical content", and a delete "must
also release attached cache resources". -/
def Delete (env : Env D) (m : Matter) (s : State D) : Res (State D) Unit :=
  match env.Remove s.disk (AbsolutePath env m) with
  | none => .panic (.ioError "Delete") s
  | some d =>
    .ok () { s with matters := s.matters.filter (fun r => r.Uuid ≠ m.Uuid),
                    imageCaches := s.imageCaches.filter (fun u => u ≠ m.Uuid),
                    disk := d }

/-- Modelled from the spec: the repository method `matterDao.CheckByUuid` is outside this
file; "findById(id) → record or not-found error". -/
def CheckByUuid (uuid : String) (s : State D) : Res (State D) Matter :=
  match s.matters.find? (fun r => r.Uuid = uuid) with
  | some r => .ok r s
  | none => .panic (.notFound uuid) s

/-- Modelled from the spec: the repository method
`matterDao.CountByUserUuidAndPuuidAndDirAndName` is outside this file;
"findByOwnerParentKindName(owner, parentId, isDirectory, name) → count". -/
def CountByUserUuidAndPuuidAndDirAndName (userUuid puuid : String) (dir : Bool)
    (name : String) (s : State D) : Nat :=
  (s.matters.filter (fun r =>
    r.UserUuid = userUuid ∧ r.Puuid = puuid ∧ r.Dir = dir ∧ r.Name = name)).length

/-- Modelled from the spec: the repository method `matterDao.findByUserUuidAndPath` is
outside this file; the overwrite policy looks up "any existing matter at that exact path
for that owner". -/
def findByUserUuidAndPath (userUuid path : String) (s : State D) : Option Matter :=
  s.matters.find? (fun r => r.UserUuid = userUuid ∧ r.Path = path)

/-- Modelled from the spec: the repository method `matterDao.List` is outside this file;
"listChildren(parentId, owner, filter)" gives the rows with that parent and owner. -/
def matterDaoList (puuid userUuid : String) (s : State D) : List Matter :=
  s.matters.filter (fun r => r.Puuid = puuid ∧ r.UserUuid = userUuid)

/-- Modelled from the spec: the lock methods `userService.MatterLock` and `MatterUnlock`
are outside this file; "acquire(userId) blocks the caller until no other logical operation
holds the lock for that user", so a lone caller that finds the lock held never returns.
The body runs with the lock held and the deferred unlock runs on every exit. -/
def withMatterLock {α : Type} (userUuid : String) (body : State D → Res (State D) α)
    (s : State D) : Res (State D) α :=
  if userUuid ∈ s.locks then .timeout
  else
    match body { s with locks := userUuid :: s.locks } with
    | .ok a s1 => .ok a { s1 with locks := s1.locks.erase userUuid }
    | .panic e s1 => .panic e { s1 with locks := s1.locks.erase userUuid }
    | .timeout => .timeout

/-- A `for ... range` loop whose body may panic. -/
def forEach {α : Type} (body : α → State D → Res (State D) Unit) :
    List α → State D → Res (State D) Unit
  | [], s => .ok () s
  | x :: xs, s => (body x s).bind (fun _ s1 => forEach body xs s1)

/-- A call of the physical layer followed by `PanicError`. -/
def ioStep (site : String) (op : D → Option D) (s : State D) : Res (State D) Unit :=
  match op s.disk with
  | none => .panic (.ioError site) s
  | some d => .ok () { s with disk := d }

/-- A `defer` statement: the deferred call runs when the rest of the method returns and
when it panics; a panic of the deferred call takes the place of the outcome. -/
def deferred {α : Type} (cleanup : State D → Res (State D) Unit) (rest : Res (State D) α) :
    Res (State D) α :=
  match rest with
  | .ok a s1 => (cleanup s1).bind fun _ s2 => .ok a s2
  | .panic e s1 => (cleanup s1).bind fun _ s2 => .panic e s2
  | .timeout => .timeout

end Dao

/-! ## The service, method by method -/

section Service

variable {D : Type}

/-- The method `AtomicDelete`. -/
def AtomicDelete (env : Env D) (matter : Matter) (s : State D) : Res (State D) Unit :=
  withMatterLock matter.UserUuid (Delete env matter) s

/-- The method `Upload`.  The reader is the list of the bytes it yields. -/
def Upload (env : Env D) (file : List Nat) (user : User) (dirMatter : Matter)
    (filename : String) (privacy : Bool) (s : State D) : Res (State D) Matter :=
  if filename.utf8ByteSize > MATTER_NAME_MAX_LENGTH then
    .panic (.badRequest "文件名不能超过%s") s
  else
    let dirAbsolutePath := AbsolutePath env dirMatter
    let dirRelativePath := dirMatter.Path
    if CountByUserUuidAndPuuidAndDirAndName user.Uuid dirMatter.Uuid false filename s > 0 then
      .panic (.badRequest "该目录下%s已经存在了") s
    else
      let fileAbsolutePath := dirAbsolutePath ++ "/" ++ filename
      let fileRelativePath := dirRelativePath ++ "/" ++ filename
      (ioStep "MakeDirAll" (fun d => env.MakeDirAll d dirAbsolutePath) s).bind fun _ s1 =>
      match env.PathExists s1.disk fileAbsolutePath with
      | none => .panic (.ioError "PathExists") s1
      | some exist =>
        (if exist then ioStep "Remove" (fun d => env.Remove d fileAbsolutePath) s1
         else .ok () s1).bind fun _ s2 =>
        (ioStep "OpenFile" (fun d => env.OpenFile d fileAbsolutePath) s2).bind fun _ s3 =>
        deferred (ioStep "Close" (fun d => env.Close d fileAbsolutePath))
          (match env.Copy s3.disk fileAbsolutePath file with
           | none => .panic (.ioError "Copy") s3
           | some (d4, fileSize) =>
             let s4 := { s3 with disk := d4 }
             if user.SizeLimit ≥ 0 ∧ fileSize > user.SizeLimit then
               (ioStep "Remove" (fun d => env.Remove d fileAbsolutePath) s4).bind fun _ s5 =>
               .panic (.badRequest "文件大小超出限制 %s > %s ") s5
             else
               Create env
                 { Uuid := "", Puuid := dirMatter.Uuid, UserUuid := user.Uuid,
                   Username := user.Username, Dir := false, Name := filename, Md5 := "",
                   Size := fileSize, Privacy := privacy, Path := fileRelativePath } s4)

/-- The method `AtomicUpload`. -/
def AtomicUpload (env : Env D) (file : List Nat) (user : User) (dirMatter : Matter)
    (filename : String) (privacy : Bool) (s : State D) : Res (State D) Matter :=
  withMatterLock user.Uuid (Upload env file user dirMatter filename privacy) s

/-- The method `createDirectory`. -/
def createDirectory (env : Env D) (dirMatter : Matter) (name : String) (user : User)
    (s : State D) : Res (State D) Matter :=
  if !dirMatter.Dir then
    .panic (.badRequest "dirMatter必须是文件夹") s
  else if dirMatter.UserUuid ≠ user.Uuid then
    .panic (.badRequest "dirMatter的userUuid和user不一致") s
  else
    let name := TrimSpace name
    if name = "" then
      .panic (.badRequest "name参数必填，并且不能全是空格") s
    else if name.utf8ByteSize > MATTER_NAME_MAX_LENGTH then
      .panic (.badRequest "name长度不能超过%d") s
    else if matchesClass reservedWithSlash name then
      .panic (.badRequest "名称中不能包含以下特殊符号：< > | * ? / \\") s
    else if CountByUserUuidAndPuuidAndDirAndName user.Uuid dirMatter.Uuid true name s > 0 then
      .panic (.badRequest "%s 已经存在了，请使用其他名称。") s
    else
      let parts := Split dirMatter.Path
      if parts.length > 32 then
        .panic (.badRequest "文件夹最多%d层") s
      else
        let absolutePath := env.GetUserFileRootDir user.Username ++ dirMatter.Path ++ "/" ++ name
        let relativePath := dirMatter.Path ++ "/" ++ name
        (ioStep "MakeDirAll" (fun d => env.MakeDirAll d absolutePath) s).bind fun _ s1 =>
        Create env
          { Uuid := "", Puuid := dirMatter.Uuid, UserUuid := user.Uuid,
            Username := user.Username, Dir := true, Name := name, Md5 := "", Size := 0,
            Privacy := false, Path := relativePath } s1

/-- The method `AtomicCreateDirectory`. -/
def AtomicCreateDirectory (env : Env D) (dirMatter : Matter) (name : String) (user : User)
    (s : State D) : Res (State D) Matter :=
  withMatterLock user.Uuid (createDirectory env dirMatter name user) s

/-- The method `handleOverwrite`. -/
def handleOverwrite (env : Env D) (userUuid destinationPath : String) (overwrite : Bool)
    (s : State D) : Res (State D) Unit :=
  match findByUserUuidAndPath userUuid destinationPath s with
  | some destMatter =>
    if overwrite then Delete env destMatter s
    else .panic (.badRequest "%s已经存在，操作失败！") s
  | none => .ok () s

/-- The method `adjustPath`; the fuel bounds the depth of the recursion. -/
def adjustPath : Nat → Matter → Matter → State D → Res (State D) Unit
  | 0, _, _, _ => .timeout
  | fuel + 1, matter, parentMatter, s =>
    if matter.Dir then
      (Save { matter with Path := parentMatter.Path ++ "/" ++ matter.Name } s).bind
        fun matter s1 =>
          forEach (fun m => adjustPath fuel m matter)
            (matterDaoList matter.Uuid matter.UserUuid s1) s1
    else
      (DeleteByMatterUuid matter.Uuid s).bind fun _ s1 =>
      (Save { matter with Path := parentMatter.Path ++ "/" ++ matter.Name } s1).bind
        fun _ s2 => .ok () s2

/-- The method `move`; the fuel is that of `adjustPath`. -/
def move (env : Env D) (fuel : Nat) (srcMatter destDirMatter : Matter) (s : State D) :
    Res (State D) Unit :=
  if !destDirMatter.Dir then
    .panic (.badRequest "目标必须为文件夹") s
  else if srcMatter.Dir then
    let destAbsolutePath := AbsolutePath env destDirMatter ++ "/" ++ srcMatter.Name
    let srcAbsolutePath := AbsolutePath env srcMatter
    (ioStep "Rename" (fun d => env.Rename d srcAbsolutePath destAbsolutePath) s).bind
      fun _ s1 =>
      (Save { srcMatter with Puuid := destDirMatter.Uuid,
                             Path := destDirMatter.Path ++ "/" ++ srcMatter.Name } s1).bind
        fun srcMatter s2 =>
          forEach (fun m => adjustPath fuel m srcMatter)
            (matterDaoList srcMatter.Uuid srcMatter.UserUuid s2) s2
  else
    let destAbsolutePath := AbsolutePath env destDirMatter ++ "/" ++ srcMatter.Name
    let srcAbsolutePath := AbsolutePath env srcMatter
    (ioStep "Rename" (fun d => env.Rename d srcAbsolutePath destAbsolutePath) s).bind
      fun _ s1 =>
      (DeleteByMatterUuid srcMatter.Uuid s1).bind fun _ s2 =>
      (Save { srcMatter with Puuid := destDirMatter.Uuid,
                             Path := destDirMatter.Path ++ "/" ++ srcMatter.Name } s2).bind
        fun _ s3 => .ok () s3

/-- The loop of `WrapDetail`: the chain of parents above the identifier `puuid`, nearest
first; the fuel bounds the number of iterations. -/
def wrapParents : Nat → String → State D → Res (State D) (List Matter)
  | 0, _, _ => .timeout
  | fuel + 1, puuid, s =>
    if puuid ≠ MATTER_ROOT then
      (CheckByUuid puuid s).bind fun pFile s1 =>
      (wrapParents fuel pFile.Puuid s1).bind fun rest s2 =>
      .ok (pFile :: rest) s2
    else .ok [] s

/-- The method `WrapDetail`.  The `Parent` links it fills in are returned as the list that
starts at the matter and follows `Parent` until `nil`. -/
def WrapDetail (fuel : Nat) (matter : Matter) (s : State D) : Res (State D) (List Matter) :=
  (wrapParents fuel matter.Puuid s).bind fun parents s1 => .ok (matter :: parents) s1

/-- The method `Detail`. -/
def Detail (fuel : Nat) (uuid : String) (s : State D) : Res (State D) (List Matter) :=
  (CheckByUuid uuid s).bind fun matter s1 => WrapDetail fuel matter s1

/-- The loop `for tmpMatter != nil` of `AtomicMove` and `AtomicMoveBatch` over the chain
that `WrapDetail` assembled. -/
def onParentChain (srcMatter : Matter) (chain : List Matter) : Bool :=
  chain.any (fun tmpMatter => decide (srcMatter.Uuid = tmpMatter.Uuid))

/-- The body of `AtomicMove`, run with the lock held. -/
def AtomicMoveBody (env : Env D) (fuel : Nat) (srcMatter destDirMatter : Matter)
    (overwrite : Bool) (s : State D) : Res (State D) Unit :=
  if !destDirMatter.Dir then
    .panic (.badRequest "目标必须为文件夹") s
  else
    (WrapDetail fuel destDirMatter s).bind fun chain s1 =>
    if onParentChain srcMatter chain then
      .panic (.message "文件夹不能把自己移入到自己中，也不可以移入到自己的子文件夹下。") s1
    else
      let destinationPath := destDirMatter.Path ++ "/" ++ srcMatter.Name
      (handleOverwrite env srcMatter.UserUuid destinationPath overwrite s1).bind fun _ s2 =>
      move env fuel srcMatter destDirMatter s2

/-- The method `AtomicMove`. -/
def AtomicMove (env : Env D) (fuel : Nat) (srcMatter destDirMatter : Matter)
    (overwrite : Bool) (s : State D) : Res (State D) Unit :=
  withMatterLock srcMatter.UserUuid
    (AtomicMoveBody env fuel srcMatter destDirMatter overwrite) s

/-- The body of `AtomicMoveBatch`, run with the lock held.  The slice `srcMatters` is
`none` when it is `nil`. -/
def AtomicMoveBatchBody (env : Env D) (fuel : Nat) (srcMatters : Option (List Matter))
    (destDirMatter : Matter) (s : State D) : Res (State D) Unit :=
  match srcMatters with
  | none => .panic (.badRequest "srcMatters cannot be nil.") s
  | some srcMatters =>
    if !destDirMatter.Dir then
      .panic (.badRequest "目标必须为文件夹") s
    else
      (WrapDetail fuel destDirMatter s).bind fun chain s1 =>
      if srcMatters.any (fun srcMatter => onParentChain srcMatter chain) then
        .panic (.message "文件夹不能把自己移入到自己中，也不可以移入到自己的子文件夹下。") s1
      else
        forEach (fun srcMatter => move env fuel srcMatter destDirMatter) srcMatters s1

/-- The method `AtomicMoveBatch`. -/
def AtomicMoveBatch (env : Env D) (fuel : Nat) (srcMatters : Option (List Matter))
    (destDirMatter : Matter) (s : State D) : Res (State D) Unit :=
  withMatterLock destDirMatter.UserUuid
    (AtomicMoveBatchBody env fuel srcMatters destDirMatter) s

/-- The method `copy`; the fuel bounds the depth of the recursion. -/
def copy (env : Env D) : Nat → Matter → Matter → String → State D → Res (State D) Unit
  | 0, _, _, _, _ => .timeout
  | fuel + 1, srcMatter, destDirMatter, name, s =>
    if srcMatter.Dir then
      (Create env
        { Uuid := "", Puuid := destDirMatter.Uuid, UserUuid := srcMatter.UserUuid,
          Username := srcMatter.Username, Dir := srcMatter.Dir, Name := name, Md5 := "",
          Size := srcMatter.Size, Privacy := srcMatter.Privacy,
          Path := destDirMatter.Path ++ "/" ++ name } s).bind
        fun newMatter s1 =>
          forEach (fun m => copy env fuel m newMatter m.Name)
            (matterDaoList srcMatter.Uuid srcMatter.UserUuid s1) s1
    else
      let destAbsolutePath := AbsolutePath env destDirMatter ++ "/" ++ name
      let srcAbsolutePath := AbsolutePath env srcMatter
      (ioStep "CopyFile" (fun d => env.CopyFile d srcAbsolutePath destAbsolutePath) s).bind
        fun _ s1 =>
        (Create env
          { Uuid := "", Puuid := destDirMatter.Uuid, UserUuid := srcMatter.UserUuid,
            Username := srcMatter.Username, Dir := srcMatter.Dir, Name := name, Md5 := "",
            Size := srcMatter.Size, Privacy := srcMatter.Privacy,
            Path := destDirMatter.Path ++ "/" ++ name } s1).bind
          fun _ s2 => .ok () s2

/-- The body of `AtomicCopy`, run with the lock held. -/
def AtomicCopyBody (env : Env D) (fuel : Nat) (srcMatter destDirMatter : Matter)
    (name : String) (overwrite : Bool) (s : State D) : Res (State D) Unit :=
  if !destDirMatter.Dir then
    .panic (.badRequest "目标必须为文件夹") s
  else
    let destinationPath := destDirMatter.Path ++ "/" ++ name
    (handleOverwrite env srcMatter.UserUuid destinationPath overwrite s).bind fun _ s1 =>
    copy env fuel srcMatter destDirMatter name s1

/-- The method `AtomicCopy`. -/
def AtomicCopy (env : Env D) (fuel : Nat) (srcMatter destDirMatter : Matter)
    (name : String) (overwrite : Bool) (s : State D) : Res (State D) Unit :=
  withMatterLock srcMatter.UserUuid
    (AtomicCopyBody env fuel srcMatter destDirMatter name overwrite) s

/-- The body of `AtomicRename`, run with the lock held. -/
def AtomicRenameBody (env : Env D) (fuel : Nat) (matter : Matter) (name : String)
    (user : User) (s : State D) : Res (State D) Unit :=
  if name = "" then
    .panic (.badRequest "name参数必填") s
  else if matchesClass reservedWithSlash name then
    .panic (.badRequest "名称中不能包含以下特殊符号：< > | * ? / \\") s
  else if name.utf8ByteSize > 200 then
    .panic (.message "name长度不能超过200") s
  else if name = matter.Name then
    .panic (.badRequest "新名称和旧名称一样，操作失败！") s
  else if CountByUserUuidAndPuuidAndDirAndName user.Uuid matter.Puuid matter.Dir name s > 0
  then
    .panic (.badRequest ("【" ++ name ++ "】已经存在了，请使用其他名称。")) s
  else if matter.Dir then
    let oldAbsolutePath := AbsolutePath env matter
    let absoluteDirPath := GetDirOfPath oldAbsolutePath
    let relativeDirPath := GetDirOfPath matter.Path
    let newAbsolutePath := absoluteDirPath ++ "/" ++ name
    (ioStep "Rename" (fun d => env.Rename d oldAbsolutePath newAbsolutePath) s).bind
      fun _ s1 =>
      (Save { matter with Name := name, Path := relativeDirPath ++ "/" ++ name } s1).bind
        fun matter s2 =>
          forEach (fun m => adjustPath fuel m matter)
            (matterDaoList matter.Uuid matter.UserUuid s2) s2
  else
    let oldAbsolutePath := AbsolutePath env matter
    let absoluteDirPath := GetDirOfPath oldAbsolutePath
    let relativeDirPath := GetDirOfPath matter.Path
    let newAbsolutePath := absoluteDirPath ++ "/" ++ name
    (ioStep "Rename" (fun d => env.Rename d oldAbsolutePath newAbsolutePath) s).bind
      fun _ s1 =>
      (DeleteByMatterUuid matter.Uuid s1).bind fun _ s2 =>
      (Save { matter with Name := name, Path := relativeDirPath ++ "/" ++ name } s2).bind
        fun _ s3 => .ok () s3

/-- The method `AtomicRename`. -/
def AtomicRename (env : Env D) (fuel : Nat) (matter : Matter) (name : String)
    (user : User) (s : State D) : Res (State D) Unit :=
  withMatterLock user.Uuid (AtomicRenameBody env fuel matter name user) s

/-- The loop of `CreateDirectories` past its first round: one `createDirectory` per
folder name, each inside the directory the previous round returned. -/
def createEach (env : Env D) (user : User) :
    List String → Matter → State D → Res (State D) Matter
  | [], dirMatter, s => .ok dirMatter s
  | name :: names, dirMatter, s =>
    (createDirectory env dirMatter name user s).bind fun dirMatter s1 =>
    createEach env user names dirMatter s1

/-- The method `CreateDirectories`. -/
def CreateDirectories (env : Env D) (user : User) (dirPath : String) (s : State D) :
    Res (State D) Matter :=
  if dirPath = "" then
    .panic (.message "文件夹不能为空") s
  else if dirPath.data.head? ≠ some '/' then
    .panic (.message "文件夹必须以/开头") s
  else if hasDoubleSlash dirPath.data then
    .panic (.message "文件夹不能出现连续的//") s
  else if matchesClass reservedNoSlash dirPath then
    .panic (.message "文件夹中不能包含以下特殊符号：< > | * ? \\") s
  else if dirPath = "/" then
    .ok (NewRootMatter user) s
  else
    let dirPath : String :=
      if dirPath.data.getLast? = some '/' then ⟨dirPath.data.dropLast⟩ else dirPath
    let folders := Split dirPath
    if folders.length > MATTER_NAME_MAX_DEPTH then
      .panic (.badRequest "文件夹最多%d层。") s
    else
      createEach env user (folders.drop 1) (NewRootMatter user) s

/-- The method `AtomicCrawl`. -/
def AtomicCrawl (env : Env D) (url filename : String) (user : User) (dirMatter : Matter)
    (privacy : Bool) (s : State D) : Res (State D) Matter :=
  withMatterLock user.Uuid
    (fun s1 =>
      if url = "" ∨ (¬ "http://".data <+: url.data ∧ ¬ "https://".data <+: url.data) then
        .panic (.message "资源url必填，并且应该以http://或者https://开头") s1
      else
        match env.HttpGet url with
        | none => .panic (.ioError "Get") s1
        | some body => Upload env body user dirMatter filename privacy s1) s

end Service

/-! ## A concrete environment and concrete repositories -/

/-- A physical layer that never fails and keeps the journal of the calls it received;
identifiers are `m0`, `m1`, ... -/
def journalEnv : Env (List String) where
  GetUserFileRootDir := fun username => "/data/" ++ username
  NewUuid := fun n => "m" ++ toString n
  MakeDirAll := fun d path => some (d ++ ["mkdir " ++ path])
  PathExists := fun _ _ => some false
  Remove := fun d path => some (d ++ ["rm " ++ path])
  Rename := fun d old new => some (d ++ ["mv " ++ old ++ " " ++ new])
  CopyFile := fun d src dest => some (d ++ ["cp " ++ src ++ " " ++ dest])
  OpenFile := fun d path => some (d ++ ["open " ++ path])
  Copy := fun d path file => some (d ++ ["write " ++ path], file.length)
  Close := fun d path => some (d ++ ["close " ++ path])
  HttpGet := fun _ => none

/-- A user without quota. -/
def ann : User := { Uuid := "u1", Username := "ann", SizeLimit := -1 }

/-- The state with an empty repository and nothing on disk. -/
def emptyState : State (List String) :=
  { matters := [], imageCaches := [], locks := [], nextId := 0, disk := [] }

/-- A directory row of `ann`. -/
def dirRow (uuid puuid name path : String) : Matter :=
  { Uuid := uuid, Puuid := puuid, UserUuid := "u1", Username := "ann", Dir := true,
    Name := name, Md5 := "", Size := 0, Privacy := false, Path := path }

/-- A file row of `ann`. -/
def fileRow (uuid puuid name path : String) : Matter :=
  { Uuid := uuid, Puuid := puuid, UserUuid := "u1", Username := "ann", Dir := false,
    Name := name, Md5 := "", Size := 0, Privacy := false, Path := path }

/-- A state of `journalEnv` holding the given rows. -/
def stateOf (rows : List Matter) : State (List String) :=
  { matters := rows, imageCaches := [], locks := [], nextId := rows.length, disk := [] }

/-- A directory `d` under the root. -/
def folderD : Matter := dirRow "m0" "root" "d" "/d"

/-- A file `f` inside `folderD`. -/
def fileF : Matter := fileRow "m1" "m0" "f" "/d/f"

/-- A directory `e` inside `folderD`. -/
def folderE : Matter := dirRow "m1" "m0" "e" "/d/e"

/-- Two directories `a` and `b` under the root, each holding a file named `x`. -/
def twoFolders : List Matter :=
  [dirRow "m0" "root" "a" "/a", dirRow "m1" "root" "b" "/b",
   fileRow "m2" "m0" "x" "/a/x", fileRow "m3" "m1" "x" "/b/x"]

/-- A directory `t` under the root. -/
def folderT : Matter := dirRow "m3" "root" "t" "/t"

/-- The directory `d`, holding the directory `e`, holding a file `g`; and the directory `t`. -/
def smallTree : List Matter :=
  [folderD, folderE, fileRow "m2" "m1" "g" "/d/e/g", folderT]

/-- A second user without quota. -/
def bob : User := { Uuid := "u2", Username := "bob", SizeLimit := -1 }

/-- A directory `b` of `bob` under the root. -/
def bobsFolder : Matter :=
  { Uuid := "m4", Puuid := "root", UserUuid := "u2", Username := "bob", Dir := true,
    Name := "b", Md5 := "", Size := 0, Privacy := false, Path := "/b" }

/-- The state of `smallTree` at a moment when the matter lock of `ann` is held. -/
def lockedTree : State (List String) := { stateOf smallTree with locks := ["u1"] }

/-- The state of `smallTree` and the directory of `bob`, at a moment when the matter lock
of `ann` is held. -/
def lockedShared : State (List String) :=
  { stateOf (smallTree ++ [bobsFolder]) with locks := ["u1"] }

/-! ## The properties the claims speak of -/

/-- No two rows share parent identifier, owner, directory flag and name. -/
def SiblingUnique (ms : List Matter) : Prop :=
  (ms.map (fun r => (r.Puuid, r.UserUuid, r.Dir, r.Name))).Nodup

instance (ms : List Matter) : Decidable (SiblingUnique ms) := by
  unfold SiblingUnique; infer_instance

/-- The number of segments of a path: the pieces of `strings.Split(path, "/")` without
the empty piece before the leading slash. -/
def segments (path : String) : Nat := (Split path).length - 1

/-- Every directory row has a path of at most 32 segments. -/
def DepthBounded (ms : List Matter) : Prop :=
  ∀ r ∈ ms, r.Dir = true → segments r.Path ≤ 32

instance (ms : List Matter) : Decidable (DepthBounded ms) := by
  unfold DepthBounded; infer_instance

/-- The parent links of the repository form no cycle: some rank strictly grows from
the parent identifier of every row to the row's own identifier. -/
def Acyclic (ms : List Matter) : Prop :=
  ∃ rank : String → Nat, ∀ r ∈ ms, rank r.Puuid < rank r.Uuid

/-- The identifier `uuid` is that of the matter `m` or of one of the stored ancestors that
the parent links lead to from `m`, the way `WrapDetail` follows them. -/
inductive OnAncestorChain (ms : List Matter) (uuid : String) : Matter → Prop where
  | self (m : Matter) : m.Uuid = uuid → OnAncestorChain ms uuid m
  | above (m p : Matter) : m.Puuid ≠ MATTER_ROOT →
      ms.find? (fun r => r.Uuid = m.Puuid) = some p →
      OnAncestorChain ms uuid p → OnAncestorChain ms uuid m

/-- A row with its name and path blanked: the node it stands for and its links. -/
def shape (r : Matter) : Matter := { r with Name := "", Path := "" }

/-- No two rows share an identifier. -/
def UniqueIds (ms : List Matter) : Prop := (ms.map (fun r => r.Uuid)).Nodup

/-- Every row that is the parent of a stored row is a directory of the same owner. -/
def TreeShaped (ms : List Matter) : Prop :=
  ∀ p ∈ ms, ∀ c ∈ ms, c.Puuid = p.Uuid → p.Dir = true ∧ c.UserUuid = p.UserUuid

/-- The identifier `x` is that of a stored row below `a`: a row whose parent is `a`, or a
row whose parent is below `a`. -/
inductive Descendant (ms : List Matter) (a : String) : String → Prop where
  | child (b : Matter) : b ∈ ms → b.Puuid = a → Descendant ms a b.Uuid
  | deeper (b : Matter) : b ∈ ms → Descendant ms a b.Puuid → Descendant ms a b.Uuid

/-- The identifier `x` is `a` or below `a`. -/
def Under (ms : List Matter) (a x : String) : Prop := x = a ∨ Descendant ms a x

/-- The stored path of `b` is the stored path of its parent row, a slash, and its name. -/
def PathFromParent (ms : List Matter) (b : Matter) : Prop :=
  ∃ p ∈ ms, p.Uuid = b.Puuid ∧ b.Path = p.Path ++ "/" ++ b.Name

/-- Every link whose parent is `a` or below `a` joins a directory and a row of the same owner. -/
def TreeBelow (ms : List Matter) (a : String) : Prop :=
  ∀ p ∈ ms, ∀ c ∈ ms, c.Puuid = p.Uuid → Under ms a p.Uuid →
    p.Dir = true ∧ c.UserUuid = p.UserUuid

/-- A row with its path blanked: everything the re-stamp leaves alone. -/
def pathless (r : Matter) : Matter := { r with Path := "" }

/-- The rows `ms'` are the rows `ms` with the paths of some rows changed, all of them rows
whose identifier satisfies `P`. -/
def Restamped (P : String → Prop) (ms ms' : List Matter) : Prop :=
  ∃ g : Matter → Matter, ms' = ms.map g ∧
    ∀ r ∈ ms, pathless (g r) = pathless r ∧ (¬ P r.Uuid → g r = r)

/-- Every row of `ms` has a row of the same shape in `ms1`. -/
def ShapesIn (ms ms1 : List Matter) : Prop := ∀ r ∈ ms, ∃ r1 ∈ ms1, shape r1 = shape r

/-- What a finished `adjustPath(c, p)` has done: only paths changed, only at `c` and below;
the row of `c` carries the path derived from `p`; every row below `c` carries the path
derived from its parent row. -/
def AdjustPost {D : Type} (s s1 : State D) (c p : Matter) : Prop :=
  Restamped (Under s.matters c.Uuid) s.matters s1.matters
  ∧ { c with Path := p.Path ++ "/" ++ c.Name } ∈ s1.matters
  ∧ ∀ b ∈ s1.matters, Descendant s1.matters c.Uuid b.Uuid → PathFromParent s1.matters b

/-- The row that `move` saves for the source `a` moved into `t`. -/
def movedRow (a t : Matter) : Matter :=
  { a with Puuid := t.Uuid, Path := t.Path ++ "/" ++ a.Name }

/-- The rows after `move` has saved the source under its new parent. -/
def reparented (ms : List Matter) (a t : Matter) : List Matter :=
  ms.map (fun r => if r.Uuid = a.Uuid then movedRow a t else r)

instance (ms : List Matter) : Decidable (UniqueIds ms) := by
  unfold UniqueIds; infer_instance

instance (ms : List Matter) : Decidable (TreeShaped ms) := by
  unfold TreeShaped; infer_instance

/-- Every stored row has the path derived from its parent: the parent's stored path (the
empty path of the root for a top-level row), a slash, and the row's name. -/
def PathDerived (ms : List Matter) : Prop :=
  ∀ r ∈ ms, (r.Puuid = MATTER_ROOT ∧ r.Path = "" ++ "/" ++ r.Name) ∨ PathFromParent ms r

instance (ms : List Matter) (b : Matter) : Decidable (PathFromParent ms b) := by
  unfold PathFromParent; infer_instance

instance (ms : List Matter) : Decidable (PathDerived ms) := by
  unfold PathDerived; infer_instance

/-- The root has no stored row. -/
def RootNotStored (ms : List Matter) : Prop := ∀ r ∈ ms, r.Uuid ≠ MATTER_ROOT

/-- The matter is a stored row, or it is the synthesized root. -/
def StoredOrRoot (ms : List Matter) (m : Matter) : Prop :=
  m ∈ ms ∨ (m.Uuid = MATTER_ROOT ∧ m.Path = "")

/-- If a row of that owner stands at the path, it has no stored children. -/
def ChildlessAt (ms : List Matter) (userUuid path : String) : Prop :=
  ∀ x, ms.find? (fun r => r.UserUuid = userUuid ∧ r.Path = path) = some x →
    ∀ r ∈ ms, r.Puuid ≠ x.Uuid

/-- The rows after `Save` of the row `a`. -/
def replaced (ms : List Matter) (a : Matter) : List Matter :=
  ms.map (fun r => if r.Uuid = a.Uuid then a else r)

/-- What `move` and `AtomicRename` do after saving the row `a`: for a directory the
re-stamp of the children, for a file nothing more in the repository. -/
def RestampRun {D : Type} (fuel : Nat) (a : Matter) (s2 s1 : State D) : Prop :=
  (a.Dir = true ∧ forEach (fun m => adjustPath fuel m a)
      (matterDaoList a.Uuid a.UserUuid s2) s2 = .ok () s1)
  ∨ (a.Dir = false ∧ s1.matters = s2.matters)

/-- A row with its parent link and path blanked: what a move leaves alone. -/
def node (r : Matter) : Matter := { r with Puuid := "", Path := "" }

/-- The repository is a forest the way the spec describes it: unique identifiers, parents
that are directories of the same owner, no cycle, no stored row for the root, and every
path derived from the parent's. -/
def WellFormed (ms : List Matter) : Prop :=
  UniqueIds ms ∧ TreeShaped ms ∧ Acyclic ms ∧ RootNotStored ms ∧ PathDerived ms

/-- The row that `AtomicRename` saves for the matter `m` renamed to `name`. -/
def renamedRow (m : Matter) (name : String) : Matter :=
  { m with Name := name, Path := GetDirOfPath m.Path ++ "/" ++ name }

/-- If a row of that owner stands at the path, it is not the row of `src`. -/
def SparesSource (ms : List Matter) (src : Matter) (path : String) : Prop :=
  ∀ x, ms.find? (fun r => r.UserUuid = src.UserUuid ∧ r.Path = path) = some x →
    x.Uuid ≠ src.Uuid

instance (ms : List Matter) : Decidable (RootNotStored ms) := by
  unfold RootNotStored; infer_instance

/-- The identifier `x` lies on the parent chain between `a` and `t`: it is `a` or below
`a`, and `t` is `x` or below `x`. -/
def Between (ms : List Matter) (a t x : String) : Prop := Under ms a x ∧ Under ms x t

/-- The row that a successful `createDirectory` inserts. -/
def createdRow {D : Type} (env : Env D) (s : State D) (parent : Matter) (name : String)
    (user : User) : Matter :=
  { Uuid := env.NewUuid s.nextId, Puuid := parent.Uuid, UserUuid := user.Uuid,
    Username := user.Username, Dir := true, Name := TrimSpace name, Md5 := "", Size := 0,
    Privacy := false, Path := parent.Path ++ "/" ++ TrimSpace name }

/-- The state that a successful `createDirectory` leaves, `d` being the physical tree
after `MakeDirAll`. -/
def createdState {D : Type} (env : Env D) (s : State D) (parent : Matter) (name : String)
    (user : User) (d : D) : State D :=
  { s with matters := s.matters ++ [createdRow env s parent name user],
           nextId := s.nextId + 1, disk := d }

/-- The row `r` stored with another path. -/
def withPath (r : Matter) (path : String) : Matter := { r with Path := path }

/-- The run, if it ended (by a return or by a panic), ended with the lock registry `l`. -/
def LocksAre {D α : Type} (l : List String) (r : Res (State D) α) : Prop :=
  match r with
  | .ok _ s1 => s1.locks = l
  | .panic _ s1 => s1.locks = l
  | .timeout => True

/-- A rank for the rows of a repository listed parents first: the root has rank 0, a
stored identifier its position in the list plus one. -/
def rankByPosition (ms : List Matter) (uuid : String) : Nat :=
  if uuid = MATTER_ROOT then 0 else (ms.map (fun r => r.Uuid)).indexOf uuid + 1

/-! ## Theorems -/

section Lemmas

variable {D : Type}

/-! ### Running a method -/

theorem Res.bind_ok {σ α β : Type} (a : α) (s : σ) (f : α → σ → Res σ β) :
    (Res.ok a s).bind f = f a s := rfl

theorem Res.bind_panic {σ α β : Type} (e : Failure) (s : σ) (f : α → σ → Res σ β) :
    (Res.panic e s : Res σ α).bind f = .panic e s := rfl

theorem Res.bind_timeout {σ α β : Type} (f : α → σ → Res σ β) :
    (Res.timeout : Res σ α).bind f = .timeout := rfl

theorem Res.bind_eq_ok {σ α β : Type} (r : Res σ α) (f : α → σ → Res σ β) (b : β) (s1 : σ)
    (h : r.bind f = .ok b s1) : ∃ a s2, r = .ok a s2 ∧ f a s2 = .ok b s1 := by
  cases r with
  | ok a s2 => exact ⟨a, s2, rfl, h⟩
  | panic e s2 => simp [Res.bind] at h
  | timeout => simp [Res.bind] at h

theorem deferred_eq_ok {α : Type} (cleanup : State D → Res (State D) Unit)
    (rest : Res (State D) α) (a : α) (s1 : State D) (h : deferred cleanup rest = .ok a s1) :
    ∃ s0, rest = .ok a s0 ∧ cleanup s0 = .ok () s1 := by
  cases rest with
  | ok b s0 =>
    simp only [deferred] at h
    obtain ⟨_, s2, hc, h2⟩ := Res.bind_eq_ok _ _ _ _ h
    simp only [Res.ok.injEq] at h2
    obtain ⟨rfl, rfl⟩ := h2
    exact ⟨s0, rfl, hc⟩
  | panic e s0 =>
    simp only [deferred] at h
    obtain ⟨_, s2, _, h2⟩ := Res.bind_eq_ok _ _ _ _ h
    simp at h2
  | timeout => simp [deferred] at h

theorem withMatterLock_eq_ok {α : Type} (u : String) (body : State D → Res (State D) α)
    (s s1 : State D) (a : α) (h : withMatterLock u body s = .ok a s1) :
    u ∉ s.locks ∧ ∃ s2, body { s with locks := u :: s.locks } = .ok a s2
      ∧ s1 = { s2 with locks := s2.locks.erase u } := by
  unfold withMatterLock at h
  split at h
  · simp at h
  · rename_i hl
    refine ⟨hl, ?_⟩
    cases hb : body { s with locks := u :: s.locks } with
    | ok a2 s2 =>
      rw [hb] at h
      simp only [Res.ok.injEq] at h
      exact ⟨s2, by rw [h.1], h.2.symm⟩
    | panic e s2 => rw [hb] at h; simp at h
    | timeout => rw [hb] at h; simp at h

theorem ioStep_some (site : String) (op : D → Option D) (s : State D) (d : D)
    (h : op s.disk = some d) : ioStep site op s = .ok () { s with disk := d } := by
  simp [ioStep, h]

/-! ### `createDirectory` and the depth check -/

theorem count_pos_of_mem (userUuid puuid : String) (dir : Bool) (name : String)
    (s : State D) (r : Matter) (hr : r ∈ s.matters) (h1 : r.UserUuid = userUuid)
    (h2 : r.Puuid = puuid) (h3 : r.Dir = dir) (h4 : r.Name = name) :
    CountByUserUuidAndPuuidAndDirAndName userUuid puuid dir name s > 0 := by
  unfold CountByUserUuidAndPuuidAndDirAndName
  apply List.length_pos_of_mem (a := r)
  simp [List.mem_filter, hr, h1, h2, h3, h4]

theorem createDirectory_run (env : Env D) (s : State D) (parent : Matter)
    (name : String) (user : User) (d : D)
    (hdir : parent.Dir = true) (hown : parent.UserUuid = user.Uuid)
    (hdepth : ¬ (Split parent.Path).length > 32)
    (hne : TrimSpace name ≠ "")
    (hlen : ¬ (TrimSpace name).utf8ByteSize > MATTER_NAME_MAX_LENGTH)
    (hchars : matchesClass reservedWithSlash (TrimSpace name) = false)
    (hfree : CountByUserUuidAndPuuidAndDirAndName user.Uuid parent.Uuid true
      (TrimSpace name) s = 0)
    (hdisk : env.MakeDirAll s.disk
      (env.GetUserFileRootDir user.Username ++ parent.Path ++ "/" ++ TrimSpace name) = some d) :
    createDirectory env parent name user s
      = .ok (createdRow env s parent name user) (createdState env s parent name user d) := by
  simp only [createDirectory, hdir, hown, hne, hlen, hchars, hfree, hdepth]
  simp [ioStep, hdisk, Res.bind, Create, createdRow, createdState]

theorem createDirectory_ok_inv (env : Env D) (s s1 : State D) (parent m : Matter)
    (name : String) (user : User)
    (h : createDirectory env parent name user s = .ok m s1) :
    parent.Dir = true ∧ parent.UserUuid = user.Uuid
      ∧ matchesClass reservedWithSlash (TrimSpace name) = false
      ∧ (Split parent.Path).length ≤ 32
      ∧ m = createdRow env s parent name user
      ∧ ∃ d, s1 = createdState env s parent name user d := by
  unfold createDirectory at h
  split at h
  · simp at h
  split at h
  · simp at h
  simp only at h
  split at h
  · simp at h
  split at h
  · simp at h
  split at h
  · simp at h
  split at h
  · simp at h
  split at h
  · simp at h
  rename_i h1 h2 _ _ h5 _ h7
  unfold ioStep at h
  split at h
  · simp [Res.bind] at h
  · rename_i d hd
    simp only [Res.bind, Create, Res.ok.injEq] at h
    refine ⟨by simpa using h1, by simpa using h2, by simpa using h5, by omega, ?_, d, ?_⟩
    · rw [← h.1]; rfl
    · rw [← h.2]; rfl

theorem splitSlash_length (cs : List Char) :
    (splitSlash cs).length = cs.count '/' + 1 := by
  induction cs with
  | nil => rfl
  | cons c cs ih =>
    unfold splitSlash
    by_cases hc : c = '/'
    · subst hc
      simp [ih]
    · simp only [hc, if_false]
      have hcount : (c :: cs).count '/' = cs.count '/' := by
        rw [List.count_cons]
        simp [hc]
      cases hsp : splitSlash cs with
      | nil => rw [hsp] at ih; simp at ih
      | cons h t =>
        rw [hsp] at ih
        simp only [List.length_cons] at ih ⊢
        omega

theorem count_slash_of_no_reserved (name : String)
    (h : matchesClass reservedWithSlash name = false) : name.data.count '/' = 0 := by
  rw [List.count_eq_zero]
  intro hmem
  unfold matchesClass at h
  rw [List.any_eq_false] at h
  have := h '/' hmem
  simp [reservedWithSlash] at this

theorem segments_child (ppath name : String)
    (h : matchesClass reservedWithSlash name = false) :
    segments (ppath ++ "/" ++ name) = (Split ppath).length := by
  unfold segments Split
  simp only [List.length_map, splitSlash_length, String.data_append]
  have h0 := count_slash_of_no_reserved name h
  rw [List.count_append, List.count_append, h0]
  simp

theorem createDirectory_keeps_depth (env : Env D) (s s1 : State D) (parent m : Matter)
    (name : String) (user : User) (hinv : DepthBounded s.matters)
    (h : createDirectory env parent name user s = .ok m s1) : DepthBounded s1.matters := by
  obtain ⟨_, _, hchars, hparts, hm, d, hs1⟩ := createDirectory_ok_inv env s s1 parent m name user h
  subst hs1
  intro r hr hrdir
  simp only [createdState, List.mem_append, List.mem_singleton] at hr
  rcases hr with hr | hr
  · exact hinv r hr hrdir
  · subst hr
    simp only [createdRow]
    rw [segments_child _ _ hchars]
    exact hparts

theorem createEach_keeps_depth (env : Env D) (user : User) (names : List String) :
    ∀ (s s1 : State D) (dirMatter m : Matter), DepthBounded s.matters →
      createEach env user names dirMatter s = .ok m s1 → DepthBounded s1.matters := by
  induction names with
  | nil =>
    intro s s1 dirMatter m hinv h
    simp only [createEach, Res.ok.injEq] at h
    rw [← h.2]; exact hinv
  | cons name names ih =>
    intro s s1 dirMatter m hinv h
    simp only [createEach] at h
    cases hc : createDirectory env dirMatter name user s with
    | ok m2 s2 =>
      rw [hc] at h
      exact ih s2 s1 m2 m (createDirectory_keeps_depth env s s2 dirMatter m2 name user hinv hc) h
    | panic e s2 => rw [hc] at h; simp [Res.bind] at h
    | timeout => rw [hc] at h; simp [Res.bind] at h

theorem CreateDirectories_keeps_depth (env : Env D) (user : User) (dirPath : String)
    (s s1 : State D) (m : Matter) (hinv : DepthBounded s.matters)
    (h : CreateDirectories env user dirPath s = .ok m s1) : DepthBounded s1.matters := by
  unfold CreateDirectories at h
  split at h
  · simp at h
  split at h
  · simp at h
  split at h
  · simp at h
  split at h
  · simp at h
  split at h
  · simp only [Res.ok.injEq] at h
    rw [← h.2]; exact hinv
  simp only at h
  split at h <;> split at h <;>
    first
      | (simp at h; done)
      | exact createEach_keeps_depth env user _ s s1 _ m hinv h

/-! ### Copying a directory into itself -/

theorem forEach_never_ok {α : Type} (body : α → State D → Res (State D) Unit) (x : α)
    (hbody : ∀ s s1, body x s ≠ .ok () s1) :
    ∀ (xs : List α), x ∈ xs → ∀ s s1, forEach body xs s ≠ .ok () s1 := by
  intro xs
  induction xs with
  | nil => intro hx; simp at hx
  | cons y ys ih =>
    intro hx s s1
    simp only [forEach]
    cases hy : body y s with
    | ok a s2 =>
      simp only [Res.bind]
      rcases List.mem_cons.mp hx with hxy | hxy
      · subst hxy
        exact absurd hy (hbody s s2)
      · exact ih hxy s2 s1
    | panic e s2 => simp [Res.bind]
    | timeout => simp [Res.bind]

theorem copy_self_never_ok (env : Env D) :
    ∀ (fuel : Nat) (s : State D) (src dest : Matter) (name : String),
      src.Dir = true → dest.Uuid = src.Uuid → ∀ s1, copy env fuel src dest name s ≠ .ok () s1 := by
  intro fuel
  induction fuel with
  | zero => intro s src dest name _ _ s1; simp [copy]
  | succ fuel ih =>
    intro s src dest name hdir hself s1
    simp only [copy, hdir, if_true, Create, Res.bind]
    apply forEach_never_ok _
      ({ Uuid := env.NewUuid s.nextId, Puuid := dest.Uuid, UserUuid := src.UserUuid,
         Username := src.Username, Dir := true, Name := name, Md5 := "", Size := src.Size,
         Privacy := src.Privacy, Path := dest.Path ++ "/" ++ name } : Matter)
    · intro s2 s3
      exact ih s2 _ _ _ rfl rfl s3
    · simp [matterDaoList, hself]

/-! ### The ancestor chain of `WrapDetail` -/

theorem wrapParents_root (fuel : Nat) (s : State D) :
    wrapParents (fuel + 1) MATTER_ROOT s = .ok [] s := by
  simp [wrapParents]

theorem wrapParents_total (s : State D) (rank : String → Nat)
    (hacy : ∀ r ∈ s.matters, rank r.Puuid < rank r.Uuid) :
    ∀ (fuel : Nat) (puuid : String), rank puuid + 2 ≤ fuel →
      (∃ ps, wrapParents fuel puuid s = .ok ps s)
        ∨ (∃ u, wrapParents fuel puuid s = .panic (.notFound u) s) := by
  intro fuel
  induction fuel with
  | zero => intro puuid h; omega
  | succ fuel ih =>
    intro puuid hfuel
    by_cases hroot : puuid = MATTER_ROOT
    · subst hroot
      exact Or.inl ⟨[], wrapParents_root fuel s⟩
    · simp only [wrapParents, ne_eq, hroot, not_false_eq_true, if_true, CheckByUuid]
      cases hfind : s.matters.find? (fun r => r.Uuid = puuid) with
      | none => exact Or.inr ⟨puuid, by simp [hfind, Res.bind]⟩
      | some p =>
        have hp := List.find?_some hfind
        have hmem := List.mem_of_find?_eq_some hfind
        simp only [decide_eq_true_eq] at hp
        have hrank := hacy p hmem
        rw [hp] at hrank
        have hfind2 : List.find? (fun r => decide (r.Uuid = puuid)) s.matters = some p := hfind
        rcases ih p.Puuid (by omega) with ⟨ps, hps⟩ | ⟨u, hu⟩
        · exact Or.inl ⟨p :: ps, by simp [hfind2, Res.bind, hps]⟩
        · exact Or.inr ⟨u, by simp [hfind2, Res.bind, hu]⟩

theorem onParentChain_of_chain (s : State D) (src : Matter) (m : Matter)
    (hchain : OnAncestorChain s.matters src.Uuid m) :
    ∀ (fuel : Nat) (ps : List Matter) (s1 : State D),
      wrapParents fuel m.Puuid s = .ok ps s1 → onParentChain src (m :: ps) = true := by
  induction hchain with
  | self m hm =>
    intro fuel ps s1 _
    simp [onParentChain, hm]
  | above m p hroot hfind _ ih =>
    intro fuel ps s1 h
    cases fuel with
    | zero => simp [wrapParents] at h
    | succ fuel =>
      have hfind2 : List.find? (fun r => decide (r.Uuid = m.Puuid)) s.matters = some p := hfind
      simp only [wrapParents, ne_eq, hroot, not_false_eq_true, if_true, CheckByUuid, hfind2,
        Res.bind] at h
      cases hrest : wrapParents fuel p.Puuid s with
      | ok rest s2 =>
        rw [hrest] at h
        simp only [Res.ok.injEq] at h
        have := ih fuel rest s2 hrest
        rw [← h.1]
        simp only [onParentChain, List.any_cons] at this ⊢
        simp [this]
      | panic e s2 => rw [hrest] at h; simp at h
      | timeout => rw [hrest] at h; simp at h

theorem unlock_after_lock (s : State D) (u : String) :
    ({ ({ s with locks := u :: s.locks } : State D) with
        locks := (u :: s.locks).erase u } : State D) = s := by
  cases s
  simp

/-! ### Descendants in an acyclic repository -/

theorem shape_fields (r r' : Matter) (h : shape r' = shape r) :
    r'.Uuid = r.Uuid ∧ r'.Puuid = r.Puuid ∧ r'.UserUuid = r.UserUuid ∧ r'.Dir = r.Dir := by
  simp only [shape, Matter.mk.injEq] at h
  tauto

theorem uniq_eq (ms : List Matter) (hu : UniqueIds ms) (r r' : Matter) (hr : r ∈ ms)
    (hr' : r' ∈ ms) (h : r.Uuid = r'.Uuid) : r = r' :=
  List.inj_on_of_nodup_map hu hr hr' h

theorem desc_inv (ms : List Matter) (hu : UniqueIds ms) (a : String) (b : Matter)
    (hb : b ∈ ms) (h : Descendant ms a b.Uuid) : b.Puuid = a ∨ Descendant ms a b.Puuid := by
  generalize hx : b.Uuid = x at h
  cases h with
  | child b2 hb2 hp =>
    have := uniq_eq ms hu b b2 hb hb2 hx
    subst this
    exact Or.inl hp
  | deeper b2 hb2 hd =>
    have := uniq_eq ms hu b b2 hb hb2 hx
    subst this
    exact Or.inr hd

theorem desc_rank (ms : List Matter) (rank : String → Nat)
    (hr : ∀ r ∈ ms, rank r.Puuid < rank r.Uuid) (a x : String) (h : Descendant ms a x) :
    rank a < rank x := by
  induction h with
  | child b hb hp => rw [← hp]; exact hr b hb
  | deeper b hb _ ih => exact lt_trans ih (hr b hb)

theorem under_rank (ms : List Matter) (rank : String → Nat)
    (hr : ∀ r ∈ ms, rank r.Puuid < rank r.Uuid) (a x : String) (h : Under ms a x) :
    rank a ≤ rank x := by
  rcases h with h | h
  · rw [h]
  · exact le_of_lt (desc_rank ms rank hr a x h)

theorem desc_first (ms : List Matter) (a x : String) (h : Descendant ms a x) :
    ∃ d ∈ ms, d.Puuid = a ∧ Under ms d.Uuid x := by
  induction h with
  | child b hb hp => exact ⟨b, hb, hp, Or.inl rfl⟩
  | deeper b hb _ ih =>
    obtain ⟨d, hd, hdp, hu⟩ := ih
    refine ⟨d, hd, hdp, Or.inr ?_⟩
    rcases hu with hu | hu
    · exact Descendant.child b hb hu
    · exact Descendant.deeper b hb hu

theorem desc_of_under_child (ms : List Matter) (a : String) (d : Matter) (hd : d ∈ ms)
    (hp : d.Puuid = a) (x : String) (h : Under ms d.Uuid x) : Descendant ms a x := by
  rcases h with h | h
  · rw [h]; exact Descendant.child d hd hp
  · induction h with
    | child b hb hbp =>
      exact Descendant.deeper b hb (by rw [hbp]; exact Descendant.child d hd hp)
    | deeper b hb _ ih => exact Descendant.deeper b hb ih

theorem under_of_under_child (ms : List Matter) (a : String) (d : Matter) (hd : d ∈ ms)
    (hp : d.Puuid = a) (x : String) (h : Under ms d.Uuid x) : Under ms a x :=
  Or.inr (desc_of_under_child ms a d hd hp x h)

theorem sibling_not_desc (ms : List Matter) (hu : UniqueIds ms) (rank : String → Nat)
    (hr : ∀ r ∈ ms, rank r.Puuid < rank r.Uuid) (d1 d2 : Matter) (h1 : d1 ∈ ms)
    (h2 : d2 ∈ ms) (hp : d1.Puuid = d2.Puuid) : ¬ Descendant ms d2.Uuid d1.Uuid := by
  intro h
  have hr2 := hr d2 h2
  rcases desc_inv ms hu d2.Uuid d1 h1 h with h | h
  · rw [← hp, h] at hr2; omega
  · have := desc_rank ms rank hr _ _ h
    rw [hp] at this; omega

theorem siblings_disjoint (ms : List Matter) (hu : UniqueIds ms) (rank : String → Nat)
    (hr : ∀ r ∈ ms, rank r.Puuid < rank r.Uuid) (d1 d2 : Matter) (h1 : d1 ∈ ms)
    (h2 : d2 ∈ ms) (hp : d1.Puuid = d2.Puuid) (hne : d1.Uuid ≠ d2.Uuid) (x : String)
    (hx1 : Under ms d1.Uuid x) (hx2 : Under ms d2.Uuid x) : False := by
  rcases hx1 with hx1 | hx1
  · rcases hx2 with hx2 | hx2
    · exact hne (hx1.symm.trans hx2)
    · rw [hx1] at hx2
      exact sibling_not_desc ms hu rank hr d1 d2 h1 h2 hp hx2
  · induction hx1 with
    | child b hb hbp =>
      rcases hx2 with hx2 | hx2
      · have := uniq_eq ms hu b d2 hb h2 hx2
        subst this
        have := hr b hb
        rw [hbp] at hp
        have h1r := hr d1 h1
        rw [hp] at h1r
        rw [hbp] at this
        omega
      · rcases desc_inv ms hu d2.Uuid b hb hx2 with h | h
        · exact hne (hbp.symm.trans h)
        · rw [hbp] at h
          exact sibling_not_desc ms hu rank hr d1 d2 h1 h2 hp h
    | deeper b hb hd ih =>
      rcases hx2 with hx2 | hx2
      · have := uniq_eq ms hu b d2 hb h2 hx2
        subst this
        rw [← hp] at hd
        have := desc_rank ms rank hr _ _ hd
        have := hr d1 h1
        omega
      · rcases desc_inv ms hu d2.Uuid b hb hx2 with h | h
        · rw [h] at hd
          exact sibling_not_desc ms hu rank hr d2 d1 h2 h1 hp.symm hd
        · exact ih (Or.inr h)

theorem parent_not_under (ms : List Matter) (rank : String → Nat)
    (hr : ∀ r ∈ ms, rank r.Puuid < rank r.Uuid) (d : Matter) (hd : d ∈ ms) :
    ¬ Under ms d.Uuid d.Puuid := by
  intro h
  have h1 := under_rank ms rank hr _ _ h
  have := hr d hd
  omega

/-! ### Repositories that differ by paths only -/

theorem shape_of_pathless (r r' : Matter) (h : pathless r' = pathless r) :
    shape r' = shape r := by
  simp only [pathless, Matter.mk.injEq] at h
  simp only [shape, Matter.mk.injEq]
  tauto

theorem Restamped.refl (P : String → Prop) (ms : List Matter) : Restamped P ms ms :=
  ⟨id, by simp, fun r _ => ⟨rfl, fun _ => rfl⟩⟩

theorem Restamped.trans {P Q R : String → Prop} {ms ms1 ms2 : List Matter}
    (h1 : Restamped P ms ms1) (h2 : Restamped Q ms1 ms2)
    (hP : ∀ x, P x → R x) (hQ : ∀ x, Q x → R x) : Restamped R ms ms2 := by
  obtain ⟨g1, e1, c1⟩ := h1
  obtain ⟨g2, e2, c2⟩ := h2
  refine ⟨g2 ∘ g1, by rw [e2, e1, List.map_map], fun r hr => ?_⟩
  have hg1 : g1 r ∈ ms1 := by rw [e1]; exact List.mem_map_of_mem g1 hr
  have hu : (g1 r).Uuid = r.Uuid := (shape_fields _ _ (shape_of_pathless _ _ (c1 r hr).1)).1
  refine ⟨by rw [Function.comp_apply, (c2 _ hg1).1, (c1 r hr).1], fun hn => ?_⟩
  have e := (c1 r hr).2 (fun hp => hn (hP _ hp))
  rw [Function.comp_apply, e]
  have hq : ¬ Q (g1 r).Uuid := fun hq => hn (hQ _ (by rw [hu] at hq; exact hq))
  have := (c2 _ hg1).2 hq
  rw [e] at this
  exact this

theorem Restamped.map_shape {P : String → Prop} {ms ms1 : List Matter}
    (h : Restamped P ms ms1) : ms1.map shape = ms.map shape := by
  obtain ⟨g, e, c⟩ := h
  rw [e, List.map_map]
  apply List.map_congr_left
  intro r hr
  exact shape_of_pathless _ _ (c r hr).1

theorem Restamped.map_pathless {P : String → Prop} {ms ms1 : List Matter}
    (h : Restamped P ms ms1) : ms1.map pathless = ms.map pathless := by
  obtain ⟨g, e, c⟩ := h
  rw [e, List.map_map]
  apply List.map_congr_left
  intro r hr
  exact (c r hr).1

theorem Restamped.mem_of_not {P : String → Prop} {ms ms1 : List Matter}
    (h : Restamped P ms ms1) (r : Matter) (hr : r ∈ ms) (hn : ¬ P r.Uuid) : r ∈ ms1 := by
  obtain ⟨g, e, c⟩ := h
  rw [e]
  have := List.mem_map_of_mem g hr
  rw [(c r hr).2 hn] at this
  exact this

theorem Restamped.mem_inv {P : String → Prop} {ms ms1 : List Matter}
    (h : Restamped P ms ms1) (r1 : Matter) (hr : r1 ∈ ms1) :
    ∃ r ∈ ms, shape r1 = shape r ∧ (¬ P r.Uuid → r1 = r) := by
  obtain ⟨g, e, c⟩ := h
  rw [e, List.mem_map] at hr
  obtain ⟨r, hr, rfl⟩ := hr
  exact ⟨r, hr, shape_of_pathless _ _ (c r hr).1, (c r hr).2⟩

theorem Restamped.save (ms : List Matter) (hu : UniqueIds ms) (c c1 : Matter) (hc : c ∈ ms)
    (hs : pathless c1 = pathless c) :
    Restamped (fun x => x = c.Uuid) ms
      (ms.map (fun r => if r.Uuid = c1.Uuid then c1 else r)) := by
  refine ⟨_, rfl, fun r hr => ?_⟩
  have hcu : c1.Uuid = c.Uuid := (shape_fields _ _ (shape_of_pathless _ _ hs)).1
  by_cases h : r.Uuid = c1.Uuid
  · have : r = c := uniq_eq ms hu r c hr hc (h.trans hcu)
    subst this
    simp [h, hs]
  · simp only [h, if_false, true_and]
    intro _; trivial

theorem shapesIn_of_map (ms ms1 : List Matter) (h : ms1.map shape = ms.map shape) :
    ShapesIn ms ms1 ∧ ShapesIn ms1 ms := by
  constructor
  · intro r hr
    have : shape r ∈ ms1.map shape := by rw [h]; exact List.mem_map_of_mem shape hr
    obtain ⟨r1, h1, e⟩ := List.mem_map.mp this
    exact ⟨r1, h1, e⟩
  · intro r hr
    have : shape r ∈ ms.map shape := by rw [← h]; exact List.mem_map_of_mem shape hr
    obtain ⟨r1, h1, e⟩ := List.mem_map.mp this
    exact ⟨r1, h1, e⟩

theorem descendant_mono (ms ms1 : List Matter) (h : ShapesIn ms ms1) (a x : String)
    (hd : Descendant ms a x) : Descendant ms1 a x := by
  induction hd with
  | child b hb hp =>
    obtain ⟨b1, hb1, e⟩ := h b hb
    obtain ⟨e1, e2, _, _⟩ := shape_fields _ _ e
    rw [← e1]
    exact Descendant.child b1 hb1 (e2.trans hp)
  | deeper b hb _ ih =>
    obtain ⟨b1, hb1, e⟩ := h b hb
    obtain ⟨e1, e2, _, _⟩ := shape_fields _ _ e
    rw [← e1]
    exact Descendant.deeper b1 hb1 (by rw [e2]; exact ih)

theorem under_mono (ms ms1 : List Matter) (h : ShapesIn ms ms1) (a x : String)
    (hd : Under ms a x) : Under ms1 a x := by
  rcases hd with hd | hd
  · exact Or.inl hd
  · exact Or.inr (descendant_mono ms ms1 h a x hd)

theorem uniqueIds_congr (ms ms1 : List Matter) (h : ms1.map shape = ms.map shape)
    (hu : UniqueIds ms) : UniqueIds ms1 := by
  unfold UniqueIds at hu ⊢
  have e : ∀ l : List Matter, l.map (fun r => r.Uuid) = (l.map shape).map (fun r => r.Uuid) := by
    intro l; rw [List.map_map]; rfl
  rw [e, h, ← e]
  exact hu

theorem rank_congr (ms ms1 : List Matter) (h : ShapesIn ms1 ms) (rank : String → Nat)
    (hr : ∀ r ∈ ms, rank r.Puuid < rank r.Uuid) : ∀ r ∈ ms1, rank r.Puuid < rank r.Uuid := by
  intro r1 h1
  obtain ⟨r, hr0, e⟩ := h r1 h1
  obtain ⟨e1, e2, _, _⟩ := shape_fields _ _ e
  rw [← e1, ← e2]
  exact hr r hr0

theorem treeBelow_congr (ms ms1 : List Matter) (h : ShapesIn ms1 ms) (a : String)
    (ht : TreeBelow ms a) : TreeBelow ms1 a := by
  intro p hp c hc hpc hund
  obtain ⟨p0, hp0, ep⟩ := h p hp
  obtain ⟨c0, hc0, ec⟩ := h c hc
  obtain ⟨p1, _, p3, p4⟩ := shape_fields _ _ ep
  obtain ⟨_, c2, c3, _⟩ := shape_fields _ _ ec
  have := ht p0 hp0 c0 hc0 (by rw [c2, p1]; exact hpc)
    (by rw [p1]; exact under_mono ms1 ms h a _ hund)
  rw [p4, c3, p3] at this
  exact this

theorem treeBelow_child (ms : List Matter) (a : String) (d : Matter) (hd : d ∈ ms)
    (hp : d.Puuid = a) (ht : TreeBelow ms a) : TreeBelow ms d.Uuid :=
  fun p hp0 c hc hpc hund => ht p hp0 c hc hpc (under_of_under_child ms a d hd hp _ hund)

/-! ### What `adjustPath` does -/

theorem Restamped.weaken {P Q : String → Prop} {ms ms1 : List Matter}
    (h : Restamped P ms ms1) (hPQ : ∀ x, P x → Q x) : Restamped Q ms ms1 := by
  obtain ⟨g, e, c⟩ := h
  exact ⟨g, e, fun r hr => ⟨(c r hr).1, fun hn => (c r hr).2 (fun hp => hn (hPQ _ hp))⟩⟩

theorem forEach_adjust (rank : String → Nat) (fuel : Nat)
    (hadj : ∀ (s s1 : State D) (c p : Matter), UniqueIds s.matters →
      (∀ r ∈ s.matters, rank r.Puuid < rank r.Uuid) → TreeBelow s.matters c.Uuid →
      c ∈ s.matters → adjustPath fuel c p s = .ok () s1 → AdjustPost s s1 c p)
    (m : Matter) :
    ∀ (todo : List Matter) (s s1 : State D), UniqueIds s.matters →
      (∀ r ∈ s.matters, rank r.Puuid < rank r.Uuid) → TreeBelow s.matters m.Uuid →
      m ∈ s.matters → (∀ d ∈ todo, d ∈ s.matters ∧ d.Puuid = m.Uuid) → todo.Nodup →
      forEach (fun d => adjustPath fuel d m) todo s = .ok () s1 →
      Restamped (fun x => ∃ d ∈ todo, Under s.matters d.Uuid x) s.matters s1.matters
      ∧ ∀ d ∈ todo, ∀ b ∈ s1.matters, Under s1.matters d.Uuid b.Uuid →
          PathFromParent s1.matters b := by
  intro todo
  induction todo with
  | nil =>
    intro s s1 _ _ _ _ _ _ h
    simp only [forEach, Res.ok.injEq, true_and] at h
    subst h
    exact ⟨Restamped.refl _ _, fun d hd => by simp at hd⟩
  | cons d rest ih =>
    intro s s1 hu hr ht hm hmem hnd h
    simp only [forEach] at h
    obtain ⟨_, sj, hrun, hrest⟩ := Res.bind_eq_ok _ _ _ _ h
    have hdm := hmem d (List.mem_cons_self _ _)
    have htd : TreeBelow s.matters d.Uuid := treeBelow_child s.matters m.Uuid d hdm.1 hdm.2 ht
    obtain ⟨R1, hd1, hdesc⟩ := hadj s sj d m hu hr htd hdm.1 hrun
    obtain ⟨sh1, sh2⟩ := shapesIn_of_map _ _ R1.map_shape
    have huj := uniqueIds_congr _ _ R1.map_shape hu
    have hrj := rank_congr _ _ sh2 rank hr
    have htj := treeBelow_congr _ _ sh2 _ ht
    have hmj : m ∈ sj.matters := by
      apply R1.mem_of_not m hm
      have := parent_not_under s.matters rank hr d hdm.1
      rw [hdm.2] at this
      exact this
    have hne : ∀ d2 ∈ rest, d.Uuid ≠ d2.Uuid := by
      intro d2 hd2 he
      have := uniq_eq s.matters hu d d2 hdm.1 (hmem d2 (List.mem_cons_of_mem _ hd2)).1 he
      subst this
      exact (List.nodup_cons.mp hnd).1 hd2
    have hrestmem : ∀ d2 ∈ rest, d2 ∈ sj.matters ∧ d2.Puuid = m.Uuid := by
      intro d2 hd2
      have h2 := hmem d2 (List.mem_cons_of_mem _ hd2)
      refine ⟨R1.mem_of_not d2 h2.1 ?_, h2.2⟩
      intro hund
      exact siblings_disjoint s.matters hu rank hr d d2 hdm.1 h2.1 (hdm.2.trans h2.2.symm)
        (hne d2 hd2) d2.Uuid hund (Or.inl rfl)
    obtain ⟨R2, hpost⟩ := ih sj s1 huj hrj htj hmj hrestmem (List.nodup_cons.mp hnd).2 hrest
    obtain ⟨sh3, sh4⟩ := shapesIn_of_map _ _ R2.map_shape
    refine ⟨R1.trans R2 (fun x hx => ⟨d, List.mem_cons_self _ _, hx⟩)
      (fun x hx => ?_), ?_⟩
    · obtain ⟨d2, hd2, hund⟩ := hx
      exact ⟨d2, List.mem_cons_of_mem _ hd2, under_mono _ _ sh2 _ _ hund⟩
    · intro d0 hd0 b hb hund
      rcases List.mem_cons.mp hd0 with hd0 | hd0
      swap
      · exact hpost d0 hd0 b hb hund
      subst hd0
      have hundj : Under sj.matters d0.Uuid b.Uuid := under_mono _ _ sh4 _ _ hund
      have hdisj : ∀ x, Under sj.matters d0.Uuid x →
          ¬ ∃ d2 ∈ rest, Under sj.matters d2.Uuid x := by
        intro x hx ⟨d2, hd2, hx2⟩
        have h2 := hrestmem d2 hd2
        exact siblings_disjoint sj.matters huj rank hrj _ d2 hd1 h2.1
          (hdm.2.trans h2.2.symm) (hne d2 hd2) x hx hx2
      obtain ⟨bj, hbj, eb, hbeq⟩ := R2.mem_inv b hb
      have ebu : b.Uuid = bj.Uuid := (shape_fields _ _ eb).1
      have hbb : b = bj := hbeq (by rw [← ebu]; exact hdisj _ hundj)
      subst hbb
      have key : ∃ p ∈ sj.matters, p.Uuid = b.Puuid ∧ b.Path = p.Path ++ "/" ++ b.Name
          ∧ (p.Uuid = m.Uuid ∨ Under sj.matters d0.Uuid p.Uuid) := by
        rcases hundj with hb0 | hb0
        · have : b = { d0 with Path := m.Path ++ "/" ++ d0.Name } :=
            uniq_eq sj.matters huj _ _ hbj hd1 hb0
          subst this
          exact ⟨m, hmj, hdm.2.symm, rfl, Or.inl rfl⟩
        · obtain ⟨p, hp, hpu, hpath⟩ := hdesc b hbj hb0
          refine ⟨p, hp, hpu, hpath, Or.inr ?_⟩
          rw [hpu]
          rcases desc_inv sj.matters huj _ b hbj hb0 with h0 | h0
          · exact Or.inl h0
          · exact Or.inr h0
      obtain ⟨p, hp, hpu, hpath, hwhere⟩ := key
      refine ⟨p, R2.mem_of_not p hp ?_, hpu, hpath⟩
      rcases hwhere with hw | hw
      · rintro ⟨d2, hd2, hx2⟩
        have h2 := hrestmem d2 hd2
        have := parent_not_under sj.matters rank hrj d2 h2.1
        rw [h2.2, ← hw] at this
        exact this hx2
      · exact hdisj _ hw

theorem adjustPath_spec (rank : String → Nat) :
    ∀ (fuel : Nat) (s s1 : State D) (c p : Matter), UniqueIds s.matters →
      (∀ r ∈ s.matters, rank r.Puuid < rank r.Uuid) → TreeBelow s.matters c.Uuid →
      c ∈ s.matters → adjustPath fuel c p s = .ok () s1 → AdjustPost s s1 c p := by
  intro fuel
  induction fuel with
  | zero => intro s s1 c p _ _ _ _ h; simp [adjustPath] at h
  | succ fuel ih =>
    intro s s1 c p hu hr ht hc h
    have R0 := Restamped.save s.matters hu c { c with Path := p.Path ++ "/" ++ c.Name } hc rfl
    obtain ⟨sh1, sh2⟩ := shapesIn_of_map _ _ R0.map_shape
    have hu1 := uniqueIds_congr _ _ R0.map_shape hu
    have hr1 := rank_congr _ _ sh2 rank hr
    have ht1 := treeBelow_congr _ _ sh2 _ ht
    have hc1 : { c with Path := p.Path ++ "/" ++ c.Name } ∈
        s.matters.map (fun r => if r.Uuid = c.Uuid then
          { c with Path := p.Path ++ "/" ++ c.Name } else r) :=
      List.mem_map.mpr ⟨c, hc, by simp⟩
    by_cases hdir : c.Dir = true
    · unfold adjustPath at h
      rw [if_pos hdir] at h
      simp only [Save, Res.bind] at h
      have hkids : ∀ d ∈ matterDaoList c.Uuid c.UserUuid
          ({ s with matters := s.matters.map (fun r => if r.Uuid = c.Uuid then
            { c with Path := p.Path ++ "/" ++ c.Name } else r) } : State D),
          d ∈ s.matters.map (fun r => if r.Uuid = c.Uuid then
            { c with Path := p.Path ++ "/" ++ c.Name } else r) ∧ d.Puuid = c.Uuid := by
        intro d hd
        simp only [matterDaoList, List.mem_filter, decide_eq_true_eq] at hd
        exact ⟨hd.1, hd.2.1⟩
      have hnd : (matterDaoList c.Uuid c.UserUuid
          ({ s with matters := s.matters.map (fun r => if r.Uuid = c.Uuid then
            { c with Path := p.Path ++ "/" ++ c.Name } else r) } : State D)).Nodup :=
        (List.Nodup.of_map _ hu1).filter _
      obtain ⟨R2, hpost⟩ := forEach_adjust rank fuel ih
        { c with Path := p.Path ++ "/" ++ c.Name } _ _ s1 hu1 hr1 ht1 hc1 hkids hnd h
      obtain ⟨sh3, sh4⟩ := shapesIn_of_map _ _ R2.map_shape
      refine ⟨R0.trans R2 (fun x hx => Or.inl hx) (fun x hx => ?_), ?_, ?_⟩
      · obtain ⟨d, hd, hund⟩ := hx
        have hd2 := hkids d hd
        exact under_mono _ _ sh2 _ _ (under_of_under_child _ c.Uuid d hd2.1 hd2.2 x hund)
      · apply R2.mem_of_not _ hc1
        rintro ⟨d, hd, hund⟩
        have hd2 := hkids d hd
        have := parent_not_under _ rank hr1 d hd2.1
        rw [hd2.2] at this
        exact this hund
      · intro b hb hdesc
        obtain ⟨d, hd, hdp, hund⟩ := desc_first _ _ _ hdesc
        obtain ⟨d1, hd1, e⟩ := sh4 d hd
        obtain ⟨e1, e2, _, _⟩ := shape_fields _ _ e
        have hown := (ht1 _ hc1 d1 hd1 (e2.trans hdp) (Or.inl rfl)).2
        have hkid : d1 ∈ matterDaoList c.Uuid c.UserUuid
            ({ s with matters := s.matters.map (fun r => if r.Uuid = c.Uuid then
              { c with Path := p.Path ++ "/" ++ c.Name } else r) } : State D) := by
          simp only [matterDaoList, List.mem_filter, decide_eq_true_eq]
          exact ⟨hd1, e2.trans hdp, hown⟩
        exact hpost d1 hkid b hb (by rw [e1]; exact hund)
    · unfold adjustPath at h
      rw [if_neg hdir] at h
      simp only [DeleteByMatterUuid, Save, Res.bind, Res.ok.injEq, true_and] at h
      subst h
      refine ⟨R0.weaken (fun x hx => Or.inl hx), hc1, ?_⟩
      intro b _ hdesc
      obtain ⟨d, hd, hdp, _⟩ := desc_first _ _ _ hdesc
      exact absurd (ht1 _ hc1 d hd hdp (Or.inl rfl)).1 hdir

/-! ### The repository after the source is re-parented -/

theorem mem_reparented (ms : List Matter) (a t : Matter) (r : Matter) (hr : r ∈ reparented ms a t) :
    r = movedRow a t ∨ (r ∈ ms ∧ r.Uuid ≠ a.Uuid) := by
  simp only [reparented, List.mem_map] at hr
  obtain ⟨r0, hr0, e⟩ := hr
  by_cases h : r0.Uuid = a.Uuid
  · simp only [h, if_true] at e
    exact Or.inl e.symm
  · simp only [h, if_false] at e
    subst e
    exact Or.inr ⟨hr0, h⟩

theorem uniqueIds_reparented (ms : List Matter) (hu : UniqueIds ms) (a t : Matter) :
    UniqueIds (reparented ms a t) := by
  unfold UniqueIds reparented at *
  rw [List.map_map]
  have : ((fun r : Matter => r.Uuid) ∘ fun r => if r.Uuid = a.Uuid then
      movedRow a t else r) = fun r => r.Uuid := by
    funext r
    simp only [Function.comp_apply, movedRow]
    split <;> simp_all
  rw [this]
  exact hu

theorem desc_reparented (ms : List Matter) (a t : Matter)
    (hta : t.Uuid ≠ a.Uuid) (htd : ¬ Descendant ms a.Uuid t.Uuid) (x : String)
    (h : Descendant (reparented ms a t) a.Uuid x) : Descendant ms a.Uuid x := by
  induction h with
  | child b hb hp =>
    rcases mem_reparented ms a t b hb with e | ⟨hb0, _⟩
    · subst e; exact absurd hp hta
    · exact Descendant.child b hb0 hp
  | deeper b hb _ ih =>
    rcases mem_reparented ms a t b hb with e | ⟨hb0, _⟩
    · subst e; exact absurd ih htd
    · exact Descendant.deeper b hb0 ih

theorem acyclic_reparented (ms : List Matter) (hu : UniqueIds ms) (a t : Matter)
    (hacy : Acyclic ms) (hta : t.Uuid ≠ a.Uuid) (htd : ¬ Descendant ms a.Uuid t.Uuid) :
    Acyclic (reparented ms a t) := by
  classical
  obtain ⟨rank, hr⟩ := hacy
  refine ⟨fun x => if Under ms a.Uuid x then rank x + rank t.Uuid + 1 else rank x, ?_⟩
  intro r hr2
  have hnt : ¬ Under ms a.Uuid t.Uuid := fun h => h.elim hta htd
  rcases mem_reparented ms a t r hr2 with e | ⟨hr0, hne⟩
  · subst e
    have hself : Under ms a.Uuid a.Uuid := Or.inl rfl
    simp only [movedRow, hnt, if_false, hself, if_true]
    omega
  · have hrr := hr r hr0
    by_cases hund : Under ms a.Uuid r.Uuid
    · have hd : Descendant ms a.Uuid r.Uuid := hund.resolve_left hne
      have hp : Under ms a.Uuid r.Puuid := desc_inv ms hu _ r hr0 hd
      simp only [hund, hp, if_true]
      omega
    · have hp : ¬ Under ms a.Uuid r.Puuid := by
        intro hp
        apply hund
        rcases hp with hp | hp
        · exact Or.inr (Descendant.child r hr0 hp)
        · exact Or.inr (Descendant.deeper r hr0 hp)
      simp only [hund, hp, if_false]
      exact hrr

theorem treeBelow_reparented (ms : List Matter) (a t : Matter)
    (ha : a ∈ ms) (htree : TreeShaped ms) (hta : t.Uuid ≠ a.Uuid)
    (htd : ¬ Descendant ms a.Uuid t.Uuid) : TreeBelow (reparented ms a t) a.Uuid := by
  intro p hp c hc hpc hund
  have hc0 : c ∈ ms ∧ c.Uuid ≠ a.Uuid := by
    rcases mem_reparented ms a t c hc with e | h
    · subst e
      exfalso
      simp only [movedRow] at hpc
      rw [← hpc] at hund
      rcases hund with h | h
      · exact hta h
      · exact htd (desc_reparented ms a t hta htd _ h)
    · exact h
  rcases mem_reparented ms a t p hp with e | ⟨hp0, _⟩
  · subst e
    exact htree a ha c hc0.1 hpc
  · exact htree p hp0 c hc0.1 hpc

theorem forEach_children_spec (rank : String → Nat) (fuel : Nat) (s s1 : State D)
    (m : Matter) (hu : UniqueIds s.matters)
    (hr : ∀ r ∈ s.matters, rank r.Puuid < rank r.Uuid) (ht : TreeBelow s.matters m.Uuid)
    (hm : m ∈ s.matters)
    (h : forEach (fun d => adjustPath fuel d m) (matterDaoList m.Uuid m.UserUuid s) s
      = .ok () s1) :
    m ∈ s1.matters
    ∧ Restamped (fun x => Descendant s.matters m.Uuid x) s.matters s1.matters
    ∧ ∀ b ∈ s1.matters, Descendant s1.matters m.Uuid b.Uuid → PathFromParent s1.matters b := by
  have hkids : ∀ d ∈ matterDaoList m.Uuid m.UserUuid s, d ∈ s.matters ∧ d.Puuid = m.Uuid := by
    intro d hd
    simp only [matterDaoList, List.mem_filter, decide_eq_true_eq] at hd
    exact ⟨hd.1, hd.2.1⟩
  have hnd : (matterDaoList m.Uuid m.UserUuid s).Nodup := (List.Nodup.of_map _ hu).filter _
  obtain ⟨R2, hpost⟩ := forEach_adjust rank fuel (adjustPath_spec rank fuel) m _ s s1 hu hr ht
    hm hkids hnd h
  obtain ⟨sh3, sh4⟩ := shapesIn_of_map _ _ R2.map_shape
  refine ⟨?_, R2.weaken (fun x hx => ?_), ?_⟩
  · apply R2.mem_of_not _ hm
    rintro ⟨d, hd, hund⟩
    have hd2 := hkids d hd
    have := parent_not_under _ rank hr d hd2.1
    rw [hd2.2] at this
    exact this hund
  · obtain ⟨d, hd, hund⟩ := hx
    have hd2 := hkids d hd
    exact desc_of_under_child _ m.Uuid d hd2.1 hd2.2 x hund
  · intro b hb hdesc
    obtain ⟨d, hd, hdp, hund⟩ := desc_first _ _ _ hdesc
    obtain ⟨d1, hd1, e⟩ := sh4 d hd
    obtain ⟨e1, e2, _, _⟩ := shape_fields _ _ e
    have hown := (ht _ hm d1 hd1 (e2.trans hdp) (Or.inl rfl)).2
    have hkid : d1 ∈ matterDaoList m.Uuid m.UserUuid s := by
      simp only [matterDaoList, List.mem_filter, decide_eq_true_eq]
      exact ⟨hd1, e2.trans hdp, hown⟩
    exact hpost d1 hkid b hb (by rw [e1]; exact hund)

theorem move_dir_run (env : Env D) (fuel : Nat) (s s1 : State D) (a t : Matter)
    (hdir : a.Dir = true) (h : move env fuel a t s = .ok () s1) :
    t.Dir = true ∧ ∃ d, forEach
      (fun m => adjustPath fuel m (movedRow a t))
      (matterDaoList (movedRow a t).Uuid (movedRow a t).UserUuid
        ({ s with matters := reparented s.matters a t, disk := d } : State D))
      ({ s with matters := reparented s.matters a t, disk := d } : State D) = .ok () s1 := by
  unfold move at h
  split at h
  · simp at h
  rename_i htd
  refine ⟨by simpa using htd, ?_⟩
  obtain ⟨_, s2, hio, h2⟩ := Res.bind_eq_ok _ _ _ _ h
  unfold ioStep at hio
  split at hio
  · simp at hio
  rename_i d _
  simp only [Res.ok.injEq, true_and] at hio
  subst hio
  simp only [Save, Res.bind] at h2
  exact ⟨d, h2⟩

theorem desc_stored (ms : List Matter) (a x : String) (h : Descendant ms a x) :
    ∃ b ∈ ms, b.Uuid = x ∧ (b.Puuid = a ∨ Descendant ms a b.Puuid) := by
  cases h with
  | child b hb hp => exact ⟨b, hb, rfl, Or.inl hp⟩
  | deeper b hb hd => exact ⟨b, hb, rfl, Or.inr hd⟩

/-! ### The path derivation under creation and copy -/

theorem pathDerived_append (ms : List Matter) (m : Matter) (dir : Matter)
    (hpd : PathDerived ms) (hdir : StoredOrRoot ms dir) (hp : m.Puuid = dir.Uuid)
    (hpath : m.Path = dir.Path ++ "/" ++ m.Name) : PathDerived (ms ++ [m]) := by
  intro r hr
  rcases List.mem_append.mp hr with hr | hr
  · rcases hpd r hr with h | ⟨p, hp0, h1, h2⟩
    · exact Or.inl h
    · exact Or.inr ⟨p, List.mem_append_left _ hp0, h1, h2⟩
  · simp only [List.mem_singleton] at hr
    subst hr
    rcases hdir with hd | ⟨hd1, hd2⟩
    · exact Or.inr ⟨dir, List.mem_append_left _ hd, hp.symm, hpath⟩
    · exact Or.inl ⟨hp.trans hd1, by rw [hpath, hd2]⟩

theorem createDirectory_keeps_paths (env : Env D) (s s1 : State D) (dir m : Matter)
    (name : String) (user : User) (hpd : PathDerived s.matters)
    (hdir : StoredOrRoot s.matters dir)
    (h : createDirectory env dir name user s = .ok m s1) :
    PathDerived s1.matters ∧ m ∈ s1.matters := by
  obtain ⟨_, _, _, _, hm, d, hs1⟩ := createDirectory_ok_inv env s s1 dir m name user h
  subst hs1 hm
  exact ⟨pathDerived_append _ _ dir hpd hdir rfl rfl, by simp [createdState]⟩

theorem createEach_keeps_paths (env : Env D) (user : User) (names : List String) :
    ∀ (s s1 : State D) (dir m : Matter), PathDerived s.matters → StoredOrRoot s.matters dir →
      createEach env user names dir s = .ok m s1 → PathDerived s1.matters := by
  induction names with
  | nil =>
    intro s s1 dir m hpd _ h
    simp only [createEach, Res.ok.injEq] at h
    rw [← h.2]; exact hpd
  | cons name names ih =>
    intro s s1 dir m hpd hdir h
    simp only [createEach] at h
    obtain ⟨m2, s2, hc, hrest⟩ := Res.bind_eq_ok _ _ _ _ h
    obtain ⟨hpd2, hm2⟩ := createDirectory_keeps_paths env s s2 dir m2 name user hpd hdir hc
    exact ih s2 s1 m2 m hpd2 (Or.inl hm2) hrest

theorem CreateDirectories_keeps_paths (env : Env D) (user : User) (dirPath : String)
    (s s1 : State D) (m : Matter) (hpd : PathDerived s.matters)
    (h : CreateDirectories env user dirPath s = .ok m s1) : PathDerived s1.matters := by
  have hroot : StoredOrRoot s.matters (NewRootMatter user) := Or.inr ⟨rfl, rfl⟩
  unfold CreateDirectories at h
  split at h
  · simp at h
  split at h
  · simp at h
  split at h
  · simp at h
  split at h
  · simp at h
  split at h
  · simp only [Res.ok.injEq] at h
    rw [← h.2]; exact hpd
  simp only at h
  split at h <;> split at h <;>
    first
      | (simp at h; done)
      | exact createEach_keeps_paths env user _ s s1 _ m hpd hroot h

theorem ioStep_matters (site : String) (op : D → Option D) (s s1 : State D)
    (h : ioStep site op s = .ok () s1) : s1.matters = s.matters := by
  unfold ioStep at h
  split at h
  · simp at h
  · simp only [Res.ok.injEq, true_and] at h
    rw [← h]

theorem Upload_keeps_paths (env : Env D) (file : List Nat) (user : User) (dir : Matter)
    (filename : String) (privacy : Bool) (s s1 : State D) (m : Matter)
    (hpd : PathDerived s.matters) (hdir : StoredOrRoot s.matters dir)
    (h : Upload env file user dir filename privacy s = .ok m s1) :
    PathDerived s1.matters := by
  unfold Upload at h
  split at h
  · simp at h
  simp only at h
  split at h
  · simp at h
  obtain ⟨_, s2, hio, h2⟩ := Res.bind_eq_ok _ _ _ _ h
  have hm2 : s2.matters = s.matters := by
    unfold ioStep at hio
    split at hio
    · simp at hio
    · simp only [Res.ok.injEq, true_and] at hio
      rw [← hio]
  split at h2
  · simp at h2
  obtain ⟨_, s3, hio3, h3⟩ := Res.bind_eq_ok _ _ _ _ h2
  have hm3 : s3.matters = s.matters := by
    split at hio3
    · unfold ioStep at hio3
      split at hio3
      · simp at hio3
      · simp only [Res.ok.injEq, true_and] at hio3
        rw [← hio3]; exact hm2
    · simp only [Res.ok.injEq, true_and] at hio3
      rw [← hio3]; exact hm2
  obtain ⟨_, s4, hio4, h4⟩ := Res.bind_eq_ok _ _ _ _ h3
  have hm4 : s4.matters = s.matters := (ioStep_matters _ _ _ _ hio4).trans hm3
  obtain ⟨s5, h5, hclose⟩ := deferred_eq_ok _ _ _ _ h4
  rw [ioStep_matters _ _ _ _ hclose]
  split at h5
  · simp at h5
  split at h5
  · obtain ⟨_, s6, _, h6⟩ := Res.bind_eq_ok _ _ _ _ h5
    simp at h6
  · simp only [Create, Res.ok.injEq] at h5
    rw [← h5.2]
    simp only [hm4]
    exact pathDerived_append _ _ dir hpd hdir rfl rfl

theorem forEach_copy_keeps_paths (env : Env D) (fuel : Nat) (new : Matter)
    (hcopy : ∀ (s s1 : State D) (src dest : Matter) (name : String),
      PathDerived s.matters → StoredOrRoot s.matters dest →
      copy env fuel src dest name s = .ok () s1 →
      PathDerived s1.matters ∧ ∀ r ∈ s.matters, r ∈ s1.matters) :
    ∀ (todo : List Matter) (s s1 : State D), PathDerived s.matters → new ∈ s.matters →
      forEach (fun m => copy env fuel m new m.Name) todo s = .ok () s1 →
      PathDerived s1.matters ∧ ∀ r ∈ s.matters, r ∈ s1.matters := by
  intro todo
  induction todo with
  | nil =>
    intro s s1 hpd _ h
    simp only [forEach, Res.ok.injEq, true_and] at h
    subst h
    exact ⟨hpd, fun r hr => hr⟩
  | cons m rest ih =>
    intro s s1 hpd hnew h
    simp only [forEach] at h
    obtain ⟨_, s2, h1, h2⟩ := Res.bind_eq_ok _ _ _ _ h
    obtain ⟨hpd2, hsub2⟩ := hcopy s s2 m new m.Name hpd (Or.inl hnew) h1
    obtain ⟨hpd3, hsub3⟩ := ih s2 s1 hpd2 (hsub2 _ hnew) h2
    exact ⟨hpd3, fun r hr => hsub3 r (hsub2 r hr)⟩

theorem copy_keeps_paths (env : Env D) :
    ∀ (fuel : Nat) (s s1 : State D) (src dest : Matter) (name : String),
      PathDerived s.matters → StoredOrRoot s.matters dest →
      copy env fuel src dest name s = .ok () s1 →
      PathDerived s1.matters ∧ ∀ r ∈ s.matters, r ∈ s1.matters := by
  intro fuel
  induction fuel with
  | zero => intro s s1 src dest name _ _ h; simp [copy] at h
  | succ fuel ih =>
    intro s s1 src dest name hpd hdest h
    unfold copy at h
    split at h
    · simp only [Create, Res.bind] at h
      have hpd2 := pathDerived_append s.matters
        { Uuid := env.NewUuid s.nextId, Puuid := dest.Uuid, UserUuid := src.UserUuid,
          Username := src.Username, Dir := src.Dir, Name := name, Md5 := "",
          Size := src.Size, Privacy := src.Privacy, Path := dest.Path ++ "/" ++ name }
        dest hpd hdest rfl rfl
      obtain ⟨hpd3, hsub3⟩ := forEach_copy_keeps_paths env fuel _ ih _ _ s1 hpd2
        (by simp) h
      exact ⟨hpd3, fun r hr => hsub3 r (List.mem_append_left _ hr)⟩
    · simp only at h
      obtain ⟨_, s2, hio, h2⟩ := Res.bind_eq_ok _ _ _ _ h
      have hm := ioStep_matters _ _ _ _ hio
      simp only [Create, Res.bind, Res.ok.injEq, true_and] at h2
      subst h2
      simp only [hm]
      exact ⟨pathDerived_append s.matters _ dest hpd hdest rfl rfl,
        fun r hr => List.mem_append_left _ hr⟩

theorem handleOverwrite_ok (env : Env D) (userUuid path : String) (overwrite : Bool)
    (s s1 : State D) (h : handleOverwrite env userUuid path overwrite s = .ok () s1) :
    s1.matters = s.matters
    ∨ ∃ x, s.matters.find? (fun r => r.UserUuid = userUuid ∧ r.Path = path) = some x
        ∧ s1.matters = s.matters.filter (fun r => r.Uuid ≠ x.Uuid) := by
  unfold handleOverwrite findByUserUuidAndPath at h
  split at h
  · rename_i x hx
    split at h
    · unfold Delete at h
      split at h
      · simp at h
      · simp only [Res.ok.injEq, true_and] at h
        exact Or.inr ⟨x, hx, by rw [← h]⟩
    · simp at h
  · simp only [Res.ok.injEq, true_and] at h
    exact Or.inl (by rw [h])

theorem path_ne_child (p n : String) : p ≠ p ++ "/" ++ n := by
  intro h
  have := congrArg String.length h
  simp only [String.length_append] at this
  have h1 : "/".length = 1 := rfl
  omega

theorem pathDerived_filter (ms : List Matter) (x : Matter) (hpd : PathDerived ms)
    (hch : ∀ r ∈ ms, r.Puuid ≠ x.Uuid) :
    PathDerived (ms.filter (fun r => r.Uuid ≠ x.Uuid)) := by
  intro r hr
  have hr0 := (List.mem_filter.mp hr).1
  rcases hpd r hr0 with h | ⟨p, hp, h1, h2⟩
  · exact Or.inl h
  · refine Or.inr ⟨p, List.mem_filter.mpr ⟨hp, ?_⟩, h1, h2⟩
    simp only [ne_eq, decide_not, Bool.not_eq_true', decide_eq_false_iff_not]
    intro hpx
    exact hch r hr0 (h1.symm.trans hpx)

theorem storedOrRoot_filter (ms : List Matter) (hu : UniqueIds ms) (x dest : Matter)
    (name : String) (hx : x ∈ ms) (hxp : x.Path = dest.Path ++ "/" ++ name)
    (hdest : StoredOrRoot ms dest) :
    StoredOrRoot (ms.filter (fun r => r.Uuid ≠ x.Uuid)) dest := by
  rcases hdest with hd | hd
  · refine Or.inl (List.mem_filter.mpr ⟨hd, ?_⟩)
    simp only [ne_eq, decide_not, Bool.not_eq_true', decide_eq_false_iff_not]
    intro he
    have := uniq_eq ms hu dest x hd hx he
    subst this
    exact path_ne_child _ _ hxp
  · exact Or.inr hd

theorem AtomicCopy_keeps_paths (env : Env D) (fuel : Nat) (s s1 : State D)
    (src dest : Matter) (name : String) (overwrite : Bool)
    (hu : UniqueIds s.matters) (hpd : PathDerived s.matters)
    (hdest : StoredOrRoot s.matters dest)
    (hsafe : ChildlessAt s.matters src.UserUuid (dest.Path ++ "/" ++ name))
    (h : AtomicCopy env fuel src dest name overwrite s = .ok () s1) :
    PathDerived s1.matters := by
  obtain ⟨_, s2, hbody, hs1⟩ := withMatterLock_eq_ok _ _ _ _ _ h
  subst hs1
  unfold AtomicCopyBody at hbody
  split at hbody
  · simp at hbody
  obtain ⟨_, s3, hov, hcopy⟩ := Res.bind_eq_ok _ _ _ _ hbody
  rcases handleOverwrite_ok _ _ _ _ _ _ hov with hsame | ⟨x, hx, hfil⟩
  · exact (copy_keeps_paths env fuel s3 s2 src dest name (by rw [hsame]; exact hpd)
      (by rw [hsame]; exact hdest) hcopy).1
  · have hxm := List.mem_of_find?_eq_some hx
    have hxp := List.find?_some hx
    simp only [decide_eq_true_eq] at hxp
    exact (copy_keeps_paths env fuel s3 s2 src dest name
      (by rw [hfil]; exact pathDerived_filter _ x hpd (hsafe x hx))
      (by rw [hfil]; exact storedOrRoot_filter _ hu x dest name hxm hxp.2 hdest) hcopy).1

/-! ### The path derivation under move and rename -/

theorem mem_replaced (ms : List Matter) (a r : Matter) (hr : r ∈ replaced ms a) :
    r = a ∨ (r ∈ ms ∧ r.Uuid ≠ a.Uuid) := by
  simp only [replaced, List.mem_map] at hr
  obtain ⟨r0, hr0, e⟩ := hr
  by_cases h : r0.Uuid = a.Uuid
  · simp only [h, if_true] at e
    exact Or.inl e.symm
  · simp only [h, if_false] at e
    subst e
    exact Or.inr ⟨hr0, h⟩

theorem mem_replaced_of_ne (ms : List Matter) (a r : Matter) (hr : r ∈ ms)
    (hne : r.Uuid ≠ a.Uuid) : r ∈ replaced ms a :=
  List.mem_map.mpr ⟨r, hr, by simp [hne]⟩

theorem mem_replaced_self (ms : List Matter) (a a0 : Matter) (ha : a0 ∈ ms)
    (hu : a0.Uuid = a.Uuid) : a ∈ replaced ms a :=
  List.mem_map.mpr ⟨a0, ha, by simp [hu]⟩

theorem dropWhile_append_stop (p : Char → Bool) (l1 l2 : List Char) (c : Char)
    (h1 : ∀ x ∈ l1, p x = true) (hc : p c = false) :
    (l1 ++ c :: l2).dropWhile p = c :: l2 := by
  induction l1 with
  | nil => simp [List.dropWhile, hc]
  | cons x xs ih =>
    have hx := h1 x (List.mem_cons_self _ _)
    simp only [List.cons_append, List.dropWhile, hx]
    exact ih (fun y hy => h1 y (List.mem_cons_of_mem _ hy))

theorem GetDirOfPath_child (p n : String) (hn : '/' ∉ n.data) :
    GetDirOfPath (p ++ "/" ++ n) = p := by
  unfold GetDirOfPath
  have e : (p ++ "/" ++ n).data.reverse = n.data.reverse ++ '/' :: p.data.reverse := by
    simp [String.data_append]
  rw [e, dropWhile_append_stop _ _ _ '/' _ (by simp)]
  · simp
  · intro x hx
    simp only [ne_eq, decide_not, Bool.not_eq_true', decide_eq_false_iff_not]
    intro hx2
    subst hx2
    exact hn (List.mem_reverse.mp hx)

theorem pathDerived_restamped (ms2 ms1 : List Matter) (a : Matter)
    (hu2 : UniqueIds ms2) (ha : a ∈ ms2)
    (htop : (a.Puuid = MATTER_ROOT ∧ a.Path = "" ++ "/" ++ a.Name)
      ∨ ∃ p ∈ ms2, p.Uuid = a.Puuid ∧ a.Path = p.Path ++ "/" ++ a.Name
          ∧ ¬ Descendant ms2 a.Uuid p.Uuid)
    (hout : ∀ r ∈ ms2, r.Uuid ≠ a.Uuid → ¬ Descendant ms2 a.Uuid r.Uuid →
      (r.Puuid = MATTER_ROOT ∧ r.Path = "" ++ "/" ++ r.Name) ∨ PathFromParent ms2 r)
    (R : Restamped (fun x => Descendant ms2 a.Uuid x) ms2 ms1)
    (hpost : ∀ b ∈ ms1, Descendant ms1 a.Uuid b.Uuid → PathFromParent ms1 b) :
    PathDerived ms1 := by
  classical
  obtain ⟨sh1, sh2⟩ := shapesIn_of_map _ _ R.map_shape
  intro r hr
  by_cases hd : Descendant ms1 a.Uuid r.Uuid
  · exact Or.inr (hpost r hr hd)
  obtain ⟨r0, hr0, esh, heq⟩ := R.mem_inv r hr
  have eu : r.Uuid = r0.Uuid := (shape_fields _ _ esh).1
  have hd0 : ¬ Descendant ms2 a.Uuid r0.Uuid := by
    intro h
    exact hd (by rw [eu]; exact descendant_mono _ _ sh1 _ _ h)
  have := heq hd0
  subst this
  by_cases hra : r.Uuid = a.Uuid
  · have := uniq_eq ms2 hu2 r a hr0 ha hra
    subst this
    rcases htop with h | ⟨p, hp, h1, h2, h3⟩
    · exact Or.inl h
    · exact Or.inr ⟨p, R.mem_of_not p hp h3, h1, h2⟩
  · rcases hout r hr0 hra hd0 with h | ⟨p, hp, h1, h2⟩
    · exact Or.inl h
    · refine Or.inr ⟨p, R.mem_of_not p hp ?_, h1, h2⟩
      intro hpd
      exact hd0 (Descendant.deeper r hr0 (by rw [← h1]; exact hpd))

theorem hout_of_replaced (ms : List Matter) (a : Matter) (hpd : PathDerived ms) :
    ∀ r ∈ replaced ms a, r.Uuid ≠ a.Uuid → ¬ Descendant (replaced ms a) a.Uuid r.Uuid →
      (r.Puuid = MATTER_ROOT ∧ r.Path = "" ++ "/" ++ r.Name)
        ∨ PathFromParent (replaced ms a) r := by
  intro r hr hne hnd
  rcases mem_replaced ms a r hr with e | ⟨hr0, _⟩
  · exact absurd (by rw [e]) hne
  rcases hpd r hr0 with h | ⟨p, hp, h1, h2⟩
  · exact Or.inl h
  · refine Or.inr ⟨p, mem_replaced_of_ne ms a p hp ?_, h1, h2⟩
    intro hpa
    exact hnd (Descendant.child r hr (h1.symm.trans hpa))

theorem restampRun_spec (rank : String → Nat) (fuel : Nat) (s2 s1 : State D) (a : Matter)
    (hu : UniqueIds s2.matters) (hr : ∀ r ∈ s2.matters, rank r.Puuid < rank r.Uuid)
    (ht : TreeBelow s2.matters a.Uuid) (ha : a ∈ s2.matters)
    (hrun : RestampRun fuel a s2 s1) :
    a ∈ s1.matters
    ∧ Restamped (fun x => Descendant s2.matters a.Uuid x) s2.matters s1.matters
    ∧ ∀ b ∈ s1.matters, Descendant s1.matters a.Uuid b.Uuid → PathFromParent s1.matters b := by
  rcases hrun with ⟨_, h⟩ | ⟨hfile, h⟩
  · exact forEach_children_spec rank fuel s2 s1 a hu hr ht ha h
  · rw [h]
    refine ⟨ha, Restamped.refl _ _, ?_⟩
    intro b _ hdesc
    obtain ⟨d, hd, hdp, _⟩ := desc_first _ _ _ hdesc
    have := (ht a ha d hd hdp (Or.inl rfl)).1
    rw [hfile] at this
    exact absurd this (by simp)

theorem move_run (env : Env D) (fuel : Nat) (s s1 : State D) (a t : Matter)
    (h : move env fuel a t s = .ok () s1) :
    t.Dir = true ∧ ∃ s2 : State D, s2.matters = replaced s.matters (movedRow a t)
      ∧ RestampRun fuel (movedRow a t) s2 s1 := by
  unfold move at h
  split at h
  · simp at h
  rename_i htd
  refine ⟨by simpa using htd, ?_⟩
  split at h
  · rename_i hdir
    obtain ⟨_, s2, hio, h2⟩ := Res.bind_eq_ok _ _ _ _ h
    have hm := ioStep_matters _ _ _ _ hio
    simp only [Save, Res.bind] at h2
    refine ⟨_, ?_, Or.inl ⟨hdir, h2⟩⟩
    simp only [replaced, movedRow, hm]
  · rename_i hdir
    obtain ⟨_, s2, hio, h2⟩ := Res.bind_eq_ok _ _ _ _ h
    have hm := ioStep_matters _ _ _ _ hio
    simp only [DeleteByMatterUuid, Save, Res.bind, Res.ok.injEq, true_and] at h2
    refine ⟨s1, ?_, Or.inr ⟨by simpa [movedRow] using hdir, rfl⟩⟩
    rw [← h2]
    simp only [replaced, movedRow, hm]

theorem movedRow_node (a a0 t : Matter) (h : node a = node a0) :
    movedRow a t = movedRow a0 t := by
  simp only [node, Matter.mk.injEq] at h
  simp only [movedRow, Matter.mk.injEq]
  tauto

theorem node_fields (r r' : Matter) (h : node r' = node r) :
    r'.Uuid = r.Uuid ∧ r'.UserUuid = r.UserUuid ∧ r'.Dir = r.Dir ∧ r'.Name = r.Name := by
  simp only [node, Matter.mk.injEq] at h
  tauto

theorem node_of_pathless (r r' : Matter) (h : pathless r' = pathless r) :
    node r' = node r := by
  simp only [pathless, Matter.mk.injEq] at h
  simp only [node, Matter.mk.injEq]
  tauto

theorem Restamped.map_node {P : String → Prop} {ms ms1 : List Matter}
    (h : Restamped P ms ms1) : ms1.map node = ms.map node := by
  obtain ⟨g, e, c⟩ := h
  rw [e, List.map_map]
  apply List.map_congr_left
  intro r hr
  exact node_of_pathless _ _ (c r hr).1

theorem treeShaped_congr (ms ms1 : List Matter) (h : ShapesIn ms1 ms)
    (ht : TreeShaped ms) : TreeShaped ms1 := by
  intro p hp c hc hpc
  obtain ⟨p0, hp0, ep⟩ := h p hp
  obtain ⟨c0, hc0, ec⟩ := h c hc
  obtain ⟨p1, _, p3, p4⟩ := shape_fields _ _ ep
  obtain ⟨_, c2, c3, _⟩ := shape_fields _ _ ec
  have := ht p0 hp0 c0 hc0 (by rw [c2, p1]; exact hpc)
  rw [p4, c3, p3] at this
  exact this

theorem rootNotStored_congr (ms ms1 : List Matter) (h : ShapesIn ms1 ms)
    (hr : RootNotStored ms) : RootNotStored ms1 := by
  intro r1 h1
  obtain ⟨r, hr0, e⟩ := h r1 h1
  rw [← (shape_fields _ _ e).1]
  exact hr r hr0

theorem desc_reparented_any (ms : List Matter) (a t : Matter) (b x : String)
    (h : Descendant (reparented ms a t) b x) :
    Descendant ms b x ∨ Under ms a.Uuid x := by
  induction h with
  | child c hc hp =>
    rcases mem_reparented ms a t c hc with e | ⟨hc0, _⟩
    · subst e; exact Or.inr (Or.inl rfl)
    · exact Or.inl (Descendant.child c hc0 hp)
  | deeper c hc _ ih =>
    rcases mem_reparented ms a t c hc with e | ⟨hc0, _⟩
    · subst e; exact Or.inr (Or.inl rfl)
    · rcases ih with ih | ih
      · exact Or.inl (Descendant.deeper c hc0 ih)
      · rcases ih with ih | ih
        · exact Or.inr (Or.inr (Descendant.child c hc0 ih))
        · exact Or.inr (Or.inr (Descendant.deeper c hc0 ih))

theorem treeShaped_reparented (ms : List Matter) (hu : UniqueIds ms) (hroot : RootNotStored ms)
    (a t : Matter) (ha : a ∈ ms) (htree : TreeShaped ms) (ht : StoredOrRoot ms t)
    (htdir : t.Dir = true) (hne : t.Uuid ≠ a.Uuid)
    (hown : t ∈ ms → a.UserUuid = t.UserUuid) : TreeShaped (reparented ms a t) := by
  intro p hp c hc hpc
  rcases mem_reparented ms a t c hc with e | ⟨hc0, _⟩
  · subst e
    simp only [movedRow] at hpc
    rcases mem_reparented ms a t p hp with e | ⟨hp0, _⟩
    · subst e
      exact absurd hpc hne
    · rcases ht with ht | ⟨ht, _⟩
      · have := uniq_eq ms hu p t hp0 ht hpc.symm
        subst this
        exact ⟨htdir, hown ht⟩
      · exact absurd (hpc.symm.trans ht) (hroot p hp0)
  · rcases mem_reparented ms a t p hp with e | ⟨hp0, _⟩
    · subst e
      exact htree a ha c hc0 hpc
    · exact htree p hp0 c hc0 hpc

theorem map_node_reparented (ms : List Matter) (hu : UniqueIds ms) (a t : Matter)
    (ha : a ∈ ms) : (reparented ms a t).map node = ms.map node := by
  unfold reparented
  rw [List.map_map]
  apply List.map_congr_left
  intro r hr
  simp only [Function.comp_apply]
  split
  · rename_i h
    have := uniq_eq ms hu r a hr ha h
    subst this
    rfl
  · rfl

theorem move_spec (env : Env D) (fuel : Nat) (s s1 : State D) (a a0 t : Matter)
    (hwf : WellFormed s.matters) (ha0 : a0 ∈ s.matters) (hnode : node a = node a0)
    (ht : StoredOrRoot s.matters t) (hne : t.Uuid ≠ a0.Uuid)
    (hnb : ¬ Descendant s.matters a0.Uuid t.Uuid)
    (h : move env fuel a t s = .ok () s1) :
    PathDerived s1.matters ∧ UniqueIds s1.matters ∧ Acyclic s1.matters
    ∧ RootNotStored s1.matters
    ∧ ((t ∈ s.matters → a0.UserUuid = t.UserUuid) → TreeShaped s1.matters)
    ∧ s1.matters.map node = s.matters.map node
    ∧ StoredOrRoot s1.matters t
    ∧ (∀ b x, Descendant s1.matters b x →
        Descendant s.matters b x ∨ Under s.matters a0.Uuid x) := by
  obtain ⟨hu, htree, hacy, hroot, hpd⟩ := hwf
  obtain ⟨htdir, s2, hs2, hrun⟩ := move_run env fuel s s1 a t h
  rw [movedRow_node a a0 t hnode] at hs2 hrun
  have hs2' : s2.matters = reparented s.matters a0 t := hs2
  have hu2 : UniqueIds s2.matters := by
    rw [hs2']; exact uniqueIds_reparented s.matters hu a0 t
  obtain ⟨rank, hr2⟩ := acyclic_reparented s.matters hu a0 t hacy hne hnb
  have ht2 : TreeBelow s2.matters (movedRow a0 t).Uuid := by
    rw [hs2']; exact treeBelow_reparented s.matters a0 t ha0 htree hne hnb
  have ha2 : movedRow a0 t ∈ s2.matters := by
    rw [hs2]; exact mem_replaced_self _ _ a0 ha0 rfl
  have hnb2 : ¬ Descendant s2.matters a0.Uuid t.Uuid := by
    rw [hs2']; exact fun hd => hnb (desc_reparented s.matters a0 t hne hnb _ hd)
  obtain ⟨h1, R, hpost⟩ := restampRun_spec rank fuel s2 s1 (movedRow a0 t) hu2
    (by rw [hs2']; exact hr2) ht2 ha2 hrun
  obtain ⟨sh1, sh2⟩ := shapesIn_of_map _ _ R.map_shape
  have hstored1 : StoredOrRoot s1.matters t := by
    rcases ht with ht | ht
    · refine Or.inl (R.mem_of_not t ?_ hnb2)
      rw [hs2]; exact mem_replaced_of_ne _ _ t ht hne
    · exact Or.inr ht
  refine ⟨?_, uniqueIds_congr _ _ R.map_shape hu2,
    ⟨rank, rank_congr _ _ sh2 rank (by rw [hs2']; exact hr2)⟩, ?_, ?_, ?_, hstored1, ?_⟩
  · apply pathDerived_restamped s2.matters s1.matters (movedRow a0 t) hu2 ha2 ?_ ?_ R hpost
    · rcases ht with ht | ⟨ht1, ht2⟩
      · refine Or.inr ⟨t, ?_, rfl, rfl, hnb2⟩
        rw [hs2]; exact mem_replaced_of_ne _ _ t ht hne
      · exact Or.inl ⟨ht1, by simp only [movedRow, ht2]⟩
    · rw [hs2]; exact hout_of_replaced s.matters (movedRow a0 t) hpd
  · apply rootNotStored_congr _ _ sh2
    intro r hr
    rw [hs2'] at hr
    rcases mem_reparented _ _ _ _ hr with e | ⟨hr0, _⟩
    · subst e; exact hroot a0 ha0
    · exact hroot r hr0
  · intro hown
    apply treeShaped_congr _ _ sh2
    rw [hs2']
    exact treeShaped_reparented s.matters hu hroot a0 t ha0 htree ht htdir hne hown
  · rw [R.map_node, hs2']
    exact map_node_reparented s.matters hu a0 t ha0
  · intro b x hd
    have := descendant_mono _ _ sh2 _ _ hd
    rw [hs2'] at this
    exact desc_reparented_any s.matters a0 t b x this

/-! ### The cycle check of `AtomicMove` and the overwrite step -/

theorem find_uuid (ms : List Matter) (hu : UniqueIds ms) (r : Matter) (hr : r ∈ ms) :
    ms.find? (fun x => x.Uuid = r.Uuid) = some r := by
  cases hf : ms.find? (fun x => x.Uuid = r.Uuid) with
  | none =>
    have := List.find?_eq_none.mp hf r hr
    simp at this
  | some p =>
    have hp := List.find?_some hf
    simp only [decide_eq_true_eq] at hp
    rw [uniq_eq ms hu p r (List.mem_of_find?_eq_some hf) hr hp]

theorem desc_onChain (ms : List Matter) (hu : UniqueIds ms) (hroot : RootNotStored ms)
    (a0 : Matter) (ha0 : a0 ∈ ms) (x : String) (h : Descendant ms a0.Uuid x) :
    ∀ b ∈ ms, b.Uuid = x → OnAncestorChain ms a0.Uuid b := by
  induction h with
  | child c hc hp =>
    intro b hb hbu
    have := uniq_eq ms hu b c hb hc hbu
    subst this
    refine OnAncestorChain.above b a0 ?_ ?_ (OnAncestorChain.self a0 rfl)
    · rw [hp]; exact hroot a0 ha0
    · rw [hp]; exact find_uuid ms hu a0 ha0
  | deeper c hc hd ih =>
    intro b hb hbu
    have := uniq_eq ms hu b c hb hc hbu
    subst this
    obtain ⟨p, hp, hpu, _⟩ := desc_stored _ _ _ hd
    refine OnAncestorChain.above b p ?_ ?_ (ih p hp hpu)
    · rw [← hpu]; exact hroot p hp
    · rw [← hpu]; exact find_uuid ms hu p hp

theorem wrapParents_state : ∀ (fuel : Nat) (puuid : String) (s s1 : State D)
    (ps : List Matter), wrapParents fuel puuid s = .ok ps s1 → s1 = s := by
  intro fuel
  induction fuel with
  | zero => intro puuid s s1 ps h; simp [wrapParents] at h
  | succ fuel ih =>
    intro puuid s s1 ps h
    unfold wrapParents at h
    split at h
    · obtain ⟨p, s2, hc, h2⟩ := Res.bind_eq_ok _ _ _ _ h
      have hs2 : s2 = s := by
        unfold CheckByUuid at hc
        split at hc
        · simp only [Res.ok.injEq] at hc; exact hc.2.symm
        · simp at hc
      obtain ⟨rest, s3, hw, h3⟩ := Res.bind_eq_ok _ _ _ _ h2
      simp only [Res.ok.injEq] at h3
      rw [← h3.2, ih _ _ _ _ hw, hs2]
    · simp only [Res.ok.injEq] at h
      exact h.2.symm

theorem check_passed (s s1 : State D) (hu : UniqueIds s.matters)
    (hroot : RootNotStored s.matters) (a a0 t : Matter) (ha0 : a0 ∈ s.matters)
    (hau : a.Uuid = a0.Uuid) (ht : StoredOrRoot s.matters t) (fuel : Nat)
    (chain : List Matter) (hw : WrapDetail fuel t s = .ok chain s1)
    (hchk : onParentChain a chain = false) :
    s1 = s ∧ t.Uuid ≠ a0.Uuid ∧ ¬ Descendant s.matters a0.Uuid t.Uuid := by
  unfold WrapDetail at hw
  obtain ⟨ps, s2, hwp, h2⟩ := Res.bind_eq_ok _ _ _ _ hw
  simp only [Res.ok.injEq] at h2
  have hs2 := wrapParents_state _ _ _ _ _ hwp
  subst hs2
  refine ⟨h2.2.symm, ?_, ?_⟩
  · intro he
    rw [← h2.1] at hchk
    simp [onParentChain, hau, he] at hchk
  · intro hd
    rcases ht with ht | ⟨ht, _⟩
    · have hch := desc_onChain s2.matters hu hroot a0 ha0 _ hd t ht rfl
      rw [← hau] at hch
      have := onParentChain_of_chain s2 a t hch fuel ps s2 hwp
      rw [h2.1] at this
      rw [this] at hchk
      exact absurd hchk (by simp)
    · obtain ⟨b, hb, hbu, _⟩ := desc_stored _ _ _ hd
      exact hroot b hb (hbu.trans ht)

theorem mem_filter_ne (ms : List Matter) (x r : Matter) :
    r ∈ ms.filter (fun r => r.Uuid ≠ x.Uuid) ↔ r ∈ ms ∧ r.Uuid ≠ x.Uuid := by
  simp [List.mem_filter]

theorem wellFormed_filter (ms : List Matter) (x : Matter) (hwf : WellFormed ms)
    (hch : ∀ r ∈ ms, r.Puuid ≠ x.Uuid) :
    WellFormed (ms.filter (fun r => r.Uuid ≠ x.Uuid)) := by
  obtain ⟨hu, htree, ⟨rank, hr⟩, hroot, hpd⟩ := hwf
  refine ⟨?_, ?_, ⟨rank, ?_⟩, ?_, pathDerived_filter ms x hpd hch⟩
  · exact List.Nodup.sublist ((List.filter_sublist ms).map _) hu
  · intro p hp c hc hpc
    exact htree p (List.mem_filter.mp hp).1 c (List.mem_filter.mp hc).1 hpc
  · intro r hr0
    exact hr r (List.mem_filter.mp hr0).1
  · intro r hr0
    exact hroot r (List.mem_filter.mp hr0).1

theorem desc_filter (ms : List Matter) (x : Matter) (a y : String)
    (h : Descendant (ms.filter (fun r => r.Uuid ≠ x.Uuid)) a y) : Descendant ms a y :=
  descendant_mono _ _ (fun r hr => ⟨r, (List.mem_filter.mp hr).1, rfl⟩) a y h

theorem moveBody_keeps_paths (env : Env D) (fuel : Nat) (s s1 : State D)
    (src dest : Matter) (overwrite : Bool)
    (hwf : WellFormed s.matters) (hsrc : src ∈ s.matters) (hdest : StoredOrRoot s.matters dest)
    (hsafe : ∀ x, s.matters.find? (fun r => r.UserUuid = src.UserUuid
        ∧ r.Path = dest.Path ++ "/" ++ src.Name) = some x →
      x.Uuid ≠ src.Uuid ∧ ∀ r ∈ s.matters, r.Puuid ≠ x.Uuid)
    (h : AtomicMoveBody env fuel src dest overwrite s = .ok () s1) :
    PathDerived s1.matters := by
  unfold AtomicMoveBody at h
  split at h
  · simp at h
  obtain ⟨chain, s2, hw, h2⟩ := Res.bind_eq_ok _ _ _ _ h
  split at h2
  · simp at h2
  rename_i hchk
  simp only [Bool.not_eq_true] at hchk
  obtain ⟨hs2, hne, hnb⟩ := check_passed s s2 hwf.1 hwf.2.2.2.1 src src dest hsrc rfl hdest
    fuel chain hw hchk
  subst hs2
  obtain ⟨_, s3, hov, hmove⟩ := Res.bind_eq_ok _ _ _ _ h2
  rcases handleOverwrite_ok _ _ _ _ _ _ hov with hsame | ⟨x, hx, hfil⟩
  · exact (move_spec env fuel s3 s1 src src dest (by rw [hsame]; exact hwf)
      (by rw [hsame]; exact hsrc) rfl (by rw [hsame]; exact hdest) hne
      (by rw [hsame]; exact hnb) hmove).1
  · obtain ⟨hxs, hxc⟩ := hsafe x hx
    have hxm := List.mem_of_find?_eq_some hx
    have hxp := List.find?_some hx
    simp only [decide_eq_true_eq] at hxp
    exact (move_spec env fuel s3 s1 src src dest
      (by rw [hfil]; exact wellFormed_filter _ x hwf hxc)
      (by rw [hfil]; exact (mem_filter_ne _ _ _).mpr ⟨hsrc, fun e => hxs e.symm⟩) rfl
      (by rw [hfil]; exact storedOrRoot_filter _ hwf.1 x dest src.Name hxm hxp.2 hdest) hne
      (by rw [hfil]; exact fun hd => hnb (desc_filter _ x _ _ hd)) hmove).1

theorem AtomicMove_keeps_paths (env : Env D) (fuel : Nat) (s s1 : State D)
    (src dest : Matter) (overwrite : Bool)
    (hwf : WellFormed s.matters) (hsrc : src ∈ s.matters) (hdest : StoredOrRoot s.matters dest)
    (hsafe : ∀ x, s.matters.find? (fun r => r.UserUuid = src.UserUuid
        ∧ r.Path = dest.Path ++ "/" ++ src.Name) = some x →
      x.Uuid ≠ src.Uuid ∧ ∀ r ∈ s.matters, r.Puuid ≠ x.Uuid)
    (h : AtomicMove env fuel src dest overwrite s = .ok () s1) :
    PathDerived s1.matters := by
  obtain ⟨_, s2, hbody, hs1⟩ := withMatterLock_eq_ok _ _ _ _ _ h
  subst hs1
  exact moveBody_keeps_paths env fuel ({ s with locks := src.UserUuid :: s.locks } : State D)
    s2 src dest overwrite hwf hsrc hdest hsafe hbody

theorem forEach_move_keeps_paths (env : Env D) (fuel : Nat) (t : Matter) :
    ∀ (srcs : List Matter) (s s1 : State D), WellFormed s.matters →
      StoredOrRoot s.matters t →
      (∀ a ∈ srcs, ∃ a0 ∈ s.matters, node a = node a0
        ∧ (t ∈ s.matters → a0.UserUuid = t.UserUuid) ∧ t.Uuid ≠ a0.Uuid
        ∧ ¬ Descendant s.matters a0.Uuid t.Uuid) →
      forEach (fun a => move env fuel a t) srcs s = .ok () s1 → PathDerived s1.matters := by
  intro srcs
  induction srcs with
  | nil =>
    intro s s1 hwf _ _ h
    simp only [forEach, Res.ok.injEq, true_and] at h
    subst h
    exact hwf.2.2.2.2
  | cons a rest ih =>
    intro s s1 hwf ht hsrcs h
    simp only [forEach] at h
    obtain ⟨_, s2, hmove, hrest⟩ := Res.bind_eq_ok _ _ _ _ h
    obtain ⟨a0, ha0, hnode, hown, hne, hnb⟩ := hsrcs a (List.mem_cons_self _ _)
    obtain ⟨hpd2, hu2, hacy2, hroot2, htree2, hmap, ht2, htrans⟩ :=
      move_spec env fuel s s2 a a0 t hwf ha0 hnode ht hne hnb hmove
    refine ih s2 s1 ⟨hu2, htree2 hown, hacy2, hroot2, hpd2⟩ ht2 ?_ hrest
    intro b hb
    obtain ⟨b0, hb0, hbnode, hbown, hbne, hbnb⟩ := hsrcs b (List.mem_cons_of_mem _ hb)
    have hmem : node b0 ∈ s2.matters.map node := by
      rw [hmap]; exact List.mem_map_of_mem node hb0
    obtain ⟨b1, hb1, e1⟩ := List.mem_map.mp hmem
    obtain ⟨eu, eo, _, _⟩ := node_fields _ _ e1
    refine ⟨b1, hb1, hbnode.trans e1.symm, ?_, by rw [eu]; exact hbne, ?_⟩
    · intro ht2m
      rcases ht with ht | ⟨ht, _⟩
      · rw [eo]; exact hbown ht
      · exact absurd ht (hroot2 t ht2m)
    · intro hd
      rw [eu] at hd
      rcases htrans _ _ hd with hd | hd
      · exact hbnb hd
      · rcases hd with hd | hd
        · exact hne hd
        · exact hnb hd

theorem AtomicMoveBatch_keeps_paths (env : Env D) (fuel : Nat) (s s1 : State D)
    (srcs : List Matter) (dest : Matter)
    (hwf : WellFormed s.matters) (hdest : StoredOrRoot s.matters dest)
    (hsrcs : ∀ a ∈ srcs, a ∈ s.matters ∧ (dest ∈ s.matters → a.UserUuid = dest.UserUuid))
    (h : AtomicMoveBatch env fuel (some srcs) dest s = .ok () s1) :
    PathDerived s1.matters := by
  obtain ⟨_, s2, hbody, hs1⟩ := withMatterLock_eq_ok _ _ _ _ _ h
  subst hs1
  simp only [AtomicMoveBatchBody] at hbody
  split at hbody
  · simp at hbody
  obtain ⟨chain, s3, hw, h2⟩ := Res.bind_eq_ok _ _ _ _ hbody
  split at h2
  · simp at h2
  rename_i hchk
  simp only [Bool.not_eq_true, List.any_eq_false] at hchk
  have hu : UniqueIds ({ s with locks := dest.UserUuid :: s.locks } : State D).matters := hwf.1
  have hs3 : s3 = ({ s with locks := dest.UserUuid :: s.locks } : State D) := by
    unfold WrapDetail at hw
    obtain ⟨ps, s4, hwp, h4⟩ := Res.bind_eq_ok _ _ _ _ hw
    simp only [Res.ok.injEq] at h4
    rw [← h4.2]
    exact wrapParents_state _ _ _ _ _ hwp
  subst hs3
  apply forEach_move_keeps_paths env fuel dest srcs
    ({ s with locks := dest.UserUuid :: s.locks } : State D) s2 hwf hdest ?_ h2
  intro a ha
  obtain ⟨ham, hown⟩ := hsrcs a ha
  obtain ⟨_, hne, hnb⟩ := check_passed _ _ hu hwf.2.2.2.1 a a dest ham rfl hdest fuel chain hw
    (by simpa using hchk a ha)
  exact ⟨a, ham, rfl, hown, hne, hnb⟩

theorem rename_run (env : Env D) (fuel : Nat) (s s1 : State D) (m : Matter) (name : String)
    (user : User) (h : AtomicRenameBody env fuel m name user s = .ok () s1) :
    ∃ s2 : State D, s2.matters = replaced s.matters (renamedRow m name)
      ∧ RestampRun fuel (renamedRow m name) s2 s1 := by
  unfold AtomicRenameBody at h
  split at h
  · simp at h
  split at h
  · simp at h
  split at h
  · simp at h
  split at h
  · simp at h
  split at h
  · simp at h
  split at h
  · rename_i hdir
    obtain ⟨_, s2, hio, h2⟩ := Res.bind_eq_ok _ _ _ _ h
    have hm := ioStep_matters _ _ _ _ hio
    simp only [Save, Res.bind] at h2
    refine ⟨_, ?_, Or.inl ⟨hdir, h2⟩⟩
    simp only [replaced, renamedRow, hm]
  · rename_i hdir
    obtain ⟨_, s2, hio, h2⟩ := Res.bind_eq_ok _ _ _ _ h
    have hm := ioStep_matters _ _ _ _ hio
    simp only [DeleteByMatterUuid, Save, Res.bind, Res.ok.injEq, true_and] at h2
    refine ⟨s1, ?_, Or.inr ⟨by simpa [renamedRow] using hdir, rfl⟩⟩
    rw [← h2]
    simp only [replaced, renamedRow, hm]

theorem map_shape_replaced (ms : List Matter) (hu : UniqueIds ms) (a a0 : Matter)
    (ha0 : a0 ∈ ms) (hs : shape a = shape a0) :
    (replaced ms a).map shape = ms.map shape := by
  unfold replaced
  rw [List.map_map]
  apply List.map_congr_left
  intro r hr
  simp only [Function.comp_apply]
  split
  · rename_i h
    have := uniq_eq ms hu r a0 hr ha0 (h.trans (shape_fields _ _ hs).1)
    subst this
    exact hs
  · rfl

theorem treeBelow_of_treeShaped (ms : List Matter) (a : String) (h : TreeShaped ms) :
    TreeBelow ms a := fun p hp c hc hpc _ => h p hp c hc hpc

theorem AtomicRename_keeps_paths (env : Env D) (fuel : Nat) (s s1 : State D)
    (m : Matter) (name : String) (user : User)
    (hwf : WellFormed s.matters) (hm : m ∈ s.matters) (hplain : '/' ∉ m.Name.data)
    (h : AtomicRename env fuel m name user s = .ok () s1) :
    PathDerived s1.matters := by
  obtain ⟨_, s3, hbody, hs1⟩ := withMatterLock_eq_ok _ _ _ _ _ h
  subst hs1
  obtain ⟨s2, hs2, hrun⟩ := rename_run env fuel
    ({ s with locks := user.Uuid :: s.locks } : State D) s3 m name user hbody
  obtain ⟨hu, htree, ⟨rank, hr⟩, hroot, hpd⟩ := hwf
  have hs2' : s2.matters = replaced s.matters (renamedRow m name) := hs2
  have hsh : s2.matters.map shape = s.matters.map shape := by
    rw [hs2']; exact map_shape_replaced s.matters hu _ m hm rfl
  obtain ⟨sh1, sh2⟩ := shapesIn_of_map _ _ hsh
  have hu2 := uniqueIds_congr _ _ hsh hu
  have hr2 := rank_congr _ _ sh2 rank hr
  have ht2 : TreeBelow s2.matters (renamedRow m name).Uuid :=
    treeBelow_of_treeShaped _ _ (treeShaped_congr _ _ sh2 htree)
  have ha2 : renamedRow m name ∈ s2.matters := by
    rw [hs2']; exact mem_replaced_self _ _ m hm rfl
  obtain ⟨h1, R, hpost⟩ := restampRun_spec rank fuel s2 s3 (renamedRow m name) hu2 hr2 ht2
    ha2 hrun
  apply pathDerived_restamped s2.matters s3.matters (renamedRow m name) hu2 ha2 ?_ ?_ R hpost
  · rcases hpd m hm with ⟨h1, h2⟩ | ⟨p, hp, h1, h2⟩
    · refine Or.inl ⟨h1, ?_⟩
      simp only [renamedRow, h2, GetDirOfPath_child "" m.Name hplain]
    · have hrm := hr m hm
      have hne : p.Uuid ≠ m.Uuid := by
        intro e
        rw [← h1, e] at hrm
        omega
      refine Or.inr ⟨p, ?_, h1, ?_, ?_⟩
      · rw [hs2']; exact mem_replaced_of_ne _ _ p hp hne
      · simp only [renamedRow, h2, GetDirOfPath_child p.Path m.Name hplain]
      · intro hd
        have := desc_rank _ rank hr2 _ _ hd
        rw [h1] at this
        have e : (renamedRow m name).Uuid = m.Uuid := rfl
        rw [e] at this
        omega
  · rw [hs2']; exact hout_of_replaced s.matters (renamedRow m name) hpd

/-! ### The re-stamp on a cycle never finishes -/

theorem forEach_never_ok_inv {α : Type} (body : α → State D → Res (State D) Unit)
    (inv : State D → Prop) (x : α) :
    ∀ (xs : List α), x ∈ xs →
      (∀ y ∈ xs, ∀ s s1, inv s → body y s = .ok () s1 → inv s1) →
      (∀ s s1, inv s → body x s ≠ .ok () s1) →
      ∀ s s1, inv s → forEach body xs s ≠ .ok () s1 := by
  intro xs
  induction xs with
  | nil => intro hx; simp at hx
  | cons y ys ih =>
    intro hx hpres hbad s s1 hinv h
    simp only [forEach] at h
    obtain ⟨_, s2, hy, hrest⟩ := Res.bind_eq_ok _ _ _ _ h
    rcases List.mem_cons.mp hx with hxy | hxy
    · subst hxy
      exact hbad s s2 hinv hy
    · exact ih hxy (fun z hz => hpres z (List.mem_cons_of_mem _ hz)) hbad s2 s1
        (hpres y (List.mem_cons_self _ _) s s2 hinv hy) hrest

theorem map_shape_save (ms : List Matter) (hu : UniqueIds ms) (c c1 : Matter)
    (hc : shape c ∈ ms.map shape) (hs : shape c1 = shape c) :
    (replaced ms c1).map shape = ms.map shape := by
  obtain ⟨r0, hr0, e0⟩ := List.mem_map.mp hc
  exact map_shape_replaced ms hu c1 r0 hr0 (hs.trans e0.symm)

theorem forEach_adjust_keeps_shape (fuel : Nat) (m : Matter)
    (hadj : ∀ (s s1 : State D) (c p : Matter), UniqueIds s.matters →
      shape c ∈ s.matters.map shape → adjustPath fuel c p s = .ok () s1 →
      s1.matters.map shape = s.matters.map shape) :
    ∀ (todo : List Matter) (s s1 : State D), UniqueIds s.matters →
      (∀ y ∈ todo, shape y ∈ s.matters.map shape) →
      forEach (fun d => adjustPath fuel d m) todo s = .ok () s1 →
      s1.matters.map shape = s.matters.map shape := by
  intro todo
  induction todo with
  | nil =>
    intro s s1 _ _ h
    simp only [forEach, Res.ok.injEq, true_and] at h
    rw [h]
  | cons y ys ih =>
    intro s s1 hu hmem h
    simp only [forEach] at h
    obtain ⟨_, s2, hy, hrest⟩ := Res.bind_eq_ok _ _ _ _ h
    have e2 := hadj s s2 y m hu (hmem y (List.mem_cons_self _ _)) hy
    have := ih s2 s1 (uniqueIds_congr _ _ e2 hu)
      (fun z hz => by rw [e2]; exact hmem z (List.mem_cons_of_mem _ hz)) hrest
    rw [this, e2]

theorem adjustPath_keeps_shape : ∀ (fuel : Nat) (s s1 : State D) (c p : Matter),
    UniqueIds s.matters → shape c ∈ s.matters.map shape →
    adjustPath fuel c p s = .ok () s1 → s1.matters.map shape = s.matters.map shape := by
  intro fuel
  induction fuel with
  | zero => intro s s1 c p _ _ h; simp [adjustPath] at h
  | succ fuel ih =>
    intro s s1 c p hu hc h
    have e1 := map_shape_save s.matters hu c { c with Path := p.Path ++ "/" ++ c.Name } hc rfl
    unfold adjustPath at h
    split at h
    · simp only [Save, Res.bind] at h
      have := forEach_adjust_keeps_shape fuel _ ih _ _ s1 (uniqueIds_congr _ _ e1 hu)
        (fun y hy => List.mem_map_of_mem shape (List.mem_filter.mp hy).1) h
      rw [this]
      exact e1
    · simp only [DeleteByMatterUuid, Save, Res.bind, Res.ok.injEq, true_and] at h
      rw [← h]
      exact e1

theorem children_never_finish (ms2 : List Matter) (hu2 : UniqueIds ms2) (cy : String → Prop)
    (u : String) (hstep : ∀ x, cy x → ∃ k ∈ ms2, k.Puuid = x ∧ cy k.Uuid)
    (hrow : ∀ r ∈ ms2, cy r.Uuid → r.Dir = true ∧ r.UserUuid = u) (fuel : Nat)
    (hadj : ∀ (s s1 : State D) (c p : Matter), s.matters.map shape = ms2.map shape →
      shape c ∈ ms2.map shape → cy c.Uuid → adjustPath fuel c p s ≠ .ok () s1)
    (s s1 : State D) (m : Matter) (x : String) (hs : s.matters.map shape = ms2.map shape)
    (hx : cy x) : forEach (fun d => adjustPath fuel d m) (matterDaoList x u s) s ≠ .ok () s1 := by
  obtain ⟨k, hk, hkp, hkc⟩ := hstep x hx
  obtain ⟨sh1, sh2⟩ := shapesIn_of_map _ _ hs
  obtain ⟨k1, hk1, ek⟩ := sh1 k hk
  obtain ⟨e1, e2, e3, _⟩ := shape_fields _ _ ek
  have hkid : k1 ∈ matterDaoList x u s := by
    simp only [matterDaoList, List.mem_filter, decide_eq_true_eq]
    exact ⟨hk1, e2.trans hkp, e3.trans (hrow k hk hkc).2⟩
  refine forEach_never_ok_inv _ (fun sx => sx.matters.map shape = ms2.map shape) k1 _ hkid
    ?_ ?_ s s1 hs
  · intro y hy sx sy hsx hrun
    have hys : shape y ∈ sx.matters.map shape := by
      rw [hsx, ← hs]
      exact List.mem_map_of_mem shape (List.mem_filter.mp hy).1
    rw [adjustPath_keeps_shape fuel sx sy y m (uniqueIds_congr _ _ hsx hu2) hys hrun]
    exact hsx
  · intro sx sy hsx
    exact hadj sx sy k1 m hsx (by rw [ek]; exact List.mem_map_of_mem shape hk)
      (by rw [e1]; exact hkc)

theorem adjustPath_never_finishes (ms2 : List Matter) (hu2 : UniqueIds ms2)
    (cy : String → Prop) (u : String)
    (hstep : ∀ x, cy x → ∃ k ∈ ms2, k.Puuid = x ∧ cy k.Uuid)
    (hrow : ∀ r ∈ ms2, cy r.Uuid → r.Dir = true ∧ r.UserUuid = u) :
    ∀ (fuel : Nat) (s s1 : State D) (c p : Matter), s.matters.map shape = ms2.map shape →
      shape c ∈ ms2.map shape → cy c.Uuid → adjustPath fuel c p s ≠ .ok () s1 := by
  intro fuel
  induction fuel with
  | zero => intro s s1 c p _ _ _; simp [adjustPath]
  | succ fuel ih =>
    intro s s1 c p hs hc hcy h
    obtain ⟨r, hr, er⟩ := List.mem_map.mp hc
    obtain ⟨e1, _, e3, e4⟩ := shape_fields _ _ er
    have hrc := hrow r hr (by rw [e1]; exact hcy)
    have hdir : c.Dir = true := by rw [← e4]; exact hrc.1
    have hown : c.UserUuid = u := by rw [← e3]; exact hrc.2
    have hus := uniqueIds_congr _ _ hs hu2
    have e2 := map_shape_save s.matters hus c { c with Path := p.Path ++ "/" ++ c.Name }
      (by rw [hs]; exact hc) rfl
    unfold adjustPath at h
    rw [if_pos hdir] at h
    simp only [Save, Res.bind] at h
    have key := children_never_finish ms2 hu2 cy u hstep hrow fuel ih
      ({ s with matters :=
          (replaced s.matters ({ c with Path := p.Path ++ "/" ++ c.Name } : Matter)) } :
        State D)
      s1 ({ c with Path := p.Path ++ "/" ++ c.Name } : Matter) c.Uuid (e2.trans hs) hcy
    apply key
    rw [← hown]
    exact h

theorem under_owner (ms : List Matter) (hu : UniqueIds ms) (htree : TreeShaped ms)
    (a : Matter) (ha : a ∈ ms) (x : String) (h : Descendant ms a.Uuid x) :
    ∀ b ∈ ms, b.Uuid = x → b.UserUuid = a.UserUuid := by
  induction h with
  | child c hc hp =>
    intro b hb hbu
    have := uniq_eq ms hu b c hb hc hbu
    subst this
    exact (htree a ha b hb hp).2
  | deeper c hc hd ih =>
    intro b hb hbu
    have := uniq_eq ms hu b c hb hc hbu
    subst this
    obtain ⟨p, hp, hpu, _⟩ := desc_stored _ _ _ hd
    rw [(htree p hp b hb hpu.symm).2]
    exact ih p hp hpu

theorem between_step (ms : List Matter) (hu : UniqueIds ms) (rank : String → Nat)
    (hr : ∀ r ∈ ms, rank r.Puuid < rank r.Uuid) (a t : Matter) (ha : a ∈ ms)
    (hbad : Under ms a.Uuid t.Uuid) (x : String) (hx : Between ms a.Uuid t.Uuid x) :
    ∃ k ∈ reparented ms a t, k.Puuid = x ∧ Between ms a.Uuid t.Uuid k.Uuid := by
  rcases hx.2 with hxt | hxt
  · exact ⟨movedRow a t, List.mem_map.mpr ⟨a, ha, by simp⟩, hxt, Or.inl rfl, hbad⟩
  · obtain ⟨d, hd, hdp, hdt⟩ := desc_first _ _ _ hxt
    have hne : d.Uuid ≠ a.Uuid := by
      intro e
      have := uniq_eq ms hu d a hd ha e
      subst this
      have h1 := under_rank ms rank hr _ _ hx.1
      have h2 := hr d hd
      rw [hdp] at h2
      omega
    refine ⟨d, List.mem_map.mpr ⟨d, hd, by simp [hne]⟩, hdp, ?_, hdt⟩
    rcases hx.1 with h | h
    · exact Or.inr (Descendant.child d hd (hdp.trans h))
    · exact Or.inr (Descendant.deeper d hd (by rw [hdp]; exact h))

theorem between_row (ms : List Matter) (hu : UniqueIds ms) (htree : TreeShaped ms)
    (a t : Matter) (ha : a ∈ ms) (hdir : a.Dir = true) (ht : t ∈ ms) (htdir : t.Dir = true)
    (r : Matter) (hr : r ∈ reparented ms a t) (hx : Between ms a.Uuid t.Uuid r.Uuid) :
    r.Dir = true ∧ r.UserUuid = a.UserUuid := by
  rcases mem_reparented ms a t r hr with e | ⟨hr0, hne⟩
  · subst e; exact ⟨hdir, rfl⟩
  · constructor
    · rcases hx.2 with h | h
      · have := uniq_eq ms hu t r ht hr0 h
        subst this
        exact htdir
      · obtain ⟨d, hd, hdp, _⟩ := desc_first _ _ _ h
        exact (htree r hr0 d hd hdp).1
    · exact under_owner ms hu htree a ha _ (hx.1.resolve_left hne) r hr0 rfl

theorem move_never_finishes (env : Env D) (fuel : Nat) (s s1 : State D) (a t : Matter)
    (hu : UniqueIds s.matters) (htree : TreeShaped s.matters) (hacy : Acyclic s.matters)
    (ha : a ∈ s.matters) (hdir : a.Dir = true) (ht : t ∈ s.matters)
    (hbad : Under s.matters a.Uuid t.Uuid) : move env fuel a t s ≠ .ok () s1 := by
  intro h
  obtain ⟨rank, hr⟩ := hacy
  obtain ⟨htdir, s2, hs2, hrun⟩ := move_run env fuel s s1 a t h
  have hs2' : s2.matters = reparented s.matters a t := hs2
  have hu2 := uniqueIds_reparented s.matters hu a t
  rcases hrun with ⟨_, hrun⟩ | ⟨hfile, _⟩
  · exact children_never_finish (reparented s.matters a t) hu2
      (Between s.matters a.Uuid t.Uuid) a.UserUuid
      (between_step s.matters hu rank hr a t ha hbad)
      (fun r hr0 hx => between_row s.matters hu htree a t ha hdir ht htdir r hr0 hx)
      fuel
      (adjustPath_never_finishes (reparented s.matters a t) hu2 _ a.UserUuid
        (between_step s.matters hu rank hr a t ha hbad)
        (fun r hr0 hx => between_row s.matters hu htree a t ha hdir ht htdir r hr0 hx) fuel)
      s2 s1 (movedRow a t) a.Uuid (by rw [hs2']) ⟨Or.inl rfl, hbad⟩ hrun
  · simp only [movedRow] at hfile
    rw [hdir] at hfile
    exact absurd hfile (by simp)

theorem withPath_of_pathless (r1 r : Matter) (h : pathless r1 = pathless r) :
    r1 = withPath r r1.Path := by
  cases r1; cases r
  simp only [pathless, Matter.mk.injEq] at h
  simp only [withPath, Matter.mk.injEq]
  tauto

theorem Restamped.mem_image {P : String → Prop} {ms ms1 : List Matter}
    (h : Restamped P ms ms1) (r : Matter) (hr : r ∈ ms) :
    ∃ r1 ∈ ms1, pathless r1 = pathless r := by
  obtain ⟨g, hg, hprop⟩ := h
  exact ⟨g r, by rw [hg]; exact List.mem_map.mpr ⟨r, hr, rfl⟩, (hprop r hr).1⟩

theorem desc_into_reparented (ms : List Matter) (rank : String → Nat)
    (hr : ∀ r ∈ ms, rank r.Puuid < rank r.Uuid) (a t : Matter) (x : String)
    (h : Descendant ms a.Uuid x) : Descendant (reparented ms a t) a.Uuid x := by
  induction h with
  | child c hc hp =>
    have hne : c.Uuid ≠ a.Uuid := by
      intro e
      have := hr c hc
      rw [hp, e] at this
      omega
    exact Descendant.child c (List.mem_map.mpr ⟨c, hc, by simp [hne]⟩) hp
  | deeper c hc hd ih =>
    have hne : c.Uuid ≠ a.Uuid := by
      intro e
      have h1 := hr c hc
      have h2 := desc_rank ms rank hr _ _ hd
      rw [e] at h1
      omega
    exact Descendant.deeper c (List.mem_map.mpr ⟨c, hc, by simp [hne]⟩) ih

theorem move_restamps_outside (env : Env D) (fuel : Nat) (s s1 : State D)
    (srcMatter destDirMatter : Matter)
    (hsrc : srcMatter ∈ s.matters) (hdir : srcMatter.Dir = true)
    (huniq : UniqueIds s.matters) (htree : TreeShaped s.matters) (hacy : Acyclic s.matters)
    (hne : destDirMatter.Uuid ≠ srcMatter.Uuid)
    (hnotbelow : ¬ Descendant s.matters srcMatter.Uuid destDirMatter.Uuid)
    (hmove : move env fuel srcMatter destDirMatter s = .ok () s1) :
    movedRow srcMatter destDirMatter ∈ s1.matters
    ∧ UniqueIds s1.matters
    ∧ s1.matters.map pathless = (reparented s.matters srcMatter destDirMatter).map pathless
    ∧ (∀ r ∈ s.matters, r.Uuid ≠ srcMatter.Uuid →
        ¬ Descendant s.matters srcMatter.Uuid r.Uuid → r ∈ s1.matters)
    ∧ (∀ b ∈ s.matters, Descendant s.matters srcMatter.Uuid b.Uuid →
        ∃ p ∈ s1.matters, p.Uuid = b.Puuid
          ∧ withPath b (p.Path ++ "/" ++ b.Name) ∈ s1.matters)
    ∧ ∀ b ∈ s1.matters, Descendant s1.matters srcMatter.Uuid b.Uuid →
        PathFromParent s1.matters b := by
  obtain ⟨_, d, hrun⟩ := move_dir_run env fuel s s1 srcMatter destDirMatter hdir hmove
  have hu2 := uniqueIds_reparented s.matters huniq srcMatter destDirMatter
  obtain ⟨rank0, hr0⟩ := hacy
  obtain ⟨rank, hr2⟩ := acyclic_reparented s.matters huniq srcMatter destDirMatter
    ⟨rank0, hr0⟩ hne hnotbelow
  have ht2 := treeBelow_reparented s.matters srcMatter destDirMatter hsrc htree hne
    hnotbelow
  have hm2 : movedRow srcMatter destDirMatter ∈ reparented s.matters srcMatter destDirMatter :=
    List.mem_map.mpr ⟨srcMatter, hsrc, by simp⟩
  obtain ⟨h1, R, h3⟩ := forEach_children_spec rank fuel
    ({ s with matters := reparented s.matters srcMatter destDirMatter, disk := d } : State D)
    s1 (movedRow srcMatter destDirMatter)
    hu2 hr2 ht2 hm2 hrun
  have R2 : Restamped (fun x => Descendant (reparented s.matters srcMatter destDirMatter)
      srcMatter.Uuid x) (reparented s.matters srcMatter destDirMatter) s1.matters := R
  refine ⟨h1, uniqueIds_congr _ _ R.map_shape hu2, R2.map_pathless, ?_, ?_, h3⟩
  · intro r hr hrne hnd
    have hr2 : r ∈ reparented s.matters srcMatter destDirMatter :=
      List.mem_map.mpr ⟨r, hr, by simp [hrne]⟩
    exact R2.mem_of_not r hr2
      (fun h => hnd (desc_reparented s.matters srcMatter destDirMatter hne hnotbelow _ h))
  · intro b hb hd
    have hbne : b.Uuid ≠ srcMatter.Uuid := by
      intro e
      have := desc_rank s.matters rank0 hr0 _ _ hd
      rw [e] at this
      omega
    have hb2 : b ∈ reparented s.matters srcMatter destDirMatter :=
      List.mem_map.mpr ⟨b, hb, by simp [hbne]⟩
    have hd2 := desc_into_reparented s.matters rank0 hr0 srcMatter destDirMatter _ hd
    obtain ⟨b1, hb1, hpl⟩ := R2.mem_image b hb2
    have hb1eq := withPath_of_pathless b1 b hpl
    have hu1 : b1.Uuid = b.Uuid := by rw [hb1eq]; rfl
    have hd1 : Descendant s1.matters srcMatter.Uuid b1.Uuid := by
      rw [hu1]
      exact descendant_mono _ _ (shapesIn_of_map _ _ R2.map_shape).1 _ _ hd2
    obtain ⟨p, hp, hpu, hpath⟩ := h3 b1 hb1 hd1
    refine ⟨p, hp, ?_, ?_⟩
    · rw [hpu, hb1eq]; rfl
    · have hn : b1.Name = b.Name := by rw [hb1eq]; rfl
      rw [← hn, ← hpath, ← hb1eq]
      exact hb1

theorem acyclic_of_position (ms : List Matter)
    (h : ∀ r ∈ ms, rankByPosition ms r.Puuid < rankByPosition ms r.Uuid) : Acyclic ms :=
  ⟨rankByPosition ms, h⟩

/-! ### The matter lock -/

theorem withMatterLock_held {α : Type} (u : String) (body : State D → Res (State D) α)
    (s : State D) (h : u ∈ s.locks) : withMatterLock u body s = .timeout := by
  simp [withMatterLock, h]

theorem withMatterLock_free {α : Type} (u : String) (body : State D → Res (State D) α)
    (s : State D) (h : u ∉ s.locks) :
    withMatterLock u body s = .timeout
      ↔ body ({ s with locks := u :: s.locks } : State D) = .timeout := by
  simp only [withMatterLock, h, if_false]
  cases body ({ s with locks := u :: s.locks } : State D) <;> simp

theorem locksAre_bind {α β : Type} {l : List String} {r : Res (State D) α}
    {f : α → State D → Res (State D) β} (hr : LocksAre l r)
    (hf : ∀ a s, s.locks = l → LocksAre l (f a s)) : LocksAre l (r.bind f) := by
  cases r with
  | ok a s => exact hf a s hr
  | panic e s => exact hr
  | timeout => trivial

theorem ioStep_locks (site : String) (op : D → Option D) (s : State D) (l : List String)
    (h : s.locks = l) : LocksAre l (ioStep site op s) := by
  unfold ioStep
  split <;> exact h

theorem Save_locks (m : Matter) (s : State D) (l : List String) (h : s.locks = l) :
    LocksAre l (Save m s) := h

theorem Create_locks (env : Env D) (m : Matter) (s : State D) (l : List String)
    (h : s.locks = l) : LocksAre l (Create env m s) := h

theorem DeleteByMatterUuid_locks (u : String) (s : State D) (l : List String)
    (h : s.locks = l) : LocksAre l (DeleteByMatterUuid u s) := h

theorem Delete_locks (env : Env D) (m : Matter) (s : State D) (l : List String)
    (h : s.locks = l) : LocksAre l (Delete env m s) := by
  unfold Delete
  split <;> exact h

theorem CheckByUuid_locks (u : String) (s : State D) (l : List String)
    (h : s.locks = l) : LocksAre l (CheckByUuid u s) := by
  unfold CheckByUuid
  split <;> exact h

theorem forEach_locks {α : Type} (body : α → State D → Res (State D) Unit) (l : List String)
    (hb : ∀ x s, s.locks = l → LocksAre l (body x s)) :
    ∀ (xs : List α) (s : State D), s.locks = l → LocksAre l (forEach body xs s) := by
  intro xs
  induction xs with
  | nil => intro s h; exact h
  | cons x xs ih =>
    intro s h
    exact locksAre_bind (hb x s h) (fun _ s1 h1 => ih s1 h1)

theorem deferred_locks {α : Type} (cleanup : State D → Res (State D) Unit)
    (rest : Res (State D) α) (l : List String) (hr : LocksAre l rest)
    (hc : ∀ s, s.locks = l → LocksAre l (cleanup s)) : LocksAre l (deferred cleanup rest) := by
  cases rest with
  | ok a s => exact locksAre_bind (hc s hr) (fun _ s1 h1 => h1)
  | panic e s => exact locksAre_bind (hc s hr) (fun _ s1 h1 => h1)
  | timeout => trivial

theorem Upload_locks (env : Env D) (file : List Nat) (user : User) (dirMatter : Matter)
    (filename : String) (privacy : Bool) (s : State D) (l : List String) (h : s.locks = l) :
    LocksAre l (Upload env file user dirMatter filename privacy s) := by
  unfold Upload
  split
  · exact h
  split
  · exact h
  refine locksAre_bind (ioStep_locks _ _ _ _ h) (fun _ s1 h1 => ?_)
  split
  · exact h1
  refine locksAre_bind ?_ (fun _ s2 h2 => ?_)
  · split
    · exact ioStep_locks _ _ _ _ h1
    · exact h1
  refine locksAre_bind (ioStep_locks _ _ _ _ h2) (fun _ s3 h3 => ?_)
  refine deferred_locks _ _ _ ?_ (fun s4 h4 => ioStep_locks _ _ _ _ h4)
  split
  · exact h3
  split
  · exact locksAre_bind (ioStep_locks _ _ _ _ h3) (fun _ s5 h5 => h5)
  · exact h3

theorem createDirectory_locks (env : Env D) (dirMatter : Matter) (name : String)
    (user : User) (s : State D) (l : List String) (h : s.locks = l) :
    LocksAre l (createDirectory env dirMatter name user s) := by
  unfold createDirectory
  simp only
  repeat' split
  all_goals first
    | exact h
    | exact locksAre_bind (ioStep_locks _ _ _ _ h) (fun _ s1 h1 => h1)

theorem handleOverwrite_locks (env : Env D) (u p : String) (o : Bool) (s : State D)
    (l : List String) (h : s.locks = l) : LocksAre l (handleOverwrite env u p o s) := by
  unfold handleOverwrite
  split
  · split
    · exact Delete_locks _ _ _ _ h
    · exact h
  · exact h

theorem adjustPath_locks (l : List String) :
    ∀ (fuel : Nat) (m p : Matter) (s : State D), s.locks = l →
      LocksAre l (adjustPath fuel m p s) := by
  intro fuel
  induction fuel with
  | zero => intro m p s _; trivial
  | succ n ih =>
    intro m p s h
    unfold adjustPath
    split
    · exact locksAre_bind (Save_locks _ _ _ h)
        (fun m1 s1 h1 => forEach_locks _ l (fun x s2 h2 => ih x m1 s2 h2) _ s1 h1)
    · exact locksAre_bind (DeleteByMatterUuid_locks _ _ _ h)
        (fun _ s1 h1 => locksAre_bind (Save_locks _ _ _ h1) (fun _ s2 h2 => h2))

theorem move_locks (env : Env D) (fuel : Nat) (a t : Matter) (s : State D) (l : List String)
    (h : s.locks = l) : LocksAre l (move env fuel a t s) := by
  unfold move
  split
  · exact h
  split
  · exact locksAre_bind (ioStep_locks _ _ _ _ h)
      (fun _ s1 h1 => locksAre_bind (Save_locks _ _ _ h1)
        (fun m1 s2 h2 => forEach_locks _ l (fun x s3 h3 => adjustPath_locks l fuel x m1 s3 h3)
          _ s2 h2))
  · exact locksAre_bind (ioStep_locks _ _ _ _ h)
      (fun _ s1 h1 => locksAre_bind (DeleteByMatterUuid_locks _ _ _ h1)
        (fun _ s2 h2 => locksAre_bind (Save_locks _ _ _ h2) (fun _ s3 h3 => h3)))

theorem wrapParents_locks (l : List String) :
    ∀ (fuel : Nat) (puuid : String) (s : State D), s.locks = l →
      LocksAre l (wrapParents fuel puuid s) := by
  intro fuel
  induction fuel with
  | zero => intro p s _; trivial
  | succ n ih =>
    intro p s h
    unfold wrapParents
    split
    · exact locksAre_bind (CheckByUuid_locks _ _ _ h)
        (fun m1 s1 h1 => locksAre_bind (ih _ s1 h1) (fun _ s2 h2 => h2))
    · exact h

theorem WrapDetail_locks (fuel : Nat) (m : Matter) (s : State D) (l : List String)
    (h : s.locks = l) : LocksAre l (WrapDetail fuel m s) :=
  locksAre_bind (wrapParents_locks l fuel _ s h) (fun _ _ h1 => h1)

theorem AtomicMoveBody_locks (env : Env D) (fuel : Nat) (a t : Matter) (o : Bool)
    (s : State D) (l : List String) (h : s.locks = l) :
    LocksAre l (AtomicMoveBody env fuel a t o s) := by
  unfold AtomicMoveBody
  split
  · exact h
  refine locksAre_bind (WrapDetail_locks _ _ _ _ h) (fun _ s1 h1 => ?_)
  split
  · exact h1
  exact locksAre_bind (handleOverwrite_locks _ _ _ _ _ _ h1)
    (fun _ s2 h2 => move_locks _ _ _ _ _ _ h2)

theorem AtomicMoveBatchBody_locks (env : Env D) (fuel : Nat) (srcs : Option (List Matter))
    (t : Matter) (s : State D) (l : List String) (h : s.locks = l) :
    LocksAre l (AtomicMoveBatchBody env fuel srcs t s) := by
  unfold AtomicMoveBatchBody
  split
  · exact h
  split
  · exact h
  refine locksAre_bind (WrapDetail_locks _ _ _ _ h) (fun _ s1 h1 => ?_)
  split
  · exact h1
  exact forEach_locks _ l (fun x s2 h2 => move_locks _ _ _ _ _ _ h2) _ s1 h1

theorem copy_locks (env : Env D) (l : List String) :
    ∀ (fuel : Nat) (a t : Matter) (name : String) (s : State D), s.locks = l →
      LocksAre l (copy env fuel a t name s) := by
  intro fuel
  induction fuel with
  | zero => intro a t name s _; trivial
  | succ n ih =>
    intro a t name s h
    unfold copy
    split
    · exact locksAre_bind (Create_locks _ _ _ _ h)
        (fun m1 s1 h1 => forEach_locks _ l (fun x s2 h2 => ih x m1 x.Name s2 h2) _ s1 h1)
    · exact locksAre_bind (ioStep_locks _ _ _ _ h)
        (fun _ s1 h1 => locksAre_bind (Create_locks _ _ _ _ h1) (fun _ s2 h2 => h2))

theorem AtomicCopyBody_locks (env : Env D) (fuel : Nat) (a t : Matter) (name : String)
    (o : Bool) (s : State D) (l : List String) (h : s.locks = l) :
    LocksAre l (AtomicCopyBody env fuel a t name o s) := by
  unfold AtomicCopyBody
  split
  · exact h
  exact locksAre_bind (handleOverwrite_locks _ _ _ _ _ _ h)
    (fun _ s2 h2 => copy_locks _ _ _ _ _ _ _ h2)

theorem AtomicRenameBody_locks (env : Env D) (fuel : Nat) (m : Matter) (name : String)
    (user : User) (s : State D) (l : List String) (h : s.locks = l) :
    LocksAre l (AtomicRenameBody env fuel m name user s) := by
  unfold AtomicRenameBody
  repeat' split
  all_goals first
    | exact h
    | exact locksAre_bind (ioStep_locks _ _ _ _ h)
        (fun _ s1 h1 => locksAre_bind (Save_locks _ _ _ h1)
          (fun m1 s2 h2 => forEach_locks _ l
            (fun x s3 h3 => adjustPath_locks l fuel x m1 s3 h3) _ s2 h2))
    | exact locksAre_bind (ioStep_locks _ _ _ _ h)
        (fun _ s1 h1 => locksAre_bind (DeleteByMatterUuid_locks _ _ _ h1)
          (fun _ s2 h2 => locksAre_bind (Save_locks _ _ _ h2) (fun _ s3 h3 => h3)))

theorem withMatterLock_locks {α : Type} (u : String) (body : State D → Res (State D) α)
    (s : State D)
    (hb : ∀ s1 : State D, s1.locks = u :: s.locks → LocksAre (u :: s.locks) (body s1)) :
    LocksAre s.locks (withMatterLock u body s) := by
  unfold withMatterLock
  split
  · trivial
  · have := hb ({ s with locks := u :: s.locks } : State D) rfl
    split
    · rename_i heq
      rw [heq] at this
      simp only [LocksAre] at this ⊢
      rw [this]; simp
    · rename_i heq
      rw [heq] at this
      simp only [LocksAre] at this ⊢
      rw [this]; simp
    · trivial

/-- Whatever lock a method takes, it has given it back when it returns and when it
panics: each `Atomic` method ends with the lock registry it started from. -/
theorem atomic_methods_release_the_lock (env : Env D) (fuel : Nat) (s : State D) :
    (∀ matter, LocksAre s.locks (AtomicDelete env matter s))
    ∧ (∀ file user dirMatter filename privacy,
        LocksAre s.locks (AtomicUpload env file user dirMatter filename privacy s))
    ∧ (∀ dirMatter name user, LocksAre s.locks (AtomicCreateDirectory env dirMatter name user s))
    ∧ (∀ srcMatter destDirMatter overwrite,
        LocksAre s.locks (AtomicMove env fuel srcMatter destDirMatter overwrite s))
    ∧ (∀ srcMatters destDirMatter,
        LocksAre s.locks (AtomicMoveBatch env fuel srcMatters destDirMatter s))
    ∧ (∀ srcMatter destDirMatter name overwrite,
        LocksAre s.locks (AtomicCopy env fuel srcMatter destDirMatter name overwrite s))
    ∧ (∀ matter name user, LocksAre s.locks (AtomicRename env fuel matter name user s))
    ∧ (∀ url filename user dirMatter privacy,
        LocksAre s.locks (AtomicCrawl env url filename user dirMatter privacy s)) := by
  refine ⟨?_, ?_, ?_, ?_, ?_, ?_, ?_, ?_⟩
  · intro m
    exact withMatterLock_locks _ _ _ (fun s1 h1 => Delete_locks _ _ _ _ h1)
  · intro file user dir filename privacy
    exact withMatterLock_locks _ _ _ (fun s1 h1 => Upload_locks _ _ _ _ _ _ _ _ h1)
  · intro dir name user
    exact withMatterLock_locks _ _ _ (fun s1 h1 => createDirectory_locks _ _ _ _ _ _ h1)
  · intro a t o
    exact withMatterLock_locks _ _ _ (fun s1 h1 => AtomicMoveBody_locks _ _ _ _ _ _ _ h1)
  · intro srcs t
    exact withMatterLock_locks _ _ _ (fun s1 h1 => AtomicMoveBatchBody_locks _ _ _ _ _ _ h1)
  · intro a t name o
    exact withMatterLock_locks _ _ _ (fun s1 h1 => AtomicCopyBody_locks _ _ _ _ _ _ _ _ h1)
  · intro m name user
    exact withMatterLock_locks _ _ _ (fun s1 h1 => AtomicRenameBody_locks _ _ _ _ _ _ _ h1)
  · intro url filename user dir privacy
    refine withMatterLock_locks _ _ _ (fun s1 h1 => ?_)
    simp only
    split
    · exact h1
    split
    · exact h1
    · exact Upload_locks _ _ _ _ _ _ _ _ h1

/-! ### What the path derivation and the depth bound do survive -/

/-- One step from a well-formed repository (unique identifiers, every parent a directory
of the same owner as its children, no cycle, no stored row for the root, every path
derived from the parent's).  Every path is still derived from the parent's after a
successful `Upload` or `createDirectory` into a stored directory or the root, after a
successful `CreateDirectories`, after a successful `AtomicMove` of a stored matter into a
stored directory or the root when the row that the overwrite step finds at the destination
path, if any, is not the source and has no stored children, after a successful
`AtomicMoveBatch` of stored matters into the root or into a stored directory of their
owner, after a successful `AtomicCopy` into a stored directory or the root when the row
found at the destination path, if any, has no stored children, and after a successful
`AtomicRename` of a stored matter whose current name holds no slash. -/
theorem path_derivation_kept (env : Env D) (fuel : Nat) (s s1 : State D)
    (hwf : WellFormed s.matters) :
    (∀ (file : List Nat) (user : User) (dirMatter : Matter) (filename : String)
        (privacy : Bool) (m : Matter) , StoredOrRoot s.matters dirMatter →
        Upload env file user dirMatter filename privacy s = .ok m s1 →
        PathDerived s1.matters)
    ∧ (∀ (dirMatter : Matter) (name : String) (user : User) (m : Matter),
        StoredOrRoot s.matters dirMatter →
        createDirectory env dirMatter name user s = .ok m s1 → PathDerived s1.matters)
    ∧ (∀ (user : User) (dirPath : String) (m : Matter),
        CreateDirectories env user dirPath s = .ok m s1 → PathDerived s1.matters)
    ∧ (∀ (srcMatter destDirMatter : Matter) (overwrite : Bool),
        srcMatter ∈ s.matters → StoredOrRoot s.matters destDirMatter →
        SparesSource s.matters srcMatter (destDirMatter.Path ++ "/" ++ srcMatter.Name) →
        ChildlessAt s.matters srcMatter.UserUuid
          (destDirMatter.Path ++ "/" ++ srcMatter.Name) →
        AtomicMove env fuel srcMatter destDirMatter overwrite s = .ok () s1 →
        PathDerived s1.matters)
    ∧ (∀ (srcMatters : List Matter) (destDirMatter : Matter),
        (∀ a ∈ srcMatters, a ∈ s.matters
          ∧ (destDirMatter ∈ s.matters → a.UserUuid = destDirMatter.UserUuid)) →
        StoredOrRoot s.matters destDirMatter →
        AtomicMoveBatch env fuel (some srcMatters) destDirMatter s = .ok () s1 →
        PathDerived s1.matters)
    ∧ (∀ (srcMatter destDirMatter : Matter) (name : String) (overwrite : Bool),
        StoredOrRoot s.matters destDirMatter →
        ChildlessAt s.matters srcMatter.UserUuid (destDirMatter.Path ++ "/" ++ name) →
        AtomicCopy env fuel srcMatter destDirMatter name overwrite s = .ok () s1 →
        PathDerived s1.matters)
    ∧ (∀ (matter : Matter) (name : String) (user : User),
        matter ∈ s.matters → '/' ∉ matter.Name.data →
        AtomicRename env fuel matter name user s = .ok () s1 → PathDerived s1.matters) := by
  refine ⟨?_, ?_, ?_, ?_, ?_, ?_, ?_⟩
  · intro file user dirMatter filename privacy m hdir h
    exact Upload_keeps_paths env file user dirMatter filename privacy s s1 m hwf.2.2.2.2 hdir h
  · intro dirMatter name user m hdir h
    exact (createDirectory_keeps_paths env s s1 dirMatter m name user hwf.2.2.2.2 hdir h).1
  · intro user dirPath m h
    exact CreateDirectories_keeps_paths env user dirPath s s1 m hwf.2.2.2.2 h
  · intro srcMatter destDirMatter overwrite hsrc hdest hspare hchild h
    exact AtomicMove_keeps_paths env fuel s s1 srcMatter destDirMatter overwrite hwf hsrc hdest
      (fun x hx => ⟨hspare x hx, hchild x hx⟩) h
  · intro srcMatters destDirMatter hsrcs hdest h
    exact AtomicMoveBatch_keeps_paths env fuel s s1 srcMatters destDirMatter hwf hdest hsrcs h
  · intro srcMatter destDirMatter name overwrite hdest hchild h
    exact AtomicCopy_keeps_paths env fuel s s1 srcMatter destDirMatter name overwrite hwf.1
      hwf.2.2.2.2 hdest hchild h
  · intro matter name user hm hplain h
    exact AtomicRename_keeps_paths env fuel s s1 matter name user hwf hm hplain h

/-- In the repository of `smallTree`, the directory `d` is renamed to `dd`, and the
directory `d` is moved into the directory `t`: paths stay derived. -/
theorem path_derivation_kept_witness :
    WellFormed (stateOf smallTree).matters
    ∧ (∃ s1, AtomicRename journalEnv 3 folderD "dd" ann (stateOf smallTree) = .ok () s1
        ∧ PathDerived s1.matters)
    ∧ (∃ s1, AtomicMove journalEnv 3 folderD folderT false (stateOf smallTree) = .ok () s1
        ∧ PathDerived s1.matters) :=
  have hwf : WellFormed (stateOf smallTree).matters :=
    ⟨by decide, by decide,
     ⟨fun u => if u = "m2" then 3 else if u = "m1" then 2 else if u = "root" then 0 else 1,
       by decide⟩,
     by decide, by decide⟩
  ⟨hwf,
   ⟨_, rfl, (path_derivation_kept journalEnv 3 (stateOf smallTree) _ hwf).2.2.2.2.2.2
      folderD "dd" ann (by decide) (by decide) rfl⟩,
   ⟨_, rfl, (path_derivation_kept journalEnv 3 (stateOf smallTree) _ hwf).2.2.2.1
      folderD folderT false (by decide) (Or.inl (by decide))
      (fun x hx => by simp [stateOf, smallTree, folderD, folderE, folderT, dirRow, fileRow] at hx)
      (fun x hx => by simp [stateOf, smallTree, folderD, folderE, folderT, dirRow, fileRow] at hx)
      rfl⟩⟩

/-- If every directory row has a path of at most 32 segments, then after a
`createDirectory` that succeeded, and after a `CreateDirectories` that succeeded, every
directory row still has a path of at most 32 segments. -/
theorem depth_bound_kept_by_directory_creation (env : Env D) (s : State D) (user : User)
    (hinv : DepthBounded s.matters) :
    (∀ (parent : Matter) (name : String) (m : Matter) (s1 : State D),
        createDirectory env parent name user s = .ok m s1 → DepthBounded s1.matters)
    ∧ (∀ (dirPath : String) (m : Matter) (s1 : State D),
        CreateDirectories env user dirPath s = .ok m s1 → DepthBounded s1.matters) :=
  ⟨fun parent name m s1 h => createDirectory_keeps_depth env s s1 parent m name user hinv h,
   fun dirPath m s1 h => CreateDirectories_keeps_depth env user dirPath s s1 m hinv h⟩

/-- One directory, then a path of three, created in the repository that holds the
directory `d`: the depth bound is kept. -/
theorem depth_bound_kept_by_directory_creation_witness :
    DepthBounded (stateOf [folderD]).matters
    ∧ (∃ m s1, createDirectory journalEnv folderD "e" ann (stateOf [folderD]) = .ok m s1
        ∧ DepthBounded s1.matters)
    ∧ (∃ m s1, CreateDirectories journalEnv ann "/x/y/z" (stateOf [folderD]) = .ok m s1
        ∧ DepthBounded s1.matters) :=
  ⟨by decide,
   ⟨_, _, rfl, (depth_bound_kept_by_directory_creation journalEnv (stateOf [folderD]) ann
      (by decide)).1 folderD "e" _ _ rfl⟩,
   ⟨_, _, rfl, (depth_bound_kept_by_directory_creation journalEnv (stateOf [folderD]) ann
      (by decide)).2 "/x/y/z" _ _ rfl⟩⟩

end Lemmas

section Claims

variable {D : Type}

/-- C1: in a repository with unique identifiers whose parent links form no cycle and where
every parent is a directory of the same owner as its children, let `A` be a stored
directory and `T` a stored matter (or one whose identifier is not stored, such as the
root).  After `move(A, T)` succeeds: the stored row of `A` is `movedRow A T`, with parent
`T.Uuid` and path `T.Path + "/" + A.Name`; identifiers are still unique; the repository
holds the same rows in the same order, each with the fields it had, the path apart (and,
for `A`, the parent); every row that is neither `A` nor below `A` is stored unchanged;
every row `B` that was below `A` before the move, at any depth, is stored with all its
fields but the path unchanged, and its path is the stored path of its parent row followed
by `/` and `B.Name`; and every stored row below `A` after the move has a path equal to the
stored path of its parent row followed by `/` and its name.  (When `T` is `A` or below `A`
the run never succeeds.) -/
theorem move_restamps_descendants (env : Env D) (fuel : Nat) (s s1 : State D)
    (srcMatter destDirMatter : Matter)
    (hsrc : srcMatter ∈ s.matters) (hdir : srcMatter.Dir = true)
    (huniq : UniqueIds s.matters) (htree : TreeShaped s.matters) (hacy : Acyclic s.matters)
    (hdest : destDirMatter ∈ s.matters ∨ ∀ r ∈ s.matters, r.Uuid ≠ destDirMatter.Uuid)
    (hmove : move env fuel srcMatter destDirMatter s = .ok () s1) :
    movedRow srcMatter destDirMatter ∈ s1.matters
    ∧ UniqueIds s1.matters
    ∧ s1.matters.map pathless = (reparented s.matters srcMatter destDirMatter).map pathless
    ∧ (∀ r ∈ s.matters, r.Uuid ≠ srcMatter.Uuid →
        ¬ Descendant s.matters srcMatter.Uuid r.Uuid → r ∈ s1.matters)
    ∧ (∀ b ∈ s.matters, Descendant s.matters srcMatter.Uuid b.Uuid →
        ∃ p ∈ s1.matters, p.Uuid = b.Puuid
          ∧ withPath b (p.Path ++ "/" ++ b.Name) ∈ s1.matters)
    ∧ ∀ b ∈ s1.matters, Descendant s1.matters srcMatter.Uuid b.Uuid →
        PathFromParent s1.matters b := by
  classical
  by_cases hbad : Under s.matters srcMatter.Uuid destDirMatter.Uuid
  · exfalso
    have ht : destDirMatter ∈ s.matters := by
      rcases hdest with h | h
      · exact h
      · exfalso
        rcases hbad with hb | hb
        · exact h srcMatter hsrc hb.symm
        · obtain ⟨b, hb1, hb2, _⟩ := desc_stored _ _ _ hb
          exact h b hb1 hb2
    exact move_never_finishes env fuel s s1 srcMatter destDirMatter huniq htree hacy hsrc hdir
      ht hbad hmove
  · exact move_restamps_outside env fuel s s1 srcMatter destDirMatter hsrc hdir huniq htree
      hacy (fun h => hbad (Or.inl h)) (fun h => hbad (Or.inr h)) hmove

/-- C1 at a concrete input: the directory `d` (holding `e`, holding the file `g`) moved
into the directory `t`. -/
theorem move_restamps_descendants_witness :
    ∃ s1, move journalEnv 3 folderD folderT (stateOf smallTree) = .ok () s1
      ∧ movedRow folderD folderT ∈ s1.matters
      ∧ UniqueIds s1.matters
      ∧ s1.matters.map pathless
          = (reparented (stateOf smallTree).matters folderD folderT).map pathless
      ∧ (∀ r ∈ (stateOf smallTree).matters, r.Uuid ≠ folderD.Uuid →
          ¬ Descendant (stateOf smallTree).matters folderD.Uuid r.Uuid → r ∈ s1.matters)
      ∧ (∀ b ∈ (stateOf smallTree).matters,
          Descendant (stateOf smallTree).matters folderD.Uuid b.Uuid →
          ∃ p ∈ s1.matters, p.Uuid = b.Puuid
            ∧ withPath b (p.Path ++ "/" ++ b.Name) ∈ s1.matters)
      ∧ ∀ b ∈ s1.matters, Descendant s1.matters folderD.Uuid b.Uuid →
          PathFromParent s1.matters b :=
  ⟨_, rfl, move_restamps_descendants journalEnv 3 (stateOf smallTree) _ folderD folderT
    (by decide) rfl (by decide) (by decide)
    ⟨fun u => if u = "m2" then 3 else if u = "m1" then 2 else if u = "root" then 0 else 1,
      by decide⟩
    (Or.inl (by decide)) rfl⟩

/-- C2: in a repository whose parent links form no cycle, with the lock of the owner free,
if the identifier of `src` is that of the directory `destDir` or of one of the ancestors
that the parent links lead to from `destDir`, then `AtomicMove(src, destDir, overwrite)`,
given enough fuel to walk the chain, panics (at the cycle check, or in `WrapDetail` when a
parent further up is missing) for both values of `overwrite`, and the state it leaves
(repository, image cache, physical tree, locks) is the one it started from. -/
theorem AtomicMove_into_own_subtree_fails (env : Env D) (s : State D)
    (srcMatter destDirMatter : Matter) (overwrite : Bool)
    (hdir : destDirMatter.Dir = true)
    (hlock : srcMatter.UserUuid ∉ s.locks)
    (hacy : Acyclic s.matters)
    (hchain : OnAncestorChain s.matters srcMatter.Uuid destDirMatter) :
    ∃ fuel0, ∀ fuel, fuel0 ≤ fuel →
      ∃ e, AtomicMove env fuel srcMatter destDirMatter overwrite s = .panic e s
        ∧ (e = .message "文件夹不能把自己移入到自己中，也不可以移入到自己的子文件夹下。"
            ∨ ∃ u, e = .notFound u) := by
  obtain ⟨rank, hrank⟩ := hacy
  refine ⟨rank destDirMatter.Puuid + 2, fun fuel hfuel => ?_⟩
  have hrank2 : ∀ r ∈ ({ s with locks := srcMatter.UserUuid :: s.locks } : State D).matters,
      rank r.Puuid < rank r.Uuid := hrank
  simp only [AtomicMove, withMatterLock, hlock, if_false, AtomicMoveBody, hdir, WrapDetail]
  rcases wrapParents_total _ rank hrank2 fuel destDirMatter.Puuid hfuel with ⟨ps, hps⟩ | ⟨u, hu⟩
  · have hhit := onParentChain_of_chain
      ({ s with locks := srcMatter.UserUuid :: s.locks } : State D) srcMatter destDirMatter
      hchain fuel ps _ hps
    refine ⟨_, ?_, Or.inl rfl⟩
    simp [hps, Res.bind, hhit, unlock_after_lock]
  · refine ⟨_, ?_, Or.inr ⟨u, rfl⟩⟩
    simp [hu, Res.bind, unlock_after_lock]

/-- C2 at a concrete input: moving the directory `d` into its own child `e`. -/
theorem AtomicMove_into_own_subtree_fails_witness :
    ∃ fuel0, ∀ fuel, fuel0 ≤ fuel →
      ∃ e, AtomicMove journalEnv fuel folderD folderE true (stateOf [folderD, folderE])
          = .panic e (stateOf [folderD, folderE])
        ∧ (e = .message "文件夹不能把自己移入到自己中，也不可以移入到自己的子文件夹下。"
            ∨ ∃ u, e = .notFound u) :=
  AtomicMove_into_own_subtree_fails journalEnv (stateOf [folderD, folderE]) folderD folderE
    true rfl (by decide)
    ⟨fun u => if u = "m1" then 2 else if u = "m0" then 1 else 0, by decide⟩
    (.above folderE folderD (by decide) rfl (.self folderD rfl))

/-- C3, the code at the failing input: the first `CreateDirectories(ann, "/x/y/z")` on an
empty repository succeeds and returns the row of path `/x/y/z`; the second call with the
same path panics in `createDirectory`, at the name-collision check on the first segment,
instead of returning the existing row. -/
theorem CreateDirectories_second_call_panics :
    ∃ m s1, CreateDirectories journalEnv ann "/x/y/z" emptyState = .ok m s1
      ∧ m.Path = "/x/y/z" ∧ s1.matters.length = 3
      ∧ CreateDirectories journalEnv ann "/x/y/z" s1
          = .panic (.badRequest "%s 已经存在了，请使用其他名称。") s1 :=
  ⟨_, _, rfl, rfl, rfl, rfl⟩

/-- C4, the claim as written fails: `createDirectory` trims the name first, so for the
name `" a "` under the root the row it inserts has path `/a`, not the parent's path
followed by `/` and the name that was passed. -/
theorem createDirectory_path_uses_trimmed_name :
    ∃ m s1, createDirectory journalEnv (NewRootMatter ann) " a " ann emptyState = .ok m s1
      ∧ TrimSpace " a " ≠ "" ∧ m.Path ≠ (NewRootMatter ann).Path ++ "/" ++ " a " :=
  ⟨_, _, rfl, by decide, by decide⟩

/-- C4, amended: for a directory `parent` owned by `user` whose path splits into at most 32
parts, and a name whose trimmed form is non-empty, at most the maximum length and free of
the reserved characters, if the repository counts no sibling directory with the trimmed
name and the physical directory can be made, then `createDirectory` succeeds, appends
exactly one row (a directory of `user` under `parent.Uuid`, named by the trimmed name, at
path `parent.Path + "/" + trimmed name`), and a second call with the same arguments
panics at the name-collision check and leaves the state as the first call left it. -/
theorem createDirectory_succeeds_exactly_once (env : Env D) (s : State D) (parent : Matter)
    (name : String) (user : User) (d : D)
    (hdir : parent.Dir = true) (hown : parent.UserUuid = user.Uuid)
    (hdepth : (Split parent.Path).length ≤ 32)
    (hne : TrimSpace name ≠ "")
    (hlen : (TrimSpace name).utf8ByteSize ≤ MATTER_NAME_MAX_LENGTH)
    (hchars : matchesClass reservedWithSlash (TrimSpace name) = false)
    (hfree : CountByUserUuidAndPuuidAndDirAndName user.Uuid parent.Uuid true
      (TrimSpace name) s = 0)
    (hdisk : env.MakeDirAll s.disk
      (env.GetUserFileRootDir user.Username ++ parent.Path ++ "/" ++ TrimSpace name) = some d) :
    ∃ m s1, createDirectory env parent name user s = .ok m s1
      ∧ s1.matters = s.matters ++ [m]
      ∧ m.Puuid = parent.Uuid ∧ m.UserUuid = user.Uuid ∧ m.Dir = true
      ∧ m.Name = TrimSpace name ∧ m.Path = parent.Path ++ "/" ++ TrimSpace name
      ∧ createDirectory env parent name user s1
          = .panic (.badRequest "%s 已经存在了，请使用其他名称。") s1 := by
  have hlen2 : ¬ (TrimSpace name).utf8ByteSize > MATTER_NAME_MAX_LENGTH := by omega
  have hdepth2 : ¬ (Split parent.Path).length > 32 := by omega
  have hrun := createDirectory_run env s parent name user d hdir hown hdepth2 hne hlen2
    hchars hfree hdisk
  refine ⟨_, _, hrun, rfl, rfl, rfl, rfl, rfl, rfl, ?_⟩
  have hpos : CountByUserUuidAndPuuidAndDirAndName user.Uuid parent.Uuid true
      (TrimSpace name) (createdState env s parent name user d) > 0 := by
    apply count_pos_of_mem _ _ _ _ _ (createdRow env s parent name user) <;>
      simp [createdState, createdRow]
  simp only [createDirectory, hdir, hown, hne, hlen2, hchars]
  simp [hpos]

/-- C4, amended, at a concrete input: the name `" a "` under the root of `ann`. -/
theorem createDirectory_succeeds_exactly_once_witness :
    ∃ m s1, createDirectory journalEnv (NewRootMatter ann) " a " ann emptyState = .ok m s1
      ∧ s1.matters = emptyState.matters ++ [m]
      ∧ m.Puuid = (NewRootMatter ann).Uuid ∧ m.UserUuid = ann.Uuid ∧ m.Dir = true
      ∧ m.Name = TrimSpace " a " ∧ m.Path = (NewRootMatter ann).Path ++ "/" ++ TrimSpace " a "
      ∧ createDirectory journalEnv (NewRootMatter ann) " a " ann s1
          = .panic (.badRequest "%s 已经存在了，请使用其他名称。") s1 :=
  createDirectory_succeeds_exactly_once journalEnv emptyState (NewRootMatter ann) " a " ann
    ["mkdir /data/ann/a"] rfl rfl (by decide) (by decide) (by decide) (by decide) rfl rfl

/-- C5, the code at the failing inputs.  First: from the empty repository,
`CreateDirectories` makes the directory `a`; `createDirectory` refuses the name `b/c`
there, but `AtomicUpload` stores a file under that name, its characters unchecked, at path
`/a/b/c`, every path being derived from the parent's; `AtomicRename` of that file to `x`
then succeeds and stores the path `/a/b/x`, built from what stands before the last slash
of the old path, where the parent's path and the new name give `/a/x`.  Second:
`AtomicCopy` stores a copy of the file `f` under the name `b/c` in the same way, and
`AtomicRename` of the copy breaks the derivation as before.  Third: `createDirectory` by
`bob` inside the directory `d` of `ann` is refused, but `AtomicUpload` by `bob` into `d`
succeeds, the owner of the directory unchecked, with path `/d/f`; `AtomicRename` of `d` to
`dd` then re-stamps the children of `d` that `ann` owns only, and the file of `bob` keeps
the path `/d/f` under a parent of path `/dd`. -/
theorem AtomicRename_breaks_path_derivation :
    (∃ a s1 m s2 s3,
      CreateDirectories journalEnv ann "/a" emptyState = .ok a s1
      ∧ createDirectory journalEnv a "b/c" ann s1
          = .panic (.badRequest "名称中不能包含以下特殊符号：< > | * ? / \\") s1
      ∧ AtomicUpload journalEnv [] ann a "b/c" false s1 = .ok m s2
      ∧ m = fileRow "m1" "m0" "b/c" "/a/b/c"
      ∧ PathDerived s2.matters
      ∧ AtomicRename journalEnv 1 m "x" ann s2 = .ok () s3
      ∧ s3.matters = [dirRow "m0" "root" "a" "/a", fileRow "m1" "m0" "x" "/a/b/x"]
      ∧ ¬ PathDerived s3.matters)
    ∧ (∃ s1 s2,
      AtomicCopy journalEnv 1 fileF folderD "b/c" false (stateOf [folderD, fileF]) = .ok () s1
      ∧ s1.matters = [folderD, fileF, fileRow "m2" "m0" "b/c" "/d/b/c"]
      ∧ PathDerived s1.matters
      ∧ AtomicRename journalEnv 1 (fileRow "m2" "m0" "b/c" "/d/b/c") "x" ann s1 = .ok () s2
      ∧ s2.matters = [folderD, fileF, fileRow "m2" "m0" "x" "/d/b/x"]
      ∧ ¬ PathDerived s2.matters)
    ∧ (∃ d s1 m s2 s3,
      CreateDirectories journalEnv ann "/d" emptyState = .ok d s1
      ∧ createDirectory journalEnv d "f" bob s1
          = .panic (.badRequest "dirMatter的userUuid和user不一致") s1
      ∧ AtomicUpload journalEnv [] bob d "f" false s1 = .ok m s2
      ∧ d.UserUuid = "u1" ∧ m.UserUuid = "u2" ∧ m.Puuid = d.Uuid ∧ m.Path = "/d/f"
      ∧ PathDerived s2.matters
      ∧ AtomicRename journalEnv 2 d "dd" ann s2 = .ok () s3
      ∧ s3.matters = [dirRow "m0" "root" "dd" "/dd", m]
      ∧ ¬ PathDerived s3.matters) :=
  ⟨⟨_, _, _, _, _, rfl, rfl, rfl, rfl, by decide, rfl, rfl, by decide⟩,
   ⟨_, _, rfl, rfl, by decide, rfl, rfl, by decide⟩,
   ⟨_, _, _, _, _, rfl, rfl, rfl, rfl, rfl, rfl, rfl, by decide, rfl, rfl, by decide⟩⟩

/-- C6, the code at the failing input: in a repository where no two rows share parent,
owner, directory flag and name, `AtomicMoveBatch` moves the file `x` of directory `a` into
directory `b`, which already holds a file `x`; it succeeds, and afterwards two file rows
share parent, owner and name. -/
theorem AtomicMoveBatch_duplicates_sibling_name :
    SiblingUnique (stateOf twoFolders).matters
    ∧ ∃ s1, AtomicMoveBatch journalEnv 2 (some [fileRow "m2" "m0" "x" "/a/x"])
          (dirRow "m1" "root" "b" "/b") (stateOf twoFolders) = .ok () s1
        ∧ ¬ SiblingUnique s1.matters :=
  ⟨by decide, _, rfl, by decide⟩

/-- C7, the code at the failing input: from the empty repository, `CreateDirectories` with
a path of 31 segments, `createDirectory` inside the directory it returns and
`createDirectory` of `x` under the root succeed and leave a well-formed repository whose
directory rows have at most 32 segments, the deepest one exactly 32.  `createDirectory`
inside the deepest directory is refused by the depth check; `AtomicMove`,
`AtomicMoveBatch` and `AtomicCopy` of `x` into the deepest directory each succeed, none of
them making that check, and leave a directory row of 33 segments. -/
theorem AtomicMove_exceeds_depth_bound :
    ∃ p s1 q s2 x s3,
      CreateDirectories journalEnv ann (String.join (List.replicate 31 "/a")) emptyState
        = .ok p s1
      ∧ createDirectory journalEnv p "a" ann s1 = .ok q s2
      ∧ createDirectory journalEnv (NewRootMatter ann) "x" ann s2 = .ok x s3
      ∧ segments q.Path = 32
      ∧ WellFormed s3.matters
      ∧ DepthBounded s3.matters
      ∧ createDirectory journalEnv q "y" ann s3 = .panic (.badRequest "文件夹最多%d层") s3
      ∧ (∃ s4, AtomicMove journalEnv 34 x q false s3 = .ok () s4
          ∧ ¬ DepthBounded s4.matters)
      ∧ (∃ s4, AtomicMoveBatch journalEnv 34 (some [x]) q s3 = .ok () s4
          ∧ ¬ DepthBounded s4.matters)
      ∧ (∃ s4, AtomicCopy journalEnv 2 x q "x" false s3 = .ok () s4
          ∧ ¬ DepthBounded s4.matters) :=
  ⟨_, _, _, _, _, _, rfl, rfl, rfl, by decide,
    ⟨by decide, by decide, acyclic_of_position _ (by decide), by decide, by decide⟩,
    by decide, rfl, ⟨_, rfl, by decide⟩, ⟨_, rfl, by decide⟩, ⟨_, rfl, by decide⟩⟩

/-- C8, the code at the failing input: at a moment when the matter lock of `ann` (`u1`) is
held, `AtomicDelete`, `AtomicMove` and `AtomicCopy` of a matter of `ann` do not run: they
lock the owner of the matter.  `AtomicRename` of the directory `d` of `ann`, called with
the user `bob`, locks `u2` instead: it runs and re-stamps `d` and the rows below it while
the lock of `ann` is held.  `AtomicMoveBatch` of `d` into a directory of `bob` locks the
owner of the destination, `u2`: it runs too, and re-parents and re-stamps the rows of
`ann`. -/
theorem AtomicRename_runs_while_owner_lock_is_held :
    AtomicDelete journalEnv folderT lockedTree = .timeout
    ∧ AtomicMove journalEnv 3 folderD folderT false lockedTree = .timeout
    ∧ AtomicCopy journalEnv 3 folderD folderT "d" false lockedTree = .timeout
    ∧ (∀ r ∈ lockedTree.matters, r.UserUuid = "u1")
    ∧ (∃ s1, AtomicRename journalEnv 3 folderD "dd" bob lockedTree = .ok () s1
        ∧ s1.locks = ["u1"]
        ∧ s1.matters = [dirRow "m0" "root" "dd" "/dd", dirRow "m1" "m0" "e" "/dd/e",
            fileRow "m2" "m1" "g" "/dd/e/g", folderT])
    ∧ (∃ s1, AtomicMoveBatch journalEnv 3 (some [folderD]) bobsFolder lockedShared = .ok () s1
        ∧ s1.locks = ["u1"]
        ∧ s1.matters = [dirRow "m0" "m4" "d" "/b/d", dirRow "m1" "m0" "e" "/b/d/e",
            fileRow "m2" "m1" "g" "/b/d/e/g", folderT, bobsFolder]) :=
  ⟨rfl, rfl, rfl, by decide, ⟨_, rfl, rfl, rfl⟩, ⟨_, rfl, rfl, rfl⟩⟩

/-- C9, the code at the failing input: moving the file `f` of directory `d` into `d`
itself with `overwrite = true` passes the cycle check, and `handleOverwrite`, called with
the destination path `d.Path + "/" + f.Name`, which is the path of `f`, finds and deletes
the row of `f` itself: no row with the identifier of `f` is left when `move` starts. -/
theorem AtomicMove_overwrite_deletes_the_source :
    fileF ∈ (stateOf [folderD, fileF]).matters
    ∧ ∃ chain s1 s2, WrapDetail 2 folderD (stateOf [folderD, fileF]) = .ok chain s1
        ∧ onParentChain fileF chain = false
        ∧ folderD.Path ++ "/" ++ fileF.Name = fileF.Path
        ∧ handleOverwrite journalEnv fileF.UserUuid (folderD.Path ++ "/" ++ fileF.Name) true s1
            = .ok () s2
        ∧ s2.matters = [folderD] :=
  ⟨by decide, _, _, _, rfl, rfl, rfl, rfl, rfl⟩

/-- C10, the code on the failing inputs: when the destination of `copy` is the source
directory itself, the run never finishes, whatever the fuel: the row just created is
listed among the children of the source and copied into itself in turn.  The same holds
for `AtomicCopy`, which does not reject such a destination. -/
theorem copy_into_itself_never_finishes (env : Env D) (fuel : Nat) (s : State D)
    (srcMatter destDirMatter : Matter) (name : String)
    (hdir : srcMatter.Dir = true) (hself : destDirMatter.Uuid = srcMatter.Uuid) :
    (∀ s1, copy env fuel srcMatter destDirMatter name s ≠ .ok () s1)
    ∧ (∀ overwrite s1,
        AtomicCopy env fuel srcMatter destDirMatter name overwrite s ≠ .ok () s1) := by
  refine ⟨copy_self_never_ok env fuel s srcMatter destDirMatter name hdir hself, ?_⟩
  intro overwrite s1 h
  obtain ⟨_, s2, hbody, _⟩ := withMatterLock_eq_ok _ _ _ _ _ h
  unfold AtomicCopyBody at hbody
  split at hbody
  · simp at hbody
  · obtain ⟨_, s3, _, hcopy⟩ := Res.bind_eq_ok _ _ _ _ hbody
    exact copy_self_never_ok env fuel s3 _ _ name hdir hself s2 hcopy

/-- C10 at a concrete input: copying the directory `d` into itself under the name `c`,
with fuel 7. -/
theorem copy_into_itself_never_finishes_witness :
    (∀ s1, copy journalEnv 7 folderD folderD "c" (stateOf [folderD]) ≠ .ok () s1)
    ∧ (∀ overwrite s1,
        AtomicCopy journalEnv 7 folderD folderD "c" overwrite (stateOf [folderD])
          ≠ .ok () s1) :=
  copy_into_itself_never_finishes journalEnv 7 (stateOf [folderD]) folderD folderD "c" rfl rfl

end Claims

end Tank
